import Mathlib

/-!
Verification development for the pns versioned object store writer.

This file shallowly embeds the core of the repository's git object writer
(`GitRepo` in the git back end: `hashObject`, `writeTree`, `writeTrees0`,
`writeTreesN`, `addWriteTree`, `writeCommit`, `addToIndex`) and the import
loop helpers from `cmd/pns/update.go` (`updateDB` loop body, `idToGitName`),
and proves or refutes the frozen claims about them.

Modelling conventions:
  - Go byte slices are `List Nat` (each element a byte value).
  - `SHA1` (Go `[20]byte`) is a `List Nat`, by convention of length 20;
    its zero value is `emptySHA1`.
  - The SHA-1 digest function itself is external to the repository
    (Go standard library `crypto/sha1`), so it is a parameter
    `sha1f : List Nat → List Nat` of every operation that hashes.
  - The loose object store on disk is modelled as an association list
    from hash to (object type, payload); `hashObject` skips the write
    when the hash is already present, exactly as the code skips writing
    when the content-addressed path already exists.
  - Go `for` loops with data-dependent trips are translated to
    structurally recursive functions on an explicit fuel argument that is
    provably sufficient; running out of fuel yields `none`, and totality
    lemmas show the fuel never runs out on the executions considered.
  - Go runtime panics (out-of-range slice bounds or indexing) are
    modelled by `Option`: every slice/index operation is bounds-checked
    and the whole operation returns `none` where the Go code would panic.
-/

/-- Go type `SHA1 [20]byte`: a hash value, by convention 20 bytes. -/
abbrev SHA1 := List Nat

/-- The zero value of `SHA1` (`g.emptySHA1` in the source): 20 zero bytes.
It denotes an empty slot / no parent, never a valid object hash. -/
def emptySHA1 : SHA1 := List.replicate 20 0

/-- `const gitChunkSize = 1000` from the source. -/
def gitChunkSize : Nat := 1000

/-- Fueled decimal digit accumulator: repeatedly divides by 10, prepending
ASCII digits, mirroring how `fmt` renders `%d` for a positive integer. -/
def decimalF : Nat → Nat → List Nat → List Nat
  | 0, _, acc => acc
  | fuel + 1, n, acc => if n = 0 then acc else decimalF fuel (n / 10) ((48 + n % 10) :: acc)

/-- ASCII decimal representation of a natural number (`%d`). -/
def decimal (n : Nat) : List Nat := if n = 0 then [48] else decimalF (n + 1) n []

/-- ASCII decimal representation of a Go `int64` (`strconv.FormatInt(id, 10)`). -/
def decimalInt (i : Int) : List Nat :=
  if i < 0 then 45 :: decimal i.natAbs else decimal i.toNat

/-- `%02d`: decimal, left-padded with a zero to width two. -/
def fmt02 (i : Nat) : List Nat := if i < 10 then [48, 48 + i] else decimal i

/-- Bytes of one blob entry of a tree object: `"100644 %02d.md\x00"` followed
by the 20 raw hash bytes (from `GitRepo.writeTree`). -/
def blobEntryBytes (i : Nat) (h : SHA1) : List Nat :=
  [49, 48, 48, 54, 52, 52, 32] ++ fmt02 i ++ [46, 109, 100, 0] ++ h

/-- Bytes of one subtree entry of a tree object: `"40000 %02d\x00"` followed
by the 20 raw hash bytes (from `GitRepo.writeTree`). -/
def treeEntryBytes (i : Nat) (h : SHA1) : List Nat :=
  [52, 48, 48, 48, 48, 32] ++ fmt02 i ++ [0] ++ h

/-- The bytes contributed by index `i` of `GitRepo.writeTree`'s loop:
a blob entry if slot `i` of `blobs` is non-empty, then a subtree entry if
slot `i` of `trees` is non-empty. -/
def slotBytes (bs ts : List SHA1) (i : Nat) : List Nat :=
  (if i < bs.length ∧ bs.getD i emptySHA1 ≠ emptySHA1 then
    blobEntryBytes i (bs.getD i emptySHA1) else []) ++
  (if i < ts.length ∧ ts.getD i emptySHA1 ≠ emptySHA1 then
    treeEntryBytes i (ts.getD i emptySHA1) else [])

/-- The full payload assembled by `GitRepo.writeTree` before hashing:
the loop runs `i` from `0` to `max (len blobs) (len trees) - 1`. -/
def treeBytes (bs ts : List SHA1) : List Nat :=
  ((List.range (max bs.length ts.length)).map (slotBytes bs ts)).flatten

/-- The ASCII type name of an object type (`objectBlob = 0`, `objectTree = 1`,
`objectCommit = 2`); any other value is the `default` error branch. -/
def typeName : Nat → Option (List Nat)
  | 0 => some [98, 108, 111, 98]
  | 1 => some [116, 114, 101, 101]
  | 2 => some [99, 111, 109, 109, 105, 116]
  | _ + 3 => none

/-- The encoded object: ASCII type name, a space, the decimal byte length of
the payload, a NUL byte, then the payload (the two `Write` calls in
`GitRepo.hashObject`). -/
def encodeObject (typ : Nat) (b : List Nat) : Option (List Nat) :=
  (typeName typ).map fun tn => tn ++ [32] ++ decimal b.length ++ [0] ++ b

/-- One loose-object store entry: (hash, object type, payload). -/
abbrev StoreEntry := SHA1 × Nat × List Nat

/-- Find the object stored under a hash (the `os.Stat` existence check,
and reading the object back for decoding). -/
def storeLookup : List StoreEntry → SHA1 → Option (Nat × List Nat)
  | [], _ => none
  | (h2, t, b) :: rest, h => if h2 = h then some (t, b) else storeLookup rest h

/-- The mutable state of a `GitRepo` value that the embedded operations
touch: the two counters and chunked hash arrays of the incremental tree
index, the loose object store (standing for the `objects/` directory on
disk), the pending index buffer, and the cached author identity. -/
structure GitState where
  blobsCnt : Nat := 0
  treesCnt : Nat := 0
  blobs : List (List SHA1) := []
  trees : List (List SHA1) := []
  store : List StoreEntry := []
  indexBuf : List Nat := []
  author : List Nat := []
deriving DecidableEq

/-- A fresh repository state (freshly `Init`ed bare repo: empty object
store, zeroed tree index). -/
def initState : GitState := {}

/-- `GitRepo.hashObject`: encode, hash, then write the object to the store
unless an object with that hash already exists (idempotent write). An
unknown object type is the error return. -/
def hashObject (sha1f : List Nat → SHA1) (typ : Nat) (b : List Nat) (s : GitState) :
    Option (SHA1 × GitState) :=
  match encodeObject typ b with
  | none => none
  | some enc =>
    let h := sha1f enc
    match storeLookup s.store h with
    | some _ => some (h, s)
    | none => some (h, { s with store := (h, typ, b) :: s.store })

/-- Indexing `a[i/gitChunkSize][i%gitChunkSize]` for reading. -/
def chunkGet (a : List (List SHA1)) (i : Nat) : Option SHA1 :=
  match a[i / gitChunkSize]? with
  | none => none
  | some ch => ch[i % gitChunkSize]?

/-- Assignment `a[i/gitChunkSize][i%gitChunkSize] = h`; `none` where Go
would panic with an index out of range. -/
def chunkSet (a : List (List SHA1)) (i : Nat) (h : SHA1) : Option (List (List SHA1)) :=
  match a[i / gitChunkSize]? with
  | none => none
  | some c =>
    if i % gitChunkSize < c.length then
      some (a.set (i / gitChunkSize) (c.set (i % gitChunkSize) h))
    else none

/-- The Go slice expression `a[k][i:j]`; `none` where Go would panic with
slice bounds out of range (for `make`-created chunks, capacity equals
length, so the bound is the chunk length). -/
def sliceChunk (a : List (List SHA1)) (k i j : Nat) : Option (List SHA1) :=
  match a[k]? with
  | none => none
  | some c => if i ≤ j ∧ j ≤ c.length then some ((c.drop i).take (j - i)) else none

/-- Fueled translation of the growth loop
`for id >= len(a)*gitChunkSize: a = append(a, make([]SHA1, gitChunkSize))`. -/
def growF : Nat → List (List SHA1) → Nat → List (List SHA1)
  | 0, a, _ => a
  | fuel + 1, a, id =>
    if id < a.length * gitChunkSize then a
    else growF fuel (a ++ [List.replicate gitChunkSize emptySHA1]) id

/-- The growth loop with provably sufficient fuel. -/
def grow (a : List (List SHA1)) (id : Nat) : List (List SHA1) :=
  growF (id / gitChunkSize + 2) a id

/-- `GitRepo.writeTree`: serialize the non-empty entries and store the tree
object. -/
def writeTree (sha1f : List Nat → SHA1) (bs ts : List SHA1) (s : GitState) :
    Option (SHA1 × GitState) :=
  hashObject sha1f 1 (treeBytes bs ts) s

/-- `GitRepo.writeTrees0`: rebuild the depth-0 tree from the dense prefix of
the blobs array, store its hash at `trees[0][0]`, then rebuild and return
the root tree over the dense prefix of the trees array. -/
def writeTrees0 (sha1f : List Nat → SHA1) (s : GitState) : Option (SHA1 × GitState) :=
  match sliceChunk s.blobs 0 0 (min s.blobsCnt 100) with
  | none => none
  | some b =>
    match writeTree sha1f b [] s with
    | none => none
    | some (h, s1) =>
      match chunkSet s1.trees 0 h with
      | none => none
      | some ts =>
        match sliceChunk ({ s1 with trees := ts } : GitState).trees 0 0
          (min ({ s1 with trees := ts } : GitState).treesCnt 100) with
        | none => none
        | some t => writeTree sha1f [] t { s1 with trees := ts }

/-- `GitRepo.writeTreesN`: rebuild the tree of node `num` from its blob
children `blobs[num*100 .. num*100+99]` and subtree children
`trees[num*100 .. num*100+99]`, each clipped to the used counts. Note the
faithful reproduction of the source: the upper bound of the blobs slice is
reduced `% gitChunkSize`, the upper bound of the trees slice is not. -/
def writeTreesN (sha1f : List Nat → SHA1) (num : Nat) (s : GitState) :
    Option (SHA1 × GitState) :=
  match (if num * 100 < s.blobsCnt then
      sliceChunk s.blobs (num * 100 / gitChunkSize) (num * 100 % gitChunkSize)
        (if min ((num + 1) * 100) s.blobsCnt % gitChunkSize = 0 then gitChunkSize
          else min ((num + 1) * 100) s.blobsCnt % gitChunkSize)
    else some []),
    (if num * 100 < s.treesCnt then
      sliceChunk s.trees (num * 100 / gitChunkSize) (num * 100 % gitChunkSize)
        (if min ((num + 1) * 100) s.treesCnt = 0 then gitChunkSize
          else min ((num + 1) * 100) s.treesCnt)
    else some []) with
  | some b, some t => writeTree sha1f b t s
  | _, _ => none

/-- Fueled translation of the ancestor walk
`for i := id / 100; i > 0; i /= 100 { h := writeTreesN(i); trees[i] = h }`. -/
def loopAncF (sha1f : List Nat → SHA1) : Nat → Nat → GitState → Option GitState
  | 0, _, _ => none
  | fuel + 1, i, s =>
    if i = 0 then some s
    else
      match writeTreesN sha1f i s with
      | none => none
      | some (h, s1) =>
        match chunkSet s1.trees i h with
        | none => none
        | some ts => loopAncF sha1f fuel (i / 100) { s1 with trees := ts }

/-- `GitRepo.addWriteTree`: grow both chunked arrays, bump the counters,
store the blob hash at its slot, then rebuild the path from the changed
leaf to the root and return the new root tree hash. -/
def addState (s : GitState) (id : Nat) (blobs2 : List (List SHA1)) : GitState :=
  { s with
    blobs := blobs2,
    trees := grow s.trees (id / 100),
    blobsCnt := max s.blobsCnt (id + 1),
    treesCnt := max s.treesCnt (id / 100 + 1) }

def addWriteTree (sha1f : List Nat → SHA1) (id : Nat) (h : SHA1) (s : GitState) :
    Option (SHA1 × GitState) :=
  match chunkSet (grow s.blobs id) id h with
  | none => none
  | some blobs2 =>
    if id < 100 then writeTrees0 sha1f (addState s id blobs2)
    else
      match loopAncF sha1f (id / 100 + 1) (id / 100) (addState s id blobs2) with
      | none => none
      | some s2 =>
        match sliceChunk s2.trees 0 0 (min s2.treesCnt 100) with
        | none => none
        | some t => writeTree sha1f [] t s2

/-- Group an even-length digit string into `'/'`-separated two-digit
components (the loop over `s[i:i+2]` in `idToGitName`). -/
def pairGroups : List Nat → List Nat
  | a :: b :: rest => if rest = [] then [a, b] else a :: b :: 47 :: pairGroups rest
  | l => l

/-- `idToGitName` from `cmd/pns/update.go`: format the id in decimal,
zero-pad to even length, prepend a synthetic `"00/"` component when the
padded form has exactly two digits, split into two-digit components
separated by `'/'`, and append `".md"`. -/
def idToGitName (id : Int) : List Nat :=
  let s := decimalInt id
  let s2 := if s.length % 2 = 1 then 48 :: s else s
  (if s2.length = 2 then [48, 48, 47] else []) ++ pairGroups s2 ++ [46, 109, 100]

/-! ### Basic facts about the decimal formatter -/

theorem decimalF_zero (fuel : Nat) (acc : List Nat) : decimalF fuel 0 acc = acc := by
  cases fuel <;> simp [decimalF]

theorem decimalF_digits (fuel : Nat) :
    ∀ n acc, (∀ d ∈ acc, 48 ≤ d ∧ d ≤ 57) → ∀ d ∈ decimalF fuel n acc, 48 ≤ d ∧ d ≤ 57 := by
  induction fuel with
  | zero => intro n acc hacc; simpa [decimalF] using hacc
  | succ fuel ih =>
    intro n acc hacc d hd
    by_cases hn : n = 0
    · subst hn; simp [decimalF] at hd; exact hacc d hd
    · rw [decimalF, if_neg hn] at hd
      refine ih (n / 10) _ ?_ d hd
      intro e he
      rcases List.mem_cons.mp he with h | h
      · subst h; constructor <;> omega
      · exact hacc e h

theorem decimal_digits (n : Nat) : ∀ d ∈ decimal n, 48 ≤ d ∧ d ≤ 57 := by
  unfold decimal
  split
  · intro d hd; simp at hd; omega
  · exact decimalF_digits _ n [] (by simp)

theorem decimalF_head (fuel : Nat) :
    ∀ n acc, n ≠ 0 → n < 10 ^ fuel →
      ∃ d t, decimalF fuel n acc = d :: t ∧ 49 ≤ d ∧ d ≤ 57 := by
  induction fuel with
  | zero => intro n acc hn hlt; omega
  | succ fuel ih =>
    intro n acc hn hlt
    rw [decimalF, if_neg hn]
    by_cases h10 : n / 10 = 0
    · have hn10 : n < 10 := by omega
      have hmod : n % 10 = n := Nat.mod_eq_of_lt hn10
      rw [h10, decimalF_zero]
      exact ⟨48 + n % 10, acc, rfl, by omega, by omega⟩
    · refine ih (n / 10) _ h10 ?_
      have : 10 ^ (fuel + 1) = 10 * 10 ^ fuel := by ring
      rw [this] at hlt
      exact Nat.div_lt_of_lt_mul hlt

theorem decimal_head (n : Nat) (hn : n ≠ 0) :
    ∃ d t, decimal n = d :: t ∧ 49 ≤ d ∧ d ≤ 57 := by
  unfold decimal
  rw [if_neg hn]
  exact decimalF_head (n + 1) n [] hn
    (lt_of_lt_of_le (Nat.lt_pow_self (by norm_num) n) (Nat.pow_le_pow_right (by norm_num) (by omega)))

/-- The leading digit of the decimal rendering is the character 0 exactly
when the number is 0: no leading zeros. -/
theorem decimal_no_leading_zero (n : Nat) : (decimal n).head? = some 48 ↔ n = 0 := by
  constructor
  · intro h
    by_contra hn
    obtain ⟨d, t, he, hd1, _⟩ := decimal_head n hn
    rw [he] at h
    simp at h
    omega
  · intro h; subst h; rfl

theorem decimal_ne_nil (n : Nat) : decimal n ≠ [] := by
  by_cases hn : n = 0
  · subst hn; simp [decimal]
  · obtain ⟨d, t, he, _, _⟩ := decimal_head n hn
    simp [he]

/-! ### C5, C6, C7: path encoding, idempotent writes, object encoding -/

theorem typeName_isSome (typ : Nat) (h : typ ≤ 2) : ∃ tn, typeName typ = some tn := by
  interval_cases typ <;> exact ⟨_, rfl⟩

theorem typeName_big (typ : Nat) (h : 3 ≤ typ) : typeName typ = none := by
  obtain ⟨k, rfl⟩ : ∃ k, typ = k + 3 := ⟨typ - 3, by omega⟩
  rfl

/-- C5 — Path encoding boundary. `idToGitName` maps the depth-1 ids 0 and 99
(one id-derived two-digit component, with the synthetic leading `"00"`
directory) to `"00/00.md"` and `"00/99.md"`, and the depth-2 ids 100 and
9999 (two id-derived components, no synthetic component) to `"01/00.md"`
and `"99/99.md"`. The short-id padding rule (zero-pad to even length, then
prepend a synthetic `"00"` component exactly when the padded form has two
digits) is checked on the 1-digit id 5 (`"00/05.md"`), the 2-digit boundary
id 99 (`"00/99.md"`), and the 3-digit id 123 (padded to `"0123"`, giving
`"01/23.md"`). Each listed path has exactly one directory separator up to
id 9999; id 10000 is the first to get two. -/
theorem C5_path_encoding_boundary :
    idToGitName 0 = [48, 48, 47, 48, 48, 46, 109, 100] ∧
    idToGitName 99 = [48, 48, 47, 57, 57, 46, 109, 100] ∧
    idToGitName 100 = [48, 49, 47, 48, 48, 46, 109, 100] ∧
    idToGitName 9999 = [57, 57, 47, 57, 57, 46, 109, 100] ∧
    idToGitName 5 = [48, 48, 47, 48, 53, 46, 109, 100] ∧
    idToGitName 123 = [48, 49, 47, 50, 51, 46, 109, 100] ∧
    (idToGitName 0).count 47 = 1 ∧ (idToGitName 99).count 47 = 1 ∧
    (idToGitName 100).count 47 = 1 ∧ (idToGitName 9999).count 47 = 1 ∧
    (idToGitName 10000).count 47 = 2 := by
  decide

/-- C7 — Object encoding and hash. For the three known kinds the operation
hashes exactly `typename ++ " " ++ decimal length ++ NUL ++ payload` (with
the ASCII names `blob`, `tree`, `commit`), the decimal length has no
leading zero (its leading digit is `'0'` only for the empty payload) and
consists of decimal digits only, and every other kind value is an error. -/
theorem C7_object_encoding (sha1f : List Nat → SHA1) (typ : Nat) (b : List Nat) (s : GitState) :
    (hashObject sha1f typ b s).map Prod.fst =
      (typeName typ).map (fun tn => sha1f (tn ++ [32] ++ decimal b.length ++ [0] ++ b)) ∧
    ((hashObject sha1f typ b s).isNone ↔ 3 ≤ typ) ∧
    typeName 0 = some [98, 108, 111, 98] ∧
    typeName 1 = some [116, 114, 101, 101] ∧
    typeName 2 = some [99, 111, 109, 109, 105, 116] ∧
    ((decimal b.length).head? = some 48 ↔ b.length = 0) ∧
    (decimal b.length).all (fun d => 48 ≤ d && d ≤ 57) = true := by
  refine ⟨?_, ?_, rfl, rfl, rfl, decimal_no_leading_zero b.length, ?_⟩
  · unfold hashObject encodeObject
    cases htn : typeName typ with
    | none => simp
    | some tn =>
      simp only [Option.map_some']
      cases hl : storeLookup s.store (sha1f (tn ++ [32] ++ decimal b.length ++ [0] ++ b)) <;>
        simp
  · constructor
    · intro hnone
      by_contra hlt
      obtain ⟨tn, htn⟩ := typeName_isSome typ (by omega)
      unfold hashObject encodeObject at hnone
      rw [htn] at hnone
      simp only [Option.map_some'] at hnone
      cases hl : storeLookup s.store (sha1f (tn ++ [32] ++ decimal b.length ++ [0] ++ b)) <;>
        rw [hl] at hnone <;> simp at hnone
    · intro hge
      unfold hashObject encodeObject
      rw [typeName_big typ hge]
      rfl
  · rw [List.all_eq_true]
    intro d hd
    have := decimal_digits b.length d hd
    simp only [decide_eq_true_eq, Bool.and_eq_true]
    omega

/-- C6 — Idempotent writes. For any valid object kind and payload, issuing
the put operation twice returns the same hash both times, and the second
call leaves the state (in particular the object store, standing for the
on-disk objects directory) completely unchanged: the existing object is
found by the existence check and no write happens. -/
theorem C6_idempotent_writes (sha1f : List Nat → SHA1) (typ : Nat) (b : List Nat)
    (s : GitState) (htyp : typ ≤ 2) :
    ∃ h1 s1, hashObject sha1f typ b s = some (h1, s1) ∧
      hashObject sha1f typ b s1 = some (h1, s1) := by
  obtain ⟨tn, htn⟩ := typeName_isSome typ htyp
  unfold hashObject encodeObject
  rw [htn]
  simp only [Option.map_some']
  cases hl : storeLookup s.store (sha1f (tn ++ [32] ++ decimal b.length ++ [0] ++ b)) with
  | some v => exact ⟨_, _, rfl, by rw [hl]⟩
  | none =>
    refine ⟨_, _, rfl, ?_⟩
    simp [storeLookup]

/-- Witness for C6 at a concrete input. -/
theorem C6_idempotent_writes_witness :
    (0 : Nat) ≤ 2 ∧
    ∃ h1 s1, hashObject (fun _ => List.replicate 20 1) 0 [10, 20] initState = some (h1, s1) ∧
      hashObject (fun _ => List.replicate 20 1) 0 [10, 20] s1 = some (h1, s1) :=
  ⟨by decide, C6_idempotent_writes (fun _ => List.replicate 20 1) 0 [10, 20] initState (by decide)⟩

/-! ### C3: the ancestor-rebuild walk is not total -/

/-- A concrete stand-in digest function for evaluating the model on fixed
inputs where no property of the digest matters. -/
def constSha : List Nat → SHA1 := fun _ => List.replicate 20 1

/-- C3 — Scaling totality fails: inserting id 100000 (the smallest id whose
ancestor walk takes a trees slice with `num ≥ 10` while `num*100 <
treesCnt`) makes `writeTreesN` slice the trees chunk with upper bound
`min ((num+1)*100) treesCnt = 1001`, not reduced modulo `gitChunkSize`
(unlike the blobs slice one branch above), against a chunk of length 1000:
in Go this is a slice-bounds-out-of-range panic. Inserting id 99999 — the
largest id whose walk never hits that branch — still succeeds, so bulk
imports fail from the 100001st possible id onwards, against the spec's
stated goal of bulk-importing hundreds of thousands of notes. -/
theorem C3_insert_100000_out_of_range :
    (addWriteTree constSha 100000 (List.replicate 20 7) initState).isNone = true ∧
    (addWriteTree constSha 99999 (List.replicate 20 7) initState).isSome = true := by
  constructor
  · set_option maxRecDepth 100000 in decide
  · set_option maxRecDepth 100000 in decide

/-! ### The commit chain builder and the import loop body -/

/-- One hex digit, lower case, as produced by `%x`. -/
def hexDigit (n : Nat) : Nat := if n < 10 then 48 + n else 87 + n

/-- Two hex digits of one byte, as produced by `%x` for each byte. -/
def hexByte (n : Nat) : List Nat := [hexDigit (n / 16), hexDigit (n % 16)]

/-- `%x` of a hash: two lower-case hex digits per byte. -/
def hexOfBytes (h : SHA1) : List Nat := (h.map hexByte).flatten

/-- `GitRepo.addToIndex`: append `"100644 %x\t%s\n"` for (hash, path) to the
pending index buffer. -/
def addToIndex (path : List Nat) (h : SHA1) (s : GitState) : GitState :=
  { s with indexBuf :=
      s.indexBuf ++ [49, 48, 48, 54, 52, 52, 32] ++ hexOfBytes h ++ [9] ++ path ++ [10] }

/-- The body of a commit object as assembled by `GitRepo.writeCommit`:
a `tree` line, a `parent` line only when the parent hash is non-zero, an
`author` line (author identity, author-date unix seconds, zone), a
`committer` line (same identity, current time, zone), a blank line, and
the note id in decimal as the message. -/
def commitBytes (author : List Nat) (id : Nat) (tree parent : SHA1)
    (aUnix : Int) (aZone : List Nat) (cUnix : Int) (cZone : List Nat) : List Nat :=
  [116, 114, 101, 101, 32] ++ hexOfBytes tree ++ [10] ++
  (if parent = emptySHA1 then []
    else [112, 97, 114, 101, 110, 116, 32] ++ hexOfBytes parent ++ [10]) ++
  [97, 117, 116, 104, 111, 114, 32] ++ author ++ [32] ++ decimalInt aUnix ++ [32] ++
    aZone ++ [10] ++
  [99, 111, 109, 109, 105, 116, 116, 101, 114, 32] ++ author ++ [32] ++ decimalInt cUnix ++
    [32] ++ cZone ++ [10, 10] ++ decimal id ++ [10]

/-- `GitRepo.writeCommit`: resolve and cache the author identity on first
use (from the external `git config` values `user.name` / `user.email`,
modelled by the `config` parameter; absence is a fatal error), then encode
and store the commit body. `cUnix`/`cZone` stand for the `time.Now()`
committer timestamp. -/
def writeCommit (sha1f : List Nat → SHA1) (config : Option (List Nat × List Nat))
    (id : Nat) (tree parent : SHA1) (aUnix : Int) (aZone : List Nat)
    (cUnix : Int) (cZone : List Nat) (s : GitState) : Option (SHA1 × GitState) :=
  match (if s.author = [] then
          config.map (fun ne => ne.1 ++ [32, 60] ++ ne.2 ++ [62])
        else some s.author) with
  | none => none
  | some author =>
    hashObject sha1f 2 (commitBytes author id tree parent aUnix aZone cUnix cZone)
      { s with author := author }

/-- Errors the import loop body can return for one note. -/
inductive NoteErr
  | negativeID
  | overflowID
  | gitErr
deriving DecidableEq

/-- The per-note body of the import loop in `updateDB`
(`cmd/pns/update.go`): hash and store the note text as a blob, then check
the id for negativity and for overflow of the platform `int` (`maxInt`),
then append the path→hash line to the pending index, fold the blob into
the tree index, and append a commit. The state is returned in every case
because the loop body mutates the repository (the object store) before the
id checks. -/
def processNote (sha1f : List Nat → SHA1) (config : Option (List Nat × List Nat))
    (maxInt : Nat) (nid : Int) (payload : List Nat) (aUnix : Int)
    (aZone cZone : List Nat) (cUnix : Int) (parent : SHA1) (s : GitState) :
    Except NoteErr SHA1 × GitState :=
  match hashObject sha1f 0 payload s with
  | none => (Except.error NoteErr.gitErr, s)
  | some (h, s1) =>
    if nid < 0 then (Except.error NoteErr.negativeID, s1)
    else if (maxInt : Int) < nid then (Except.error NoteErr.overflowID, s1)
    else
      let s2 := addToIndex (idToGitName nid) h s1
      match addWriteTree sha1f nid.toNat h s2 with
      | none => (Except.error NoteErr.gitErr, s2)
      | some (root, s3) =>
        match writeCommit sha1f config nid.toNat root parent aUnix aZone cUnix cZone s3 with
        | none => (Except.error NoteErr.gitErr, s3)
        | some (c, s4) => (Except.ok c, s4)

instance {e a : Type} [DecidableEq e] [DecidableEq a] : DecidableEq (Except e a) := fun x y =>
  match x, y with
  | Except.ok u, Except.ok v => decidable_of_iff (u = v) (by simp)
  | Except.error u, Except.error v => decidable_of_iff (u = v) (by simp)
  | Except.ok _, Except.error _ => isFalse (by simp)
  | Except.error _, Except.ok _ => isFalse (by simp)

/-- A valid-kind `hashObject` call succeeds and touches nothing but the
object store, to which it prepends at most the one new object. -/
theorem hashObject_fields (sha1f : List Nat → SHA1) (typ : Nat) (b : List Nat)
    (s : GitState) (htyp : typ ≤ 2) :
    ∃ hh s1, hashObject sha1f typ b s = some (hh, s1) ∧
      s1.blobsCnt = s.blobsCnt ∧ s1.treesCnt = s.treesCnt ∧ s1.blobs = s.blobs ∧
      s1.trees = s.trees ∧ s1.indexBuf = s.indexBuf ∧ s1.author = s.author ∧
      (s1.store = s.store ∨ s1.store = (hh, typ, b) :: s.store) := by
  obtain ⟨tn, htn⟩ := typeName_isSome typ htyp
  unfold hashObject encodeObject
  rw [htn]
  simp only [Option.map_some']
  cases hl : storeLookup s.store (sha1f (tn ++ [32] ++ decimal b.length ++ [0] ++ b)) with
  | none => exact ⟨_, _, rfl, rfl, rfl, rfl, rfl, rfl, rfl, Or.inr rfl⟩
  | some v => exact ⟨_, _, rfl, rfl, rfl, rfl, rfl, rfl, rfl, Or.inl rfl⟩

/-- C4 (as stated) is false — counterexample: a note with the negative id
-1 is rejected by the import loop, but its blob has already been written:
the object store of the returned state is not the (empty) store the run
started from, contradicting `no object (not even the note's blob) has been
written to the object store before the rejection`. -/
theorem C4_counterexample :
    (processNote constSha none 1000 (-1) [] 0 [] [] 0 emptySHA1 initState).1 =
      Except.error NoteErr.negativeID ∧
    (processNote constSha none 1000 (-1) [] 0 [] [] 0 emptySHA1 initState).2.store ≠
      initState.store := by
  decide

/-- C4 — amended. For every note whose id is negative or exceeds `maxInt`,
the import loop body returns a capacity error for that note, and at that
point no tree-index, pending-index, commit or author state has been
mutated — but the note's blob has already been hashed and (unless an
identical blob already existed) written to the object store, so the
rejection happens after one object-store mutation, not before any
mutation. -/
theorem C4_capacity_error_after_blob_write (sha1f : List Nat → SHA1)
    (config : Option (List Nat × List Nat)) (maxInt : Nat) (nid : Int)
    (payload : List Nat) (aUnix : Int) (aZone cZone : List Nat) (cUnix : Int)
    (parent : SHA1) (s : GitState) (hbad : nid < 0 ∨ (maxInt : Int) < nid) :
    ∃ e s1, processNote sha1f config maxInt nid payload aUnix aZone cZone cUnix parent s =
        (Except.error e, s1) ∧
      (e = NoteErr.negativeID ∨ e = NoteErr.overflowID) ∧
      s1.blobsCnt = s.blobsCnt ∧ s1.treesCnt = s.treesCnt ∧ s1.blobs = s.blobs ∧
      s1.trees = s.trees ∧ s1.indexBuf = s.indexBuf ∧ s1.author = s.author ∧
      (s1.store = s.store ∨ ∃ h, s1.store = (h, 0, payload) :: s.store) := by
  obtain ⟨hh, s1, hhash, f1, f2, f3, f4, f5, f6, f7⟩ :=
    hashObject_fields sha1f 0 payload s (by omega)
  have hstore : s1.store = s.store ∨ ∃ h, s1.store = (h, 0, payload) :: s.store := by
    rcases f7 with h | h
    · exact Or.inl h
    · exact Or.inr ⟨hh, h⟩
  by_cases hneg : nid < 0
  · refine ⟨NoteErr.negativeID, s1, ?_, Or.inl rfl, f1, f2, f3, f4, f5, f6, hstore⟩
    simp only [processNote, hhash, if_pos hneg]
  · have hover : (maxInt : Int) < nid := by tauto
    refine ⟨NoteErr.overflowID, s1, ?_, Or.inr rfl, f1, f2, f3, f4, f5, f6, hstore⟩
    simp only [processNote, hhash, if_neg hneg, if_pos hover]

/-- Witness for the amended C4 at a concrete input. -/
theorem C4_capacity_error_after_blob_write_witness :
    ((-1 : Int) < 0 ∨ ((1000 : Nat) : Int) < -1) ∧
    ∃ e s1, processNote constSha none 1000 (-1) [] 0 [] [] 0 emptySHA1 initState =
        (Except.error e, s1) ∧
      (e = NoteErr.negativeID ∨ e = NoteErr.overflowID) ∧
      s1.blobsCnt = initState.blobsCnt ∧ s1.treesCnt = initState.treesCnt ∧
      s1.blobs = initState.blobs ∧ s1.trees = initState.trees ∧
      s1.indexBuf = initState.indexBuf ∧ s1.author = initState.author ∧
      (s1.store = initState.store ∨ ∃ h, s1.store = (h, 0, []) :: initState.store) :=
  ⟨Or.inl (by decide),
    C4_capacity_error_after_blob_write constSha none 1000 (-1) [] 0 [] [] 0 emptySHA1
      initState (Or.inl (by decide))⟩

/-! ### Structured tree entries and the tree-object parser -/

/-- A structured tree entry: (mode string, name, hash). -/
abbrev TreeEntry := List Nat × List Nat × SHA1

/-- The bytes of one tree entry: mode, space, name, NUL, raw hash bytes. -/
def serializeEntry (e : TreeEntry) : List Nat := e.1 ++ 32 :: e.2.1 ++ 0 :: e.2.2

/-- The bytes of a whole tree payload from its entry list. -/
def serializeEntries (es : List TreeEntry) : List Nat := (es.map serializeEntry).flatten

/-- Modelled from the spec: decoding a tree object payload, as the external
version-control tool reading the repository does (section 6's on-disk
contract `mode SP name NUL hash20`, repeated; the repository source itself
contains no tree decoder, only the writer). Fueled structural parser;
`none` on malformed input. -/
def parseTreeF : Nat → List Nat → Option (List TreeEntry)
  | 0, b => if b = [] then some [] else none
  | fuel + 1, b =>
    if b = [] then some []
    else
      let mode := b.takeWhile (fun c => c != 32)
      if mode.length = b.length then none
      else
        let r1 := b.drop (mode.length + 1)
        let name := r1.takeWhile (fun c => c != 0)
        if name.length = r1.length then none
        else
          let r2 := r1.drop (name.length + 1)
          if r2.length < 20 then none
          else (parseTreeF fuel (r2.drop 20)).map (fun es => (mode, name, r2.take 20) :: es)

/-- Parse a tree payload (the payload length bounds the entry count). -/
def parseTree (b : List Nat) : Option (List TreeEntry) := parseTreeF b.length b

/-- Well-formedness of an entry required for the round trip: no space in
the mode, no NUL in the name, a 20-byte hash. -/
def goodEntry (e : TreeEntry) : Prop :=
  (∀ c ∈ e.1, c ≠ 32) ∧ (∀ c ∈ e.2.1, c ≠ 0) ∧ e.2.2.length = 20

theorem takeWhile_append_all {p : Nat → Bool} (xs : List Nat) (y : Nat) (ys : List Nat)
    (hx : ∀ x ∈ xs, p x = true) (hy : p y = false) :
    (xs ++ y :: ys).takeWhile p = xs := by
  induction xs with
  | nil => simp [List.takeWhile_cons, hy]
  | cons a t ih =>
    have h1 : p a = true := hx a (by simp)
    have h2 := ih fun x hx2 => hx x (by simp [hx2])
    simp [List.takeWhile_cons, h1, h2]

theorem serializeEntry_length (e : TreeEntry) :
    (serializeEntry e).length = e.1.length + e.2.1.length + e.2.2.length + 2 := by
  simp [serializeEntry]
  omega

theorem serializeEntries_cons (e : TreeEntry) (es : List TreeEntry) :
    serializeEntries (e :: es) = serializeEntry e ++ serializeEntries es := by
  simp [serializeEntries]

theorem serializeEntries_length (es : List TreeEntry) :
    es.length ≤ (serializeEntries es).length := by
  induction es with
  | nil => simp [serializeEntries]
  | cons e t ih =>
    rw [serializeEntries_cons, List.length_append, serializeEntry_length]
    simp only [List.length_cons]
    omega

theorem parse_serialize (es : List TreeEntry) :
    ∀ fuel, es.length ≤ fuel → (∀ e ∈ es, goodEntry e) →
      parseTreeF fuel (serializeEntries es) = some es := by
  induction es with
  | nil =>
    intro fuel _ _
    cases fuel <;> simp [parseTreeF, serializeEntries]
  | cons e rest ih =>
    intro fuel hf hg
    obtain ⟨f, rfl⟩ : ∃ f, fuel = f + 1 := ⟨fuel - 1, by simp at hf; omega⟩
    obtain ⟨hmode, hname, hhash⟩ := hg e (by simp)
    have hb : serializeEntries (e :: rest) =
        e.1 ++ 32 :: (e.2.1 ++ 0 :: (e.2.2 ++ serializeEntries rest)) := by
      rw [serializeEntries_cons]
      simp [serializeEntry]
    rw [hb]
    rw [parseTreeF]
    rw [if_neg (by simp)]
    have htw : (e.1 ++ 32 :: (e.2.1 ++ 0 :: (e.2.2 ++ serializeEntries rest))).takeWhile
        (fun c => c != 32) = e.1 :=
      takeWhile_append_all _ _ _ (fun x hx => by simp [hmode x hx]) (by simp)
    simp only [htw]
    rw [if_neg (by simp only [List.length_append, List.length_cons]; omega)]
    have hdrop1 : (e.1 ++ 32 :: (e.2.1 ++ 0 :: (e.2.2 ++ serializeEntries rest))).drop
        (e.1.length + 1) = e.2.1 ++ 0 :: (e.2.2 ++ serializeEntries rest) := by
      rw [show e.1 ++ 32 :: (e.2.1 ++ 0 :: (e.2.2 ++ serializeEntries rest)) =
        (e.1 ++ [32]) ++ (e.2.1 ++ 0 :: (e.2.2 ++ serializeEntries rest)) by simp]
      rw [show e.1.length + 1 = (e.1 ++ [32]).length by simp]
      exact List.drop_left _ _
    simp only [hdrop1]
    have htw2 : (e.2.1 ++ 0 :: (e.2.2 ++ serializeEntries rest)).takeWhile
        (fun c => c != 0) = e.2.1 :=
      takeWhile_append_all _ _ _ (fun x hx => by simp [hname x hx]) (by simp)
    simp only [htw2]
    rw [if_neg (by simp only [List.length_append, List.length_cons]; omega)]
    have hdrop2 : (e.2.1 ++ 0 :: (e.2.2 ++ serializeEntries rest)).drop
        (e.2.1.length + 1) = e.2.2 ++ serializeEntries rest := by
      rw [show e.2.1 ++ 0 :: (e.2.2 ++ serializeEntries rest) =
        (e.2.1 ++ [0]) ++ (e.2.2 ++ serializeEntries rest) by simp]
      rw [show e.2.1.length + 1 = (e.2.1 ++ [0]).length by simp]
      exact List.drop_left _ _
    simp only [hdrop2]
    rw [if_neg (by simp only [List.length_append, hhash]; omega)]
    have htake : (e.2.2 ++ serializeEntries rest).take 20 = e.2.2 := by
      rw [← hhash]; exact List.take_left _ _
    have hdrop3 : (e.2.2 ++ serializeEntries rest).drop 20 = serializeEntries rest := by
      rw [← hhash]; exact List.drop_left _ _
    rw [htake, hdrop3, ih f (by simp at hf; omega) (fun x hx => hg x (by simp [hx]))]
    rfl

/-- Round trip: parsing the serialization of well-formed entries recovers
exactly the entries. -/
theorem parseTree_serialize (es : List TreeEntry) (hg : ∀ e ∈ es, goodEntry e) :
    parseTree (serializeEntries es) = some es :=
  parse_serialize es _ (serializeEntries_length es) hg

/-! ### The entries written by writeTree and their canonical order -/

/-- The ASCII mode string of a blob entry, `"100644"`. -/
def blobMode : List Nat := [49, 48, 48, 54, 52, 52]

/-- The ASCII mode string of a subtree entry, `"40000"`. -/
def treeMode : List Nat := [52, 48, 48, 48, 48]

/-- The structured entries index `i` of `GitRepo.writeTree`'s loop emits. -/
def slotEntries (bs ts : List SHA1) (i : Nat) : List TreeEntry :=
  (if i < bs.length ∧ bs.getD i emptySHA1 ≠ emptySHA1 then
    [(blobMode, fmt02 i ++ [46, 109, 100], bs.getD i emptySHA1)] else []) ++
  (if i < ts.length ∧ ts.getD i emptySHA1 ≠ emptySHA1 then
    [(treeMode, fmt02 i, ts.getD i emptySHA1)] else [])

/-- All structured entries of the tree object `writeTree bs ts` emits. -/
def entriesOf (bs ts : List SHA1) : List TreeEntry :=
  ((List.range (max bs.length ts.length)).map (slotEntries bs ts)).flatten

/-- Strict byte-lexicographic order on names. -/
def bytesLt (x y : List Nat) : Prop := List.Lex (· < ·) x y

/-- The sort key git uses for tree entries: subtree names compare as if a
trailing `'/'` were appended. -/
def gitKey (e : TreeEntry) : List Nat := if e.1 = treeMode then e.2.1 ++ [47] else e.2.1

theorem slotBytes_eq (bs ts : List SHA1) (i : Nat) :
    slotBytes bs ts i = serializeEntries (slotEntries bs ts i) := by
  unfold slotBytes slotEntries
  by_cases h1 : i < bs.length ∧ bs.getD i emptySHA1 ≠ emptySHA1 <;>
    by_cases h2 : i < ts.length ∧ ts.getD i emptySHA1 ≠ emptySHA1
  · rw [if_pos h1, if_pos h1, if_pos h2, if_pos h2]
    simp [serializeEntries, serializeEntry, blobEntryBytes, treeEntryBytes, blobMode, treeMode]
  · rw [if_pos h1, if_pos h1, if_neg h2, if_neg h2]
    simp [serializeEntries, serializeEntry, blobEntryBytes, blobMode]
  · rw [if_neg h1, if_neg h1, if_pos h2, if_pos h2]
    simp [serializeEntries, serializeEntry, treeEntryBytes, treeMode]
  · rw [if_neg h1, if_neg h1, if_neg h2, if_neg h2]
    simp [serializeEntries]

theorem gitKey_blob (n : List Nat) (h : SHA1) : gitKey (blobMode, n, h) = n := by
  simp [gitKey, blobMode, treeMode]

theorem gitKey_tree (n : List Nat) (h : SHA1) : gitKey (treeMode, n, h) = n ++ [47] := by
  simp [gitKey]

theorem serializeEntries_flatten (L : List (List TreeEntry)) :
    serializeEntries L.flatten = (L.map serializeEntries).flatten := by
  induction L with
  | nil => rfl
  | cons l t ih =>
    simp only [List.flatten_cons, List.map_cons, serializeEntries, List.map_append,
      List.flatten_append] at ih ⊢
    rw [ih]

/-- The payload of `writeTree` is exactly the serialization of its
structured entry list. -/
theorem treeBytes_eq (bs ts : List SHA1) :
    treeBytes bs ts = serializeEntries (entriesOf bs ts) := by
  unfold treeBytes entriesOf
  rw [serializeEntries_flatten, List.map_map]
  congr 1
  exact List.map_congr_left fun i _ => slotBytes_eq bs ts i

theorem fmt02_digits (i : Nat) : ∀ c ∈ fmt02 i, 48 ≤ c ∧ c ≤ 57 := by
  unfold fmt02
  split
  · intro c hc
    rcases List.mem_cons.mp hc with rfl | hc
    · omega
    · simp at hc; omega
  · exact decimal_digits i

theorem fmt02_eq (i : Nat) (h : i < 100) : fmt02 i = [48 + i / 10, 48 + i % 10] := by
  interval_cases i <;> rfl

/-- Every entry of `entriesOf` is well-formed provided the non-empty slots
hold 20-byte hashes (which all `sha1f` outputs are). -/
theorem entriesOf_good (bs ts : List SHA1)
    (hlen : ∀ h ∈ bs ++ ts, h.length = 20) :
    ∀ e ∈ entriesOf bs ts, goodEntry e := by
  intro e he
  unfold entriesOf at he
  obtain ⟨l, hl, hel⟩ := List.mem_flatten.mp he
  obtain ⟨i, _, rfl⟩ := List.mem_map.mp hl
  unfold slotEntries at hel
  rcases List.mem_append.mp hel with hmem | hmem
  · split at hmem
    case isTrue hcond =>
      simp only [List.mem_singleton] at hmem
      subst hmem
      refine ⟨by intro c hc; simp [blobMode] at hc; omega, ?_, ?_⟩
      · intro c hc
        rcases List.mem_append.mp hc with hc | hc
        · have := fmt02_digits i c hc; omega
        · simp at hc; omega
      · refine hlen _ (List.mem_append.mpr (Or.inl ?_))
        rw [List.getD_eq_getElem bs emptySHA1 hcond.1]
        exact List.getElem_mem _
    case isFalse => simp at hmem
  · split at hmem
    case isTrue hcond =>
      simp only [List.mem_singleton] at hmem
      subst hmem
      refine ⟨by intro c hc; simp [treeMode] at hc; omega, ?_, ?_⟩
      · intro c hc
        have := fmt02_digits i c hc; omega
      · refine hlen _ (List.mem_append.mpr (Or.inr ?_))
        rw [List.getD_eq_getElem ts emptySHA1 hcond.1]
        exact List.getElem_mem _
    case isFalse => simp at hmem

theorem lex_append_lt (zs : List Nat) {a b : Nat} (xs ys : List Nat) (hab : a < b) :
    bytesLt (zs ++ a :: xs) (zs ++ b :: ys) := by
  induction zs with
  | nil => exact List.Lex.rel hab
  | cons z t ih => exact List.Lex.cons ih

theorem lex_fmt02 (i j : Nat) (hij : i < j) (hj : j < 100) (xs ys : List Nat) :
    bytesLt (fmt02 i ++ xs) (fmt02 j ++ ys) := by
  rw [fmt02_eq i (by omega), fmt02_eq j hj]
  by_cases h : i / 10 < j / 10
  · exact List.Lex.rel (by omega)
  · have h1 : i / 10 = j / 10 := by omega
    have h2 : i % 10 < j % 10 := by omega
    rw [h1]
    exact List.Lex.cons (List.Lex.rel (by omega))

/-- The key of any entry in slot `i` is `fmt02 i` followed by a non-empty
suffix whose first byte is 46 (blob, `".md"`) or 47 (subtree, `"/"`). -/
theorem slotEntries_key (bs ts : List SHA1) (i : Nat) :
    ∀ e ∈ slotEntries bs ts i,
      gitKey e = fmt02 i ++ [46, 109, 100] ∨ gitKey e = fmt02 i ++ [47] := by
  intro e he
  unfold slotEntries at he
  rcases List.mem_append.mp he with hmem | hmem <;> split at hmem <;> simp at hmem <;>
    subst hmem
  · left
    simp [gitKey, blobMode, treeMode]
  · right
    simp [gitKey]

/-- C10 — Canonical tree-entry order. Every tree object assembled by
`writeTree` (whose two slices always have at most 100 entries in any run)
parses back to an entry list whose modes are only `100644` and `40000`,
whose names are the two-digit index (with `".md"` on blobs), and which is
strictly increasing in git's canonical order: ascending index, and for a
given index the blob entry `NN.md` before the subtree entry `NN` (because
git compares the subtree name as `NN/` and `'.' < '/'`). -/
theorem C10_canonical_tree_entry_order (bs ts : List SHA1)
    (hb : bs.length ≤ 100) (ht : ts.length ≤ 100)
    (hlen : ∀ h ∈ bs ++ ts, h.length = 20) :
    ∃ entries, parseTree (treeBytes bs ts) = some entries ∧
      entries.Pairwise (fun e1 e2 => bytesLt (gitKey e1) (gitKey e2)) ∧
      (∀ e ∈ entries,
        (e.1 = blobMode ∧ ∃ i, i < 100 ∧ e.2.1 = fmt02 i ++ [46, 109, 100]) ∨
        (e.1 = treeMode ∧ ∃ i, i < 100 ∧ e.2.1 = fmt02 i)) := by
  refine ⟨entriesOf bs ts, ?_, ?_, ?_⟩
  · rw [treeBytes_eq]
    exact parseTree_serialize _ (entriesOf_good bs ts hlen)
  · unfold entriesOf
    rw [List.pairwise_flatten]
    constructor
    · intro l hl
      obtain ⟨i, hi, rfl⟩ := List.mem_map.mp hl
      have hi100 : i < 100 := by
        have := List.mem_range.mp hi; omega
      unfold slotEntries
      by_cases h1 : i < bs.length ∧ bs.getD i emptySHA1 ≠ emptySHA1 <;>
        by_cases h2 : i < ts.length ∧ ts.getD i emptySHA1 ≠ emptySHA1
      · rw [if_pos h1, if_pos h2, List.singleton_append]
        refine List.Pairwise.cons ?_ (List.pairwise_singleton _ _)
        intro y hy
        rw [List.mem_singleton] at hy
        subst hy
        rw [gitKey_blob, gitKey_tree]
        exact lex_append_lt (fmt02 i) _ _ (by omega)
      · rw [if_pos h1, if_neg h2, List.append_nil]
        exact List.pairwise_singleton _ _
      · rw [if_neg h1, if_pos h2, List.nil_append]
        exact List.pairwise_singleton _ _
      · rw [if_neg h1, if_neg h2]
        exact List.Pairwise.nil
    · rw [List.pairwise_map]
      refine (List.pairwise_lt_range _).imp ?_
      intro i j hij x hx y hy
      have hj100 : j < 100 := by
        -- j is drawn from `range (max bs.length ts.length)` and both bounds are ≤ 100;
        -- membership is not directly available from `Pairwise.imp`, so bound via keys:
        -- `slotEntries` is empty for out-of-range j, contradicting `hy`.
        by_contra hj
        unfold slotEntries at hy
        have hjb : ¬(j < bs.length) := by omega
        have hjt : ¬(j < ts.length) := by omega
        simp [hjb, hjt] at hy
      rcases slotEntries_key bs ts i x hx with hk | hk <;>
        rcases slotEntries_key bs ts j y hy with hk2 | hk2 <;>
          rw [hk, hk2] <;> exact lex_fmt02 i j hij hj100 _ _
  · intro e he
    unfold entriesOf at he
    obtain ⟨l, hl, hel⟩ := List.mem_flatten.mp he
    obtain ⟨i, hi, rfl⟩ := List.mem_map.mp hl
    have hi100 : i < 100 := by
      have := List.mem_range.mp hi
      omega
    unfold slotEntries at hel
    rcases List.mem_append.mp hel with hmem | hmem <;> split at hmem <;> simp at hmem <;>
      subst hmem
    · exact Or.inl ⟨rfl, i, hi100, rfl⟩
    · exact Or.inr ⟨rfl, i, hi100, rfl⟩

/-- Witness for C10 at a concrete input: one tree with a blob and a
subtree at index 0 and a blob at index 1. -/
theorem C10_canonical_tree_entry_order_witness :
    ([List.replicate 20 3, List.replicate 20 4] : List SHA1).length ≤ 100 ∧
    ([List.replicate 20 5] : List SHA1).length ≤ 100 ∧
    (∀ h ∈ ([List.replicate 20 3, List.replicate 20 4] : List SHA1) ++
        [List.replicate 20 5], h.length = 20) ∧
    ∃ entries,
      parseTree (treeBytes [List.replicate 20 3, List.replicate 20 4]
        [List.replicate 20 5]) = some entries ∧
      entries.Pairwise (fun e1 e2 => bytesLt (gitKey e1) (gitKey e2)) ∧
      (∀ e ∈ entries,
        (e.1 = blobMode ∧ ∃ i, i < 100 ∧ e.2.1 = fmt02 i ++ [46, 109, 100]) ∨
        (e.1 = treeMode ∧ ∃ i, i < 100 ∧ e.2.1 = fmt02 i)) :=
  ⟨by decide, by decide, by decide,
    C10_canonical_tree_entry_order _ _ (by decide) (by decide) (by decide)⟩

/-! ### Decoding commit objects and walking the parent chain -/

/-- Inverse of `hexDigit`. -/
def hexVal (c : Nat) : Nat := if c < 87 then c - 48 else c - 87

theorem hexVal_hexDigit (n : Nat) : hexVal (hexDigit n) = n := by
  unfold hexVal hexDigit
  split <;> split <;> omega

theorem hexDigit_ge (n : Nat) : 48 ≤ hexDigit n := by
  unfold hexDigit; split <;> omega

/-- Decode a hex string two digits at a time into bytes. -/
def hexPairs : List Nat → Option SHA1
  | [] => some []
  | _ :: [] => none
  | c1 :: c2 :: rest => (hexPairs rest).map fun t => (16 * hexVal c1 + hexVal c2) :: t

theorem hexPairs_hexOfBytes (h : SHA1) : hexPairs (hexOfBytes h) = some h := by
  induction h with
  | nil => rfl
  | cons b t ih =>
    show hexPairs (hexDigit (b / 16) :: hexDigit (b % 16) :: hexOfBytes t) = some (b :: t)
    rw [hexPairs, ih]
    simp [hexVal_hexDigit]
    omega

/-- Modelled from the spec: reading the `tree` header line of a commit
object back, as the external tool walking the history does (the repository
source only writes commits, never parses them). -/
def parseCommitTree (b : List Nat) : Option SHA1 :=
  if b.take 5 = [116, 114, 101, 101, 32] then
    hexPairs ((b.drop 5).takeWhile (fun c => c != 10))
  else none

/-- Modelled from the spec: reading the optional `parent` header line of a
commit object back; `some none` means a well-formed commit without a
parent line. -/
def parseCommitParent (b : List Nat) : Option (Option SHA1) :=
  if b.take 5 = [116, 114, 101, 101, 32] then
    match (b.drop 5).dropWhile (fun c => c != 10) with
    | 10 :: r2 =>
      if r2.take 7 = [112, 97, 114, 101, 110, 116, 32] then
        (hexPairs ((r2.drop 7).takeWhile (fun c => c != 10))).map some
      else some none
    | _ => none
  else none

theorem dropWhile_append_all {p : Nat → Bool} (xs : List Nat) (y : Nat) (ys : List Nat)
    (hx : ∀ x ∈ xs, p x = true) (hy : p y = false) :
    (xs ++ y :: ys).dropWhile p = y :: ys := by
  induction xs with
  | nil => simp [List.dropWhile_cons, hy]
  | cons a t ih =>
    have h1 : p a = true := hx a (by simp)
    have h2 := ih fun x hx2 => hx x (by simp [hx2])
    simp [List.dropWhile_cons, h1, h2]

theorem hexOfBytes_no_newline (h : SHA1) : ∀ c ∈ hexOfBytes h, (c != 10) = true := by
  intro c hc
  unfold hexOfBytes at hc
  obtain ⟨l, hl, hcl⟩ := List.mem_flatten.mp hc
  obtain ⟨b, _, rfl⟩ := List.mem_map.mp hl
  rcases List.mem_cons.mp hcl with rfl | hcl
  · have := hexDigit_ge (b / 16); simp; omega
  · simp at hcl
    subst hcl
    have := hexDigit_ge (b % 16); simp; omega

/-- The commit body written by `writeCommit` parses back to exactly the
tree hash it was given, and it has a parent line exactly when the parent
hash it was given is non-zero — in which case the line parses back to that
parent hash. -/
theorem parseCommit_of_commitBytes (author : List Nat) (id : Nat) (tree parent : SHA1)
    (aU : Int) (aZ : List Nat) (cU : Int) (cZ : List Nat) :
    parseCommitTree (commitBytes author id tree parent aU aZ cU cZ) = some tree ∧
    parseCommitParent (commitBytes author id tree parent aU aZ cU cZ) =
      some (if parent = emptySHA1 then none else some parent) := by
  have hshape : commitBytes author id tree parent aU aZ cU cZ =
      [116, 114, 101, 101, 32] ++ (hexOfBytes tree ++ 10 ::
        (if parent = emptySHA1 then
          [97, 117, 116, 104, 111, 114, 32] ++ (author ++ [32] ++ decimalInt aU ++ [32] ++
            aZ ++ [10] ++ [99, 111, 109, 109, 105, 116, 116, 101, 114, 32] ++ author ++
            [32] ++ decimalInt cU ++ [32] ++ cZ ++ [10, 10] ++ decimal id ++ [10])
        else
          [112, 97, 114, 101, 110, 116, 32] ++ (hexOfBytes parent ++ 10 ::
            ([97, 117, 116, 104, 111, 114, 32] ++ (author ++ [32] ++ decimalInt aU ++ [32] ++
              aZ ++ [10] ++ [99, 111, 109, 109, 105, 116, 116, 101, 114, 32] ++ author ++
              [32] ++ decimalInt cU ++ [32] ++ cZ ++ [10, 10] ++ decimal id ++ [10]))))) := by
    unfold commitBytes
    by_cases hp : parent = emptySHA1 <;> simp [hp]
  rw [hshape]
  constructor
  · unfold parseCommitTree
    rw [List.take_left' (by simp), if_pos rfl, List.drop_left' (by simp)]
    rw [takeWhile_append_all _ _ _ (hexOfBytes_no_newline tree) (by simp)]
    exact hexPairs_hexOfBytes tree
  · unfold parseCommitParent
    rw [List.take_left' (by simp), if_pos rfl, List.drop_left' (by simp)]
    rw [dropWhile_append_all _ _ _ (hexOfBytes_no_newline tree) (by simp)]
    by_cases hp : parent = emptySHA1
    · rw [if_pos hp, if_pos hp]
      simp only []
      rw [if_neg (by rw [List.take_left' (by simp)]; decide)]
    · rw [if_neg hp, if_neg hp]
      simp only []
      rw [if_pos (List.take_left' (by simp)), List.drop_left' (by simp)]
      rw [takeWhile_append_all _ _ _ (hexOfBytes_no_newline parent) (by simp)]
      rw [hexPairs_hexOfBytes parent]
      rfl

/-- One commit appended by the import loop: the note id, the root tree
hash current at append time, and the author/committer timestamps. -/
structure CommitItem where
  id : Nat
  tree : SHA1
  aUnix : Int
  aZone : List Nat
  cUnix : Int
  cZone : List Nat
deriving DecidableEq, Inhabited

/-- The commit-appending part of the import loop in `updateDB`: each
`writeCommit`'s returned hash is threaded as the next call's parent. -/
def appendCommits (sha1f : List Nat → SHA1) (config : Option (List Nat × List Nat)) :
    List CommitItem → SHA1 → GitState → Option (GitState × SHA1)
  | [], parent, s => some (s, parent)
  | it :: rest, parent, s =>
    match writeCommit sha1f config it.id it.tree parent it.aUnix it.aZone it.cUnix it.cZone s
    with
    | none => none
    | some (c, s1) => appendCommits sha1f config rest c s1

/-- The hash assigned to an object with the given type name and payload. -/
def objHash (sha1f : List Nat → SHA1) (tn b : List Nat) : SHA1 :=
  sha1f (tn ++ [32] ++ decimal b.length ++ [0] ++ b)

/-- The pure sequence of commit hashes the loop produces once the author
identity is resolved. -/
def commitHashes (sha1f : List Nat → SHA1) (a : List Nat) :
    List CommitItem → SHA1 → List SHA1
  | [], _ => []
  | it :: rest, parent =>
    let c := objHash sha1f [99, 111, 109, 109, 105, 116]
      (commitBytes a it.id it.tree parent it.aUnix it.aZone it.cUnix it.cZone)
    c :: commitHashes sha1f a rest c

/-- Store correctness: every entry is stored under the hash of its own
encoding (true of every state the embedded operations produce). -/
def storeOK (sha1f : List Nat → SHA1) (store : List StoreEntry) : Prop :=
  ∀ e ∈ store, ∃ enc, encodeObject e.2.1 e.2.2 = some enc ∧ e.1 = sha1f enc

theorem append_nul_cancel :
    ∀ (d1 d2 r1 r2 : List Nat), (∀ c ∈ d1, c ≠ 0) → (∀ c ∈ d2, c ≠ 0) →
      d1 ++ 0 :: r1 = d2 ++ 0 :: r2 → d1 = d2 ∧ r1 = r2 := by
  intro d1
  induction d1 with
  | nil =>
    intro d2 r1 r2 _ h2 heq
    cases d2 with
    | nil => simpa using heq
    | cons c t =>
      simp only [List.nil_append, List.cons_append, List.cons.injEq] at heq
      exact absurd heq.1.symm (h2 c (by simp))
  | cons c t ih =>
    intro d2 r1 r2 h1 h2 heq
    cases d2 with
    | nil =>
      simp only [List.nil_append, List.cons_append, List.cons.injEq] at heq
      exact absurd heq.1 (h1 c (by simp))
    | cons c2 t2 =>
      simp only [List.cons_append, List.cons.injEq] at heq
      obtain ⟨rfl, heq⟩ := heq
      obtain ⟨rfl, rfl⟩ := ih t2 r1 r2 (fun x hx => h1 x (by simp [hx]))
        (fun x hx => h2 x (by simp [hx])) heq
      exact ⟨rfl, rfl⟩

/-- The object encoding is injective: equal encoded byte sequences come
from the same kind and payload. -/
theorem encodeObject_inj (t1 t2 : Nat) (b1 b2 : List Nat) (enc : List Nat)
    (h1 : encodeObject t1 b1 = some enc) (h2 : encodeObject t2 b2 = some enc) :
    t1 = t2 ∧ b1 = b2 := by
  have ht1 : t1 ≤ 2 := by
    by_contra h
    rw [show encodeObject t1 b1 = none by
      unfold encodeObject; rw [typeName_big t1 (by omega)]; rfl] at h1
    exact absurd h1 (by simp)
  have ht2 : t2 ≤ 2 := by
    by_contra h
    rw [show encodeObject t2 b2 = none by
      unfold encodeObject; rw [typeName_big t2 (by omega)]; rfl] at h2
    exact absurd h2 (by simp)
  unfold encodeObject at h1 h2
  have hb1 : ∀ c ∈ decimal b1.length, c ≠ 0 := fun c hc => by
    have := decimal_digits _ c hc; omega
  have hb2 : ∀ c ∈ decimal b2.length, c ≠ 0 := fun c hc => by
    have := decimal_digits _ c hc; omega
  interval_cases t1 <;> interval_cases t2 <;>
    simp only [typeName, Option.map_some', Option.some.injEq] at h1 h2 <;>
      rw [← h2] at h1
  · refine ⟨rfl, ?_⟩
    simp only [List.append_assoc, List.cons_append, List.nil_append,
      List.cons.injEq, true_and] at h1
    exact (append_nul_cancel _ _ _ _ hb1 hb2 h1).2
  · exact absurd h1 (by simp [List.append_assoc])
  · exact absurd h1 (by simp [List.append_assoc])
  · exact absurd h1 (by simp [List.append_assoc])
  · refine ⟨rfl, ?_⟩
    simp only [List.append_assoc, List.cons_append, List.nil_append,
      List.cons.injEq, true_and] at h1
    exact (append_nul_cancel _ _ _ _ hb1 hb2 h1).2
  · exact absurd h1 (by simp [List.append_assoc])
  · exact absurd h1 (by simp [List.append_assoc])
  · exact absurd h1 (by simp [List.append_assoc])
  · refine ⟨rfl, ?_⟩
    simp only [List.append_assoc, List.cons_append, List.nil_append,
      List.cons.injEq, true_and] at h1
    exact (append_nul_cancel _ _ _ _ hb1 hb2 h1).2

/-! ### A concrete injective 20-byte digest for witnesses -/

/-- Value of a bit string with an implicit leading 1 sentinel, making the
map injective across lengths. -/
def boolsToNat : List Bool → Nat
  | [] => 1
  | b :: bs => 2 * boolsToNat bs + (if b then 1 else 0)

theorem boolsToNat_pos (l : List Bool) : 1 ≤ boolsToNat l := by
  cases l with
  | nil => exact le_refl 1
  | cons b bs =>
    have := boolsToNat_pos bs
    simp only [boolsToNat]
    split <;> omega

theorem boolsToNat_inj : ∀ x y : List Bool, boolsToNat x = boolsToNat y → x = y := by
  intro x
  induction x with
  | nil =>
    intro y h
    cases y with
    | nil => rfl
    | cons c cs =>
      have := boolsToNat_pos cs
      simp only [boolsToNat] at h
      split at h <;> omega
  | cons b bs ih =>
    intro y h
    cases y with
    | nil =>
      have := boolsToNat_pos bs
      simp only [boolsToNat] at h
      split at h <;> omega
    | cons c cs =>
      have hbs := boolsToNat_pos bs
      have hcs := boolsToNat_pos cs
      simp only [boolsToNat] at h
      have hbc : b = c ∧ boolsToNat bs = boolsToNat cs := by
        cases b <;> cases c <;> simp at h ⊢ <;> omega
      rw [hbc.1, ih cs hbc.2]

/-- Binary digits with each digit doubled (a prefix code together with the
`[false, true]` separator). -/
def natBitsF : Nat → Nat → List Bool
  | 0, _ => []
  | fuel + 1, n =>
    if n = 0 then [] else (n % 2 == 1) :: (n % 2 == 1) :: natBitsF fuel (n / 2)

def natBits (n : Nat) : List Bool := natBitsF n n

theorem natBitsF_fuel (n : Nat) :
    ∀ f1 f2, n ≤ f1 → n ≤ f2 → natBitsF f1 n = natBitsF f2 n := by
  induction n using Nat.strong_induction_on with
  | _ n ih =>
    intro f1 f2 h1 h2
    by_cases hn : n = 0
    · subst hn
      cases f1 <;> cases f2 <;> simp [natBitsF]
    · obtain ⟨g1, rfl⟩ : ∃ g, f1 = g + 1 := ⟨f1 - 1, by omega⟩
      obtain ⟨g2, rfl⟩ : ∃ g, f2 = g + 1 := ⟨f2 - 1, by omega⟩
      rw [natBitsF, natBitsF, if_neg hn, if_neg hn]
      congr 2
      exact ih (n / 2) (by omega) g1 g2 (by omega) (by omega)

theorem natBits_eq (n : Nat) (hn : n ≠ 0) :
    natBits n = (n % 2 == 1) :: (n % 2 == 1) :: natBits (n / 2) := by
  unfold natBits
  obtain ⟨g, hg⟩ : ∃ g, n = g + 1 := ⟨n - 1, by omega⟩
  rw [hg, natBitsF, if_neg (by omega)]
  rw [← hg]
  congr 1
  congr 1
  exact natBitsF_fuel (n / 2) g (n / 2) (by omega) (le_refl _)

theorem natBits_sep_inj : ∀ a : Nat, ∀ b r s,
    natBits a ++ false :: true :: r = natBits b ++ false :: true :: s → a = b ∧ r = s := by
  intro a
  induction a using Nat.strong_induction_on with
  | _ a ih =>
    intro b r s h
    by_cases ha : a = 0
    · subst ha
      by_cases hb : b = 0
      · subst hb
        simpa [natBits] using h
      · rw [natBits_eq b hb] at h
        simp only [natBits, natBitsF, List.nil_append, List.cons_append,
          List.cons.injEq] at h
        obtain ⟨h1, h2, _⟩ := h
        rw [← h1] at h2
        exact absurd h2 (by decide)
    · rw [natBits_eq a ha] at h
      by_cases hb : b = 0
      · subst hb
        simp only [natBits, natBitsF, List.nil_append, List.cons_append,
          List.cons.injEq] at h
        obtain ⟨h1, h2, _⟩ := h
        rw [h1] at h2
        exact absurd h2 (by decide)
      · rw [natBits_eq b hb] at h
        simp only [List.cons_append, List.cons.injEq] at h
        obtain ⟨h1, _, h3⟩ := h
        obtain ⟨hq, hr⟩ := ih (a / 2) (by omega) (b / 2) r s h3
        have hmod : a % 2 = b % 2 := by
          rcases Nat.mod_two_eq_zero_or_one a with hx | hx <;>
            rcases Nat.mod_two_eq_zero_or_one b with hy | hy <;>
              simp [hx, hy] at h1 ⊢
        exact ⟨by omega, hr⟩

/-- A prefix-free encoding of byte lists as bit strings. -/
def encList : List Nat → List Bool
  | [] => []
  | a :: l => natBits a ++ false :: true :: encList l

theorem encList_inj : ∀ x y : List Nat, encList x = encList y → x = y := by
  intro x
  induction x with
  | nil =>
    intro y h
    cases y with
    | nil => rfl
    | cons b m =>
      rw [encList, encList] at h
      exact absurd h.symm (by simp)
  | cons a l ih =>
    intro y h
    cases y with
    | nil =>
      rw [encList, encList] at h
      exact absurd h (by simp)
    | cons b m =>
      rw [encList, encList] at h
      obtain ⟨rfl, h2⟩ := natBits_sep_inj a b _ _ h
      rw [ih m h2]

/-- A concrete injective stand-in digest with 20-byte, never-zero output:
the bit-encoding of the input as one huge leading byte. -/
def toySha (b : List Nat) : SHA1 := boolsToNat (encList b) :: List.replicate 19 0

theorem toySha_inj : Function.Injective toySha := by
  intro x y h
  simp only [toySha, List.cons.injEq] at h
  exact encList_inj x y (boolsToNat_inj _ _ h.1)

theorem toySha_length (b : List Nat) : (toySha b).length = 20 := by
  simp [toySha]

theorem toySha_ne_empty (b : List Nat) : toySha b ≠ emptySHA1 := by
  have := boolsToNat_pos (encList b)
  simp only [toySha, emptySHA1, show (20 : Nat) = 19 + 1 from rfl, List.replicate_succ,
    ne_eq, List.cons.injEq, not_and]
  intro h
  omega

/-! ### Store lookup correctness under an injective digest -/

theorem storeLookup_correct (sha1f : List Nat → SHA1) (hinj : Function.Injective sha1f) :
    ∀ (store : List StoreEntry), storeOK sha1f store →
      ∀ (t : Nat) (b enc : List Nat), encodeObject t b = some enc →
        ∀ r, storeLookup store (sha1f enc) = some r → r = (t, b) := by
  intro store
  induction store with
  | nil => intro _ t b enc _ r hl; exact absurd hl (by simp [storeLookup])
  | cons e rest ih =>
    intro hOK t b enc henc r hl
    obtain ⟨h2, t2, b2⟩ := e
    rw [storeLookup] at hl
    split at hl
    case isTrue heq =>
      obtain ⟨enc2, henc2, hh2⟩ := hOK (h2, t2, b2) (by simp)
      simp only at henc2 hh2
      rw [hh2] at heq
      have henceq : enc2 = enc := hinj heq
      rw [henceq] at henc2
      obtain ⟨rfl, rfl⟩ := encodeObject_inj t2 t b2 b enc henc2 henc
      simpa using hl.symm
    case isFalse =>
      exact ih (fun x hx => hOK x (by simp [hx])) t b enc henc r hl

/-- Full specification of a valid-kind `hashObject` call: the returned
hash is the digest of the encoding; the store stays correct, keeps every
existing binding, and afterwards maps the returned hash to the object;
all non-store fields are unchanged. -/
theorem hashObject_spec (sha1f : List Nat → SHA1) (hinj : Function.Injective sha1f)
    (typ : Nat) (b : List Nat) (s : GitState) (htyp : typ ≤ 2)
    (hOK : storeOK sha1f s.store) :
    ∃ tn s1, typeName typ = some tn ∧
      hashObject sha1f typ b s = some (objHash sha1f tn b, s1) ∧
      storeOK sha1f s1.store ∧
      storeLookup s1.store (objHash sha1f tn b) = some (typ, b) ∧
      (∀ h r, storeLookup s.store h = some r → storeLookup s1.store h = some r) ∧
      s1.blobsCnt = s.blobsCnt ∧ s1.treesCnt = s.treesCnt ∧ s1.blobs = s.blobs ∧
      s1.trees = s.trees ∧ s1.indexBuf = s.indexBuf ∧ s1.author = s.author := by
  obtain ⟨tn, htn⟩ := typeName_isSome typ htyp
  have henc : encodeObject typ b = some (tn ++ [32] ++ decimal b.length ++ [0] ++ b) := by
    unfold encodeObject
    rw [htn]
    rfl
  refine ⟨tn, ?_⟩
  simp only [hashObject, henc]
  cases hl : storeLookup s.store (sha1f (tn ++ [32] ++ decimal b.length ++ [0] ++ b)) with
  | some r =>
    have hr : r = (typ, b) := storeLookup_correct sha1f hinj s.store hOK typ b _ henc r hl
    subst hr
    exact ⟨s, htn, rfl, hOK, hl, fun h r hr2 => hr2, rfl, rfl, rfl, rfl, rfl, rfl⟩
  | none =>
    refine ⟨_, htn, rfl, ?_, ?_, ?_, rfl, rfl, rfl, rfl, rfl, rfl⟩
    · intro e he
      rcases List.mem_cons.mp he with rfl | he2
      · exact ⟨_, henc, rfl⟩
      · exact hOK e he2
    · simp [storeLookup, objHash]
    · intro h r hr2
      simp only [storeLookup]
      split
      case isTrue heq =>
        rw [heq] at hl
        rw [hl] at hr2
        exact absurd hr2 (by simp)
      case isFalse => exact hr2

/-! ### The commit chain: master lemma and parent walk -/

theorem commitHashes_length (sha1f : List Nat → SHA1) (a : List Nat) :
    ∀ (items : List CommitItem) (parent : SHA1),
      (commitHashes sha1f a items parent).length = items.length := by
  intro items
  induction items with
  | nil => intro parent; rfl
  | cons it rest ih => intro parent; simp [commitHashes, ih]

theorem getLastD_eq_getD_cons (l : List SHA1) :
    ∀ d : SHA1, l.getLastD d = (d :: l).getD l.length emptySHA1 := by
  induction l with
  | nil => intro d; rfl
  | cons x t ih =>
    intro d
    rw [List.getLastD_cons, ih x]
    simp

/-- With the author identity already resolved (or resolvable from the
configuration), `writeCommit` is exactly a `hashObject` of the commit body
on the state with the author cached. -/
theorem writeCommit_resolved (sha1f : List Nat → SHA1) (config : Option (List Nat × List Nat))
    (a : List Nat) (ha : a ≠ []) (id : Nat) (tree parent : SHA1) (aU : Int)
    (aZ : List Nat) (cU : Int) (cZ : List Nat) (s : GitState)
    (hauth : s.author = a ∨ (s.author = [] ∧
      config.map (fun ne => ne.1 ++ [32, 60] ++ ne.2 ++ [62]) = some a)) :
    writeCommit sha1f config id tree parent aU aZ cU cZ s =
      hashObject sha1f 2 (commitBytes a id tree parent aU aZ cU cZ)
        { s with author := a } := by
  unfold writeCommit
  rcases hauth with h | ⟨h0, hres⟩
  · rw [h, if_neg ha]
  · rw [h0, if_pos rfl, hres]

theorem appendCommits_master (sha1f : List Nat → SHA1) (hinj : Function.Injective sha1f)
    (config : Option (List Nat × List Nat)) (a : List Nat) (ha : a ≠ []) :
    ∀ (items : List CommitItem) (parent : SHA1) (s : GitState),
      storeOK sha1f s.store →
      (s.author = a ∨ (s.author = [] ∧
        config.map (fun ne => ne.1 ++ [32, 60] ++ ne.2 ++ [62]) = some a)) →
      ∃ s1, appendCommits sha1f config items parent s =
          some (s1, (commitHashes sha1f a items parent).getLastD parent) ∧
        storeOK sha1f s1.store ∧
        (∀ h r, storeLookup s.store h = some r → storeLookup s1.store h = some r) ∧
        (∀ j, j < items.length →
          storeLookup s1.store ((commitHashes sha1f a items parent).getD j emptySHA1) =
            some (2, commitBytes a (items.getD j default).id (items.getD j default).tree
              ((parent :: commitHashes sha1f a items parent).getD j emptySHA1)
              (items.getD j default).aUnix (items.getD j default).aZone
              (items.getD j default).cUnix (items.getD j default).cZone)) := by
  intro items
  induction items with
  | nil =>
    intro parent s hOK _
    exact ⟨s, rfl, hOK, fun h r hr => hr, fun j hj => absurd hj (by simp)⟩
  | cons it rest ih =>
    intro parent s hOK hauth
    obtain ⟨tn, s1, htn, hrun, hOK1, hlook1, hmono1, _, _, _, _, _, hauth1⟩ :=
      hashObject_spec sha1f hinj 2
        (commitBytes a it.id it.tree parent it.aUnix it.aZone it.cUnix it.cZone)
        { s with author := a } (by omega) hOK
    have htn2 : tn = [99, 111, 109, 109, 105, 116] := by
      simp only [typeName, Option.some.injEq] at htn
      exact htn.symm
    subst htn2
    obtain ⟨s2, hrun2, hOK2, hmono2, hcommits2⟩ :=
      ih (objHash sha1f [99, 111, 109, 109, 105, 116]
          (commitBytes a it.id it.tree parent it.aUnix it.aZone it.cUnix it.cZone))
        s1 hOK1 (Or.inl hauth1)
    refine ⟨s2, ?_, hOK2, ?_, ?_⟩
    · show (match writeCommit sha1f config it.id it.tree parent it.aUnix it.aZone it.cUnix
          it.cZone s with
        | none => none
        | some (c, s1) => appendCommits sha1f config rest c s1) = _
      rw [writeCommit_resolved sha1f config a ha it.id it.tree parent it.aUnix it.aZone
        it.cUnix it.cZone s hauth, hrun]
      show appendCommits sha1f config rest (objHash sha1f [99, 111, 109, 109, 105, 116]
        (commitBytes a it.id it.tree parent it.aUnix it.aZone it.cUnix it.cZone)) s1 = _
      rw [hrun2]
      rw [show commitHashes sha1f a (it :: rest) parent =
        objHash sha1f [99, 111, 109, 109, 105, 116]
            (commitBytes a it.id it.tree parent it.aUnix it.aZone it.cUnix it.cZone) ::
          commitHashes sha1f a rest (objHash sha1f [99, 111, 109, 109, 105, 116]
            (commitBytes a it.id it.tree parent it.aUnix it.aZone it.cUnix it.cZone))
        from rfl]
      rw [List.getLastD_cons]
    · intro h r hr
      exact hmono2 h r (hmono1 h r hr)
    · intro j hj
      cases j with
      | zero =>
        show storeLookup s2.store ((commitHashes sha1f a (it :: rest) parent).getD 0
          emptySHA1) = _
        rw [show commitHashes sha1f a (it :: rest) parent =
          objHash sha1f [99, 111, 109, 109, 105, 116]
              (commitBytes a it.id it.tree parent it.aUnix it.aZone it.cUnix it.cZone) ::
            commitHashes sha1f a rest (objHash sha1f [99, 111, 109, 109, 105, 116]
              (commitBytes a it.id it.tree parent it.aUnix it.aZone it.cUnix it.cZone))
          from rfl]
        simp only [List.getD_cons_zero]
        exact hmono2 _ _ hlook1
      | succ j =>
        have hj2 : j < rest.length := by simpa using hj
        have := hcommits2 j hj2
        rw [show commitHashes sha1f a (it :: rest) parent =
          objHash sha1f [99, 111, 109, 109, 105, 116]
              (commitBytes a it.id it.tree parent it.aUnix it.aZone it.cUnix it.cZone) ::
            commitHashes sha1f a rest (objHash sha1f [99, 111, 109, 109, 105, 116]
              (commitBytes a it.id it.tree parent it.aUnix it.aZone it.cUnix it.cZone))
          from rfl]
        simp only [List.getD_cons_succ]
        exact this

/-- One step of walking the history: look the hash up in the store, check
it is a commit, and read its parent hash (the zero hash when the commit
has no parent line). -/
def stepParent (store : List StoreEntry) (h : SHA1) : Option SHA1 :=
  match storeLookup store h with
  | none => none
  | some (t, b) =>
    if t = 2 then (parseCommitParent b).map (fun p => p.getD emptySHA1) else none

/-- Walk `n` parent steps from a commit hash. -/
def walkParent (store : List StoreEntry) : Nat → SHA1 → Option SHA1
  | 0, h => some h
  | n + 1, h => (stepParent store h).bind (walkParent store n)

theorem walkParent_chain (store : List StoreEntry) (chain : List SHA1)
    (hstep : ∀ j, j + 1 < chain.length →
      stepParent store (chain.getD (j + 1) emptySHA1) = some (chain.getD j emptySHA1)) :
    ∀ k j, j < chain.length → k ≤ j →
      walkParent store k (chain.getD j emptySHA1) = some (chain.getD (j - k) emptySHA1) := by
  intro k
  induction k with
  | zero => intro j _ _; simp [walkParent]
  | succ k ih =>
    intro j hj hk
    obtain ⟨j2, rfl⟩ : ∃ j2, j = j2 + 1 := ⟨j - 1, by omega⟩
    rw [walkParent, hstep j2 hj]
    rw [Option.some_bind]
    rw [ih j2 (by omega) (by omega)]
    congr 2
    omega

theorem commitHashes_sha1 (sha1f : List Nat → SHA1) (a : List Nat) :
    ∀ (items : List CommitItem) (parent : SHA1) (x : SHA1),
      x ∈ commitHashes sha1f a items parent → ∃ bb, x = sha1f bb := by
  intro items
  induction items with
  | nil => intro parent x hx; exact absurd hx (by simp [commitHashes])
  | cons it rest ih =>
    intro parent x hx
    rcases List.mem_cons.mp hx with rfl | hx2
    · exact ⟨_, rfl⟩
    · exact ih _ x hx2

/-- C8 — Chain linkage. After the import loop appends M ≥ 1 commits
(threading each returned hash as the next parent, starting from the zero
hash), walking parent pointers from the head reaches the zero hash exactly
once, at the M-th step: each of the first M walk results is a non-zero
commit hash whose stored body's `tree` line is the root hash that was
current when that commit was appended, and whose body contains a parent
line precisely unless it is the oldest commit (the only one whose parent
hash is the zero hash). -/
theorem C8_chain_linkage (sha1f : List Nat → SHA1) (hinj : Function.Injective sha1f)
    (hnz : ∀ b, sha1f b ≠ emptySHA1) (name email : List Nat)
    (items : List CommitItem) (s0 : GitState) (_hne : items ≠ [])
    (hauth : s0.author = []) (hOK : storeOK sha1f s0.store) :
    ∃ s1 head, appendCommits sha1f (some (name, email)) items emptySHA1 s0 =
        some (s1, head) ∧
      walkParent s1.store items.length head = some emptySHA1 ∧
      (∀ k, k < items.length → ∃ h body,
        walkParent s1.store k head = some h ∧ h ≠ emptySHA1 ∧
        storeLookup s1.store h = some (2, body) ∧
        parseCommitTree body = some (items.getD (items.length - 1 - k) default).tree ∧
        (parseCommitParent body = some none ↔ k = items.length - 1)) := by
  have ha : name ++ [32, 60] ++ email ++ [62] ≠ [] := by simp
  obtain ⟨s1, hrun, hOK1, hmono, hcommits⟩ :=
    appendCommits_master sha1f hinj (some (name, email)) (name ++ [32, 60] ++ email ++ [62])
      ha items emptySHA1 s0 hOK (Or.inr ⟨hauth, by simp⟩)
  have hlenh : (commitHashes sha1f (name ++ [32, 60] ++ email ++ [62]) items
      emptySHA1).length = items.length :=
    commitHashes_length sha1f _ items emptySHA1
  have hgetDsha : ∀ j, j < items.length → ∃ bb,
      (commitHashes sha1f (name ++ [32, 60] ++ email ++ [62]) items emptySHA1).getD j
        emptySHA1 = sha1f bb := by
    intro j hj
    have hjl : j < (commitHashes sha1f (name ++ [32, 60] ++ email ++ [62]) items
        emptySHA1).length := by omega
    refine commitHashes_sha1 sha1f (name ++ [32, 60] ++ email ++ [62]) items emptySHA1 _ ?_
    rw [List.getD_eq_getElem _ _ hjl]
    exact List.getElem_mem _
  have hstep : ∀ j, j + 1 < (emptySHA1 :: commitHashes sha1f
      (name ++ [32, 60] ++ email ++ [62]) items emptySHA1).length →
      stepParent s1.store ((emptySHA1 :: commitHashes sha1f
        (name ++ [32, 60] ++ email ++ [62]) items emptySHA1).getD (j + 1) emptySHA1) =
      some ((emptySHA1 :: commitHashes sha1f (name ++ [32, 60] ++ email ++ [62]) items
        emptySHA1).getD j emptySHA1) := by
    intro j hjlen
    have hj : j < items.length := by
      simp only [List.length_cons, hlenh] at hjlen
      omega
    rw [List.getD_cons_succ]
    simp only [stepParent, hcommits j hj, if_true]
    rw [(parseCommit_of_commitBytes _ _ _ _ _ _ _ _).2]
    by_cases hp : (emptySHA1 :: commitHashes sha1f (name ++ [32, 60] ++ email ++ [62])
        items emptySHA1).getD j emptySHA1 = emptySHA1
    · rw [if_pos hp, Option.map_some']
      rw [hp]
      rfl
    · rw [if_neg hp, Option.map_some']
      rfl
  have hwalk := walkParent_chain s1.store
    (emptySHA1 :: commitHashes sha1f (name ++ [32, 60] ++ email ++ [62]) items emptySHA1)
    hstep
  have hhead : (commitHashes sha1f (name ++ [32, 60] ++ email ++ [62]) items
      emptySHA1).getLastD emptySHA1 =
      (emptySHA1 :: commitHashes sha1f (name ++ [32, 60] ++ email ++ [62]) items
        emptySHA1).getD items.length emptySHA1 := by
    rw [getLastD_eq_getD_cons, hlenh]
  refine ⟨s1, _, hrun, ?_, ?_⟩
  · rw [hhead, hwalk items.length items.length (by simp only [List.length_cons, hlenh]; omega)
      (le_refl _)]
    simp
  · intro k hk
    obtain ⟨j, hj⟩ : ∃ j, items.length - k = j + 1 := ⟨items.length - k - 1, by omega⟩
    have hjM : j < items.length := by omega
    have hw := hwalk k items.length (by simp only [List.length_cons, hlenh]; omega) (by omega)
    rw [hj, List.getD_cons_succ] at hw
    rw [← hhead] at hw
    refine ⟨_, _, hw, ?_, hcommits j hjM, ?_, ?_⟩
    · obtain ⟨bb, hbb⟩ := hgetDsha j hjM
      rw [hbb]
      exact hnz bb
    · rw [show items.length - 1 - k = j by omega]
      exact (parseCommit_of_commitBytes _ _ _ _ _ _ _ _).1
    · rw [(parseCommit_of_commitBytes _ _ _ _ _ _ _ _).2]
      cases j with
      | zero =>
        rw [List.getD_cons_zero, if_pos rfl]
        simp only [Option.some.injEq, true_iff]
        omega
      | succ j2 =>
        have hj2 : j2 < items.length := by omega
        obtain ⟨bb, hbb⟩ := hgetDsha j2 hj2
        rw [List.getD_cons_succ, hbb, if_neg (hnz bb)]
        constructor
        · intro hx
          simp at hx
        · intro hkM
          exact absurd hkM (by omega)

/-- Two concrete commits for the chain-linkage witness. -/
def chainItems : List CommitItem :=
  [{ id := 0, tree := List.replicate 20 5, aUnix := 0, aZone := [], cUnix := 0, cZone := [] },
   { id := 1, tree := List.replicate 20 6, aUnix := 0, aZone := [], cUnix := 0, cZone := [] }]

/-- Witness for C8 at a concrete input: two commits appended with the
injective stand-in digest. -/
theorem C8_chain_linkage_witness :
    Function.Injective toySha ∧ (∀ b, toySha b ≠ emptySHA1) ∧
    chainItems ≠ [] ∧ initState.author = [] ∧ storeOK toySha initState.store ∧
    ∃ s1 head, appendCommits toySha (some ([110], [101])) chainItems emptySHA1 initState =
        some (s1, head) ∧
      walkParent s1.store chainItems.length head = some emptySHA1 ∧
      (∀ k, k < chainItems.length → ∃ h body,
        walkParent s1.store k head = some h ∧ h ≠ emptySHA1 ∧
        storeLookup s1.store h = some (2, body) ∧
        parseCommitTree body = some (chainItems.getD (chainItems.length - 1 - k) default).tree ∧
        (parseCommitParent body = some none ↔ k = chainItems.length - 1)) :=
  ⟨toySha_inj, toySha_ne_empty, by simp [chainItems], rfl,
    fun e he => absurd he (List.not_mem_nil e),
    C8_chain_linkage toySha toySha_inj toySha_ne_empty [110] [101] chainItems initState
      (by simp [chainItems]) rfl (fun e he => absurd he (List.not_mem_nil e))⟩

/-! ### Structural invariant of the chunked tree index -/

/-- Structural well-formedness maintained by every successful insertion of
ids below 100000: all chunks have length `gitChunkSize`, the counters fit
in the allocated chunks, and the counters are within the range in which
every ancestor-walk slice stays in bounds. -/
def stateWF (s : GitState) : Prop :=
  (∀ ch ∈ s.blobs, ch.length = gitChunkSize) ∧
  (∀ ch ∈ s.trees, ch.length = gitChunkSize) ∧
  s.blobsCnt ≤ s.blobs.length * gitChunkSize ∧
  s.treesCnt ≤ s.trees.length * gitChunkSize ∧
  s.blobsCnt ≤ 100000 ∧ s.treesCnt ≤ 1000

theorem growF_shape (fuel : Nat) :
    ∀ (a : List (List SHA1)) (id : Nat),
      ∃ k, growF fuel a id = a ++ List.replicate k (List.replicate gitChunkSize emptySHA1) := by
  induction fuel with
  | zero => intro a id; exact ⟨0, by simp [growF]⟩
  | succ f ih =>
    intro a id
    rw [growF]
    split
    · exact ⟨0, by simp⟩
    · obtain ⟨k, hk⟩ := ih (a ++ [List.replicate gitChunkSize emptySHA1]) id
      refine ⟨k + 1, ?_⟩
      rw [hk, List.append_assoc, List.replicate_succ]
      rfl

theorem grow_chunks (a : List (List SHA1)) (id : Nat)
    (h : ∀ ch ∈ a, ch.length = gitChunkSize) :
    ∀ ch ∈ grow a id, ch.length = gitChunkSize := by
  obtain ⟨k, hk⟩ := growF_shape (id / gitChunkSize + 2) a id
  rw [grow, hk]
  intro ch hc
  rcases List.mem_append.mp hc with hc | hc
  · exact h ch hc
  · rw [List.eq_of_mem_replicate hc]
    simp

theorem growF_big (fuel : Nat) :
    ∀ (a : List (List SHA1)) (id : Nat),
      id / gitChunkSize + 1 ≤ a.length + fuel →
        id < (growF fuel a id).length * gitChunkSize := by
  induction fuel with
  | zero =>
    intro a id hle
    show id < a.length * gitChunkSize
    simp only [gitChunkSize] at hle ⊢
    omega
  | succ f ih =>
    intro a id hle
    rw [growF]
    split
    · assumption
    · refine ih _ id ?_
      simp only [List.length_append, List.length_singleton]
      omega

theorem grow_big (a : List (List SHA1)) (id : Nat) : id < (grow a id).length * gitChunkSize :=
  growF_big _ a id (by omega)

theorem grow_length_ge (a : List (List SHA1)) (id : Nat) : a.length ≤ (grow a id).length := by
  obtain ⟨k, hk⟩ := growF_shape (id / gitChunkSize + 2) a id
  rw [grow, hk]
  simp

theorem grow_prior (a : List (List SHA1)) (id : Nat) (j : Nat) (hj : j < a.length) :
    (grow a id)[j]? = a[j]? := by
  obtain ⟨k, hk⟩ := growF_shape (id / gitChunkSize + 2) a id
  rw [grow, hk, List.getElem?_append]
  rw [if_pos hj]

theorem grow_new (a : List (List SHA1)) (id : Nat) (j : Nat) (hj : a.length ≤ j)
    (hj2 : j < (grow a id).length) :
    (grow a id)[j]? = some (List.replicate gitChunkSize emptySHA1) := by
  obtain ⟨k, hk⟩ := growF_shape (id / gitChunkSize + 2) a id
  rw [grow] at hj2 ⊢
  rw [hk] at hj2 ⊢
  rw [List.getElem?_append_right hj]
  simp only [List.length_append, List.length_replicate] at hj2
  rw [List.getElem?_eq_getElem (by simp; omega)]
  rw [List.getElem_replicate]

theorem mem_set_cases {α : Type} (l : List α) (k : Nat) (x y : α) (hy : y ∈ l.set k x) :
    y = x ∨ y ∈ l := by
  rw [List.mem_iff_getElem] at hy
  obtain ⟨j, hj, hjy⟩ := hy
  rw [List.getElem_set] at hjy
  split at hjy
  · exact Or.inl hjy.symm
  · refine Or.inr ?_
    rw [List.mem_iff_getElem]
    exact ⟨j, by simpa using hj, hjy⟩

theorem chunkGet_eq (a : List (List SHA1)) (i : Nat) (ch : List SHA1)
    (hsome : a[i / gitChunkSize]? = some ch) : chunkGet a i = ch[i % gitChunkSize]? := by
  unfold chunkGet
  rw [hsome]

theorem chunkSet_spec (a : List (List SHA1)) (i : Nat) (h : SHA1)
    (hch : ∀ ch ∈ a, ch.length = gitChunkSize) (hi : i < a.length * gitChunkSize) :
    ∃ a2, chunkSet a i h = some a2 ∧ a2.length = a.length ∧
      (∀ ch ∈ a2, ch.length = gitChunkSize) ∧
      chunkGet a2 i = some h ∧ (∀ j, j ≠ i → chunkGet a2 j = chunkGet a j) ∧
      (∀ P : SHA1 → Prop, (∀ ch ∈ a, ∀ x ∈ ch, P x) → P h → ∀ ch ∈ a2, ∀ x ∈ ch, P x) := by
  have hk : i / gitChunkSize < a.length := by
    simp only [gitChunkSize] at *
    omega
  have hgk : a[i / gitChunkSize]? = some a[i / gitChunkSize] := List.getElem?_eq_getElem hk
  have hcl : a[i / gitChunkSize].length = gitChunkSize :=
    hch _ (List.getElem_mem hk)
  have hmod : i % gitChunkSize < gitChunkSize := Nat.mod_lt _ (by simp [gitChunkSize])
  have hmod2 : i % gitChunkSize < a[i / gitChunkSize].length := by
    rw [hcl]
    exact hmod
  refine ⟨a.set (i / gitChunkSize) (a[i / gitChunkSize].set (i % gitChunkSize) h), ?_, ?_,
    ?_, ?_, ?_, ?_⟩
  · simp only [chunkSet, hgk]
    rw [if_pos hmod2]
  · exact List.length_set a _ _
  · intro ch hc
    rcases mem_set_cases _ _ _ _ hc with rfl | hc
    · rw [List.length_set]
      exact hcl
    · exact hch ch hc
  · have hset : (a.set (i / gitChunkSize)
        (a[i / gitChunkSize].set (i % gitChunkSize) h))[i / gitChunkSize]? =
        some (a[i / gitChunkSize].set (i % gitChunkSize) h) := by
      rw [List.getElem?_set, if_pos rfl, if_pos hk]
    rw [chunkGet_eq _ _ _ hset]
    rw [List.getElem?_set, if_pos rfl, if_pos hmod2]
  · intro j hj
    by_cases hjk : i / gitChunkSize = j / gitChunkSize
    · have hset : (a.set (i / gitChunkSize)
          (a[i / gitChunkSize].set (i % gitChunkSize) h))[j / gitChunkSize]? =
          some (a[i / gitChunkSize].set (i % gitChunkSize) h) := by
        rw [List.getElem?_set, if_pos hjk, if_pos hk]
      rw [chunkGet_eq _ _ _ hset]
      have hmm : i % gitChunkSize ≠ j % gitChunkSize := by
        simp only [gitChunkSize] at *
        omega
      rw [List.getElem?_set, if_neg hmm]
      rw [chunkGet_eq a j a[i / gitChunkSize] (by rw [← hjk, hgk])]
    · unfold chunkGet
      rw [List.getElem?_set, if_neg hjk]
  · intro P hP hPh ch hc x hx
    rcases mem_set_cases _ _ _ _ hc with rfl | hc
    · rcases mem_set_cases _ _ _ _ hx with rfl | hx
      · exact hPh
      · exact hP _ (List.getElem_mem hk) x hx
    · exact hP ch hc x hx

theorem sliceChunk_spec (a : List (List SHA1)) (k i j : Nat)
    (hch : ∀ ch ∈ a, ch.length = gitChunkSize) (hk : k < a.length)
    (hij : i ≤ j) (hj : j ≤ gitChunkSize) :
    ∃ l, sliceChunk a k i j = some l ∧ l.length = j - i ∧
      (∀ m, m < j - i → l[m]? = chunkGet a (k * gitChunkSize + i + m)) ∧
      (∀ x ∈ l, x ∈ a[k]) := by
  have hgk : a[k]? = some a[k] := List.getElem?_eq_getElem hk
  have hcl : a[k].length = gitChunkSize := hch _ (List.getElem_mem hk)
  refine ⟨(a[k].drop i).take (j - i), ?_, ?_, ?_, ?_⟩
  · simp only [sliceChunk, hgk]
    rw [if_pos ⟨hij, by rw [hcl]; exact hj⟩]
  · simp only [List.length_take, List.length_drop, hcl]
    simp only [gitChunkSize] at *
    omega
  · intro m hm
    rw [List.getElem?_take, if_pos hm, List.getElem?_drop]
    have hdiv : (k * gitChunkSize + (i + m)) / gitChunkSize = k := by
      simp only [gitChunkSize] at *
      omega
    have hmod : (k * gitChunkSize + (i + m)) % gitChunkSize = i + m := by
      simp only [gitChunkSize] at *
      omega
    rw [show k * gitChunkSize + i + m = k * gitChunkSize + (i + m) by omega]
    rw [chunkGet_eq a _ a[k] (by rw [hdiv, hgk])]
    rw [hmod]
  · intro x hx
    exact List.mem_of_mem_drop (List.mem_of_mem_take hx)

/-- Everything a successful `hashObject` call guarantees, with no
assumptions: the returned hash is the digest of the encoding, non-store
fields are unchanged, the store gains at most the new entry, store
correctness is preserved and existing bindings persist. -/
theorem hashObject_inv (sha1f : List Nat → SHA1) (typ : Nat) (b : List Nat) (s : GitState)
    (hh : SHA1) (s1 : GitState) (hrun : hashObject sha1f typ b s = some (hh, s1)) :
    (∃ enc, encodeObject typ b = some enc ∧ hh = sha1f enc) ∧
    s1.blobsCnt = s.blobsCnt ∧ s1.treesCnt = s.treesCnt ∧ s1.blobs = s.blobs ∧
    s1.trees = s.trees ∧ s1.indexBuf = s.indexBuf ∧ s1.author = s.author ∧
    (s1.store = s.store ∨ s1.store = (hh, typ, b) :: s.store) ∧
    (storeOK sha1f s.store → storeOK sha1f s1.store) ∧
    (∀ h2 r, storeLookup s.store h2 = some r → storeLookup s1.store h2 = some r) := by
  unfold hashObject at hrun
  cases henc : encodeObject typ b with
  | none => rw [henc] at hrun; exact absurd hrun (by simp)
  | some enc =>
    rw [henc] at hrun
    simp only [] at hrun
    cases hl : storeLookup s.store (sha1f enc) with
    | some v =>
      rw [hl] at hrun
      simp only [Option.some.injEq, Prod.mk.injEq] at hrun
      obtain ⟨rfl, rfl⟩ := hrun
      exact ⟨⟨enc, rfl, rfl⟩, rfl, rfl, rfl, rfl, rfl, rfl, Or.inl rfl, fun x => x,
        fun h2 r hr => hr⟩
    | none =>
      rw [hl] at hrun
      simp only [Option.some.injEq, Prod.mk.injEq] at hrun
      obtain ⟨rfl, rfl⟩ := hrun
      refine ⟨⟨enc, rfl, rfl⟩, rfl, rfl, rfl, rfl, rfl, rfl, Or.inr rfl, ?_, ?_⟩
      · intro hOK e he
        rcases List.mem_cons.mp he with rfl | he2
        · exact ⟨enc, henc, rfl⟩
        · exact hOK e he2
      · intro h2 r hr
        simp only [storeLookup]
        split
        case isTrue heq =>
          rw [heq] at hl
          rw [hl] at hr
          exact absurd hr (by simp)
        case isFalse => exact hr

/-- A `writeTree` call always succeeds (tree is a valid kind) and obeys
`hashObject_inv`. -/
theorem writeTree_total (sha1f : List Nat → SHA1) (bs ts : List SHA1) (s : GitState) :
    ∃ r s1, writeTree sha1f bs ts s = some (r, s1) := by
  obtain ⟨r, s1, hrun, _⟩ := hashObject_fields sha1f 1 (treeBytes bs ts) s (by omega)
  exact ⟨r, s1, hrun⟩

/-- Totality of `writeTreesN` under the structural invariant: both slices
are in bounds (in particular the buggy trees slice is never taken with
`num ≥ 10` because `treesCnt ≤ 1000`), so the rebuild succeeds. -/
theorem writeTreesN_total (sha1f : List Nat → SHA1) (num : Nat) (s : GitState)
    (hb : ∀ ch ∈ s.blobs, ch.length = gitChunkSize)
    (ht : ∀ ch ∈ s.trees, ch.length = gitChunkSize)
    (hbc : s.blobsCnt ≤ s.blobs.length * gitChunkSize)
    (htc : s.treesCnt ≤ s.trees.length * gitChunkSize)
    (ht1000 : s.treesCnt ≤ 1000) :
    ∃ r s1, writeTreesN sha1f num s = some (r, s1) ∧
      (∃ bb, r = sha1f bb) ∧
      s1.blobsCnt = s.blobsCnt ∧ s1.treesCnt = s.treesCnt ∧ s1.blobs = s.blobs ∧
      s1.trees = s.trees ∧ s1.indexBuf = s.indexBuf ∧ s1.author = s.author ∧
      (storeOK sha1f s.store → storeOK sha1f s1.store) ∧
      (∀ h2 v, storeLookup s.store h2 = some v → storeLookup s1.store h2 = some v) := by
  have hslice1 : ∃ bl, (if num * 100 < s.blobsCnt then
      sliceChunk s.blobs (num * 100 / gitChunkSize) (num * 100 % gitChunkSize)
        (if min ((num + 1) * 100) s.blobsCnt % gitChunkSize = 0 then gitChunkSize
          else min ((num + 1) * 100) s.blobsCnt % gitChunkSize)
    else some []) = some bl := by
    by_cases h1 : num * 100 < s.blobsCnt
    · rw [if_pos h1]
      have hk : num * 100 / gitChunkSize < s.blobs.length := by
        simp only [gitChunkSize] at *
        omega
      have hm1 : min ((num + 1) * 100) s.blobsCnt ≤ (num + 1) * 100 := Nat.min_le_left _ _
      have hm2 : min ((num + 1) * 100) s.blobsCnt ≤ s.blobsCnt := Nat.min_le_right _ _
      have hm3 : num * 100 < min ((num + 1) * 100) s.blobsCnt :=
        lt_min (by omega) h1
      obtain ⟨bl, hbl, _⟩ := sliceChunk_spec s.blobs (num * 100 / gitChunkSize)
        (num * 100 % gitChunkSize)
        (if min ((num + 1) * 100) s.blobsCnt % gitChunkSize = 0 then gitChunkSize
          else min ((num + 1) * 100) s.blobsCnt % gitChunkSize) hb hk
        (by simp only [gitChunkSize] at *; split <;> omega)
        (by simp only [gitChunkSize] at *; split <;> omega)
      exact ⟨bl, hbl⟩
    · rw [if_neg h1]
      exact ⟨[], rfl⟩
  have hslice2 : ∃ tl, (if num * 100 < s.treesCnt then
      sliceChunk s.trees (num * 100 / gitChunkSize) (num * 100 % gitChunkSize)
        (if min ((num + 1) * 100) s.treesCnt = 0 then gitChunkSize
          else min ((num + 1) * 100) s.treesCnt)
    else some []) = some tl := by
    by_cases h2 : num * 100 < s.treesCnt
    · rw [if_pos h2]
      have hk : num * 100 / gitChunkSize < s.trees.length := by
        simp only [gitChunkSize] at *
        omega
      have hm1 : min ((num + 1) * 100) s.treesCnt ≤ (num + 1) * 100 := Nat.min_le_left _ _
      have hm2 : min ((num + 1) * 100) s.treesCnt ≤ s.treesCnt := Nat.min_le_right _ _
      have hm3 : num * 100 < min ((num + 1) * 100) s.treesCnt :=
        lt_min (by omega) h2
      obtain ⟨tl, htl, _⟩ := sliceChunk_spec s.trees (num * 100 / gitChunkSize)
        (num * 100 % gitChunkSize)
        (if min ((num + 1) * 100) s.treesCnt = 0 then gitChunkSize
          else min ((num + 1) * 100) s.treesCnt) ht hk
        (by simp only [gitChunkSize] at *; split <;> omega)
        (by simp only [gitChunkSize] at *; split <;> omega)
      exact ⟨tl, htl⟩
    · rw [if_neg h2]
      exact ⟨[], rfl⟩
  obtain ⟨bl, hbl⟩ := hslice1
  obtain ⟨tl, htl⟩ := hslice2
  obtain ⟨r, s1, hrun⟩ := writeTree_total sha1f bl tl s
  refine ⟨r, s1, ?_, ?_⟩
  · unfold writeTreesN
    rw [hbl, htl]
    exact hrun
  · obtain ⟨⟨enc, _, henc⟩, h1, h2, h3, h4, h5, h6, _, h8, h9⟩ :=
      hashObject_inv sha1f 1 (treeBytes bl tl) s r s1 hrun
    exact ⟨⟨enc, henc⟩, h1, h2, h3, h4, h5, h6, h8, h9⟩

/-- All hash slots of the trees array satisfy `P`. -/
def allTrees (P : SHA1 → Prop) (s : GitState) : Prop := ∀ ch ∈ s.trees, ∀ x ∈ ch, P x

/-- Totality and frame of the ancestor loop under the structural
invariant: it only rewrites trees slots (with digest outputs) and the
store. -/
theorem loopAncF_total (sha1f : List Nat → SHA1) :
    ∀ (fuel i : Nat) (s : GitState), i < fuel →
      (∀ ch ∈ s.blobs, ch.length = gitChunkSize) →
      (∀ ch ∈ s.trees, ch.length = gitChunkSize) →
      s.blobsCnt ≤ s.blobs.length * gitChunkSize →
      s.treesCnt ≤ s.trees.length * gitChunkSize →
      s.treesCnt ≤ 1000 →
      i < s.trees.length * gitChunkSize →
      ∃ s2, loopAncF sha1f fuel i s = some s2 ∧
        s2.blobsCnt = s.blobsCnt ∧ s2.treesCnt = s.treesCnt ∧ s2.blobs = s.blobs ∧
        s2.trees.length = s.trees.length ∧
        (∀ ch ∈ s2.trees, ch.length = gitChunkSize) ∧
        s2.indexBuf = s.indexBuf ∧ s2.author = s.author ∧
        (storeOK sha1f s.store → storeOK sha1f s2.store) ∧
        (∀ h2 v, storeLookup s.store h2 = some v → storeLookup s2.store h2 = some v) ∧
        (∀ P : SHA1 → Prop, allTrees P s → (∀ bb, P (sha1f bb)) → allTrees P s2) := by
  intro fuel
  induction fuel with
  | zero => intro i s hi; omega
  | succ f ih =>
    intro i s hi hb ht hbc htc ht1000 hitlen
    by_cases hi0 : i = 0
    · subst hi0
      exact ⟨s, by rw [loopAncF, if_pos rfl], rfl, rfl, rfl, rfl, ht, rfl, rfl,
        fun x => x, fun h2 v hv => hv, fun P hP _ => hP⟩
    · obtain ⟨r, s1, hrun1, ⟨bb, hbb⟩, hc1, hc2, hc3, hc4, hc5, hc6, hOK1, hmono1⟩ :=
        writeTreesN_total sha1f i s hb ht hbc htc ht1000
      obtain ⟨a2, hset, ha2len, ha2ch, _, _, hPset⟩ :=
        chunkSet_spec s1.trees i r (by rw [hc4]; exact ht)
          (by rw [hc4]; exact hitlen)
      have ha2len2 : a2.length = s.trees.length := by rw [ha2len, hc4]
      obtain ⟨s2, hrun2, hbc2, htc2, hblobs2, htlen2, htch2, hib2, hau2, hOK2, hmono2,
          hP2⟩ :=
        ih (i / 100) { s1 with trees := a2 }
          (by omega)
          (by show ∀ ch ∈ s1.blobs, _; rw [hc3]; exact hb)
          (by show ∀ ch ∈ a2, _; exact ha2ch)
          (by show s1.blobsCnt ≤ s1.blobs.length * _; rw [hc1, hc3]; exact hbc)
          (by show s1.treesCnt ≤ a2.length * _; rw [hc2, ha2len2]; exact htc)
          (by show s1.treesCnt ≤ 1000; rw [hc2]; exact ht1000)
          (by show i / 100 < a2.length * _; rw [ha2len2]
              have : i / 100 ≤ i := Nat.div_le_self i 100
              omega)
      refine ⟨s2, ?_, ?_, ?_, ?_, ?_, htch2, ?_, ?_, ?_, ?_, ?_⟩
      · rw [loopAncF, if_neg hi0, hrun1]
        show (match chunkSet s1.trees i r with
          | none => none
          | some ts => loopAncF sha1f f (i / 100) { s1 with trees := ts }) = some s2
        rw [hset]
        exact hrun2
      · rw [hbc2]; exact hc1
      · rw [htc2]; exact hc2
      · rw [hblobs2]; exact hc3
      · rw [htlen2]; exact ha2len2
      · rw [hib2]; exact hc5
      · rw [hau2]; exact hc6
      · intro hOK
        exact hOK2 (hOK1 hOK)
      · intro h2 v hv
        exact hmono2 h2 v (hmono1 h2 v hv)
      · intro P hP hPs
        refine hP2 P ?_ hPs
        show ∀ ch ∈ a2, ∀ x ∈ ch, P x
        refine hPset P ?_ ?_
        · rw [hc4]
          exact hP
        · rw [hbb]
          exact hPs bb

theorem grow_all (a : List (List SHA1)) (n : Nat) (P : SHA1 → Prop)
    (hP : ∀ ch ∈ a, ∀ x ∈ ch, P x) (hPe : P emptySHA1) :
    ∀ ch ∈ grow a n, ∀ x ∈ ch, P x := by
  obtain ⟨k, hk⟩ := growF_shape (n / gitChunkSize + 2) a n
  rw [grow, hk]
  intro ch hc x hx
  rcases List.mem_append.mp hc with hc | hc
  · exact hP ch hc x hx
  · rw [List.eq_of_mem_replicate hc] at hx
    rw [List.eq_of_mem_replicate hx]
    exact hPe

/-- The two-branch body of `addWriteTree` under the structural invariant:
for every id below 100000 it runs to the final root rebuild, which is a
`writeTree` of a trees slice of at most 100 entries, over a state whose
structure is again well-formed. -/
theorem addWriteTree_spec (sha1f : List Nat → SHA1) (id : Nat) (h : SHA1) (s : GitState)
    (hWF : stateWF s) (hid : id < 100000) :
    ∃ ts s2, addWriteTree sha1f id h s = writeTree sha1f [] ts s2 ∧
      ts.length ≤ 100 ∧
      s2.blobsCnt = max s.blobsCnt (id + 1) ∧ s2.treesCnt = max s.treesCnt (id / 100 + 1) ∧
      (∀ ch ∈ s2.blobs, ch.length = gitChunkSize) ∧
      (∀ ch ∈ s2.trees, ch.length = gitChunkSize) ∧
      s2.blobsCnt ≤ s2.blobs.length * gitChunkSize ∧
      s2.treesCnt ≤ s2.trees.length * gitChunkSize ∧
      s2.indexBuf = s.indexBuf ∧ s2.author = s.author ∧
      (storeOK sha1f s.store → storeOK sha1f s2.store) ∧
      (∀ h2 v, storeLookup s.store h2 = some v → storeLookup s2.store h2 = some v) ∧
      (∀ P : SHA1 → Prop, allTrees P s → P emptySHA1 → P h → (∀ bb, P (sha1f bb)) →
        allTrees P s2) ∧
      (∀ x ∈ ts, ∃ ch2 ∈ s2.trees, x ∈ ch2) := by
  obtain ⟨hbch, htch, hbcnt, htcnt, hb100k, ht1000⟩ := hWF
  have hgb := grow_big s.blobs id
  have hgt := grow_big s.trees (id / 100)
  have hgbch := grow_chunks s.blobs id hbch
  have hgtch := grow_chunks s.trees (id / 100) htch
  have hgblen : 1 ≤ (grow s.blobs id).length := by
    by_contra hc
    simp only [gitChunkSize] at hgb
    omega
  have hgtlen : 1 ≤ (grow s.trees (id / 100)).length := by
    by_contra hc
    simp only [gitChunkSize] at hgt
    omega
  obtain ⟨blobs2, hset, hb2len, hb2ch, _, _, hb2P⟩ :=
    chunkSet_spec (grow s.blobs id) id h hgbch hgb
  have hb2len2 : s.blobsCnt ≤ blobs2.length * gitChunkSize := by
    rw [hb2len]
    calc s.blobsCnt ≤ s.blobs.length * gitChunkSize := hbcnt
    _ ≤ (grow s.blobs id).length * gitChunkSize :=
        Nat.mul_le_mul_right _ (grow_length_ge s.blobs id)
  have ht2len2 : s.treesCnt ≤ (grow s.trees (id / 100)).length * gitChunkSize :=
    calc s.treesCnt ≤ s.trees.length * gitChunkSize := htcnt
    _ ≤ (grow s.trees (id / 100)).length * gitChunkSize :=
        Nat.mul_le_mul_right _ (grow_length_ge s.trees (id / 100))
  have hred : addWriteTree sha1f id h s =
      (if id < 100 then writeTrees0 sha1f (addState s id blobs2)
       else
        match loopAncF sha1f (id / 100 + 1) (id / 100) (addState s id blobs2) with
        | none => none
        | some s2 =>
          match sliceChunk s2.trees 0 0 (min s2.treesCnt 100) with
          | none => none
          | some t => writeTree sha1f [] t s2) := by
    unfold addWriteTree
    rw [hset]
  have hs1b : (addState s id blobs2).blobsCnt ≤
      (addState s id blobs2).blobs.length * gitChunkSize := by
    show max s.blobsCnt (id + 1) ≤ blobs2.length * gitChunkSize
    rw [hb2len]
    simp only [gitChunkSize] at *
    omega
  have hs1t : (addState s id blobs2).treesCnt ≤
      (addState s id blobs2).trees.length * gitChunkSize := by
    show max s.treesCnt (id / 100 + 1) ≤ (grow s.trees (id / 100)).length * gitChunkSize
    simp only [gitChunkSize] at *
    omega
  have hs1t1000 : (addState s id blobs2).treesCnt ≤ 1000 := by
    show max s.treesCnt (id / 100 + 1) ≤ 1000
    simp only [gitChunkSize] at *
    omega
  by_cases hlt : id < 100
  · -- writeTrees0 branch
    rw [hred, if_pos hlt]
    obtain ⟨bl, hbl, _, _, _⟩ := sliceChunk_spec (addState s id blobs2).blobs 0 0
      (min (addState s id blobs2).blobsCnt 100)
      hb2ch (by show 0 < blobs2.length; omega) (by omega)
      (by simp only [gitChunkSize]; omega)
    obtain ⟨h0, sA, hrunA⟩ := writeTree_total sha1f bl [] (addState s id blobs2)
    obtain ⟨⟨encA, _, hencA⟩, ha1, ha2, ha3, ha4, ha5, ha6, _, hAOK, hAmono⟩ :=
      hashObject_inv sha1f 1 (treeBytes bl []) (addState s id blobs2) h0 sA hrunA
    obtain ⟨a2, hset2, ha2len, ha2ch, _, _, ha2P⟩ :=
      chunkSet_spec sA.trees 0 h0 (by rw [ha4]; exact hgtch)
        (by rw [ha4]
            show 0 < (grow s.trees (id / 100)).length * gitChunkSize
            simp only [gitChunkSize]
            omega)
    have ha2len2 : a2.length = (grow s.trees (id / 100)).length := by
      rw [ha2len, ha4]
      rfl
    obtain ⟨t, hslt, htlen, _, htmem⟩ := sliceChunk_spec a2 0 0
      (min ({ sA with trees := a2 } : GitState).treesCnt 100) ha2ch
      (by show 0 < a2.length; rw [ha2len2]; omega) (by omega)
      (by simp only [gitChunkSize]; omega)
    refine ⟨t, { sA with trees := a2 }, ?_, ?_, ?_, ?_, ?_, ha2ch, ?_, ?_, ?_, ?_, ?_, ?_,
      ?_, ?_⟩
    · unfold writeTrees0
      rw [hbl]
      show (match writeTree sha1f bl [] (addState s id blobs2) with
        | none => none
        | some (h2, sB) =>
          match chunkSet sB.trees 0 h2 with
          | none => none
          | some ts2 =>
            match sliceChunk ({ sB with trees := ts2 } : GitState).trees 0 0
              (min ({ sB with trees := ts2 } : GitState).treesCnt 100) with
            | none => none
            | some t2 => writeTree sha1f [] t2 { sB with trees := ts2 }) = _
      rw [hrunA]
      show (match chunkSet sA.trees 0 h0 with
        | none => none
        | some ts2 =>
          match sliceChunk ({ sA with trees := ts2 } : GitState).trees 0 0
            (min ({ sA with trees := ts2 } : GitState).treesCnt 100) with
          | none => none
          | some t2 => writeTree sha1f [] t2 { sA with trees := ts2 }) = _
      rw [hset2]
      show (match sliceChunk a2 0 0 (min ({ sA with trees := a2 } : GitState).treesCnt 100)
          with
        | none => none
        | some t2 => writeTree sha1f [] t2 { sA with trees := a2 }) = _
      rw [hslt]
    · rw [htlen]
      omega
    · show sA.blobsCnt = _
      rw [ha1]
      rfl
    · show sA.treesCnt = _
      rw [ha2]
      rfl
    · show ∀ ch ∈ sA.blobs, ch.length = gitChunkSize
      rw [ha3]
      exact hb2ch
    · show sA.blobsCnt ≤ sA.blobs.length * gitChunkSize
      rw [ha1, ha3]
      exact hs1b
    · show sA.treesCnt ≤ a2.length * gitChunkSize
      rw [ha2, ha2len2]
      exact hs1t
    · show sA.indexBuf = s.indexBuf
      rw [ha5]
      rfl
    · show sA.author = s.author
      rw [ha6]
      rfl
    · intro hOK
      exact hAOK hOK
    · intro h2 v hv
      exact hAmono h2 v hv
    · intro P hP hPe hPh hPs
      show ∀ ch ∈ a2, ∀ x ∈ ch, P x
      refine ha2P P ?_ ?_
      · rw [ha4]
        show ∀ ch ∈ grow s.trees (id / 100), ∀ x ∈ ch, P x
        exact grow_all s.trees (id / 100) P hP hPe
      · rw [hencA]
        exact hPs encA
    · intro x hx
      obtain hxm := htmem x hx
      refine ⟨a2[0], ?_, hxm⟩
      show a2[0] ∈ a2
      exact List.getElem_mem _
  · -- ancestor-loop branch
    rw [hred, if_neg hlt]
    obtain ⟨s2, hrun2, hbc2, htc2, hblobs2, htlen2, htch2, hib2, hau2, hOK2, hmono2, hP2⟩ :=
      loopAncF_total sha1f (id / 100 + 1) (id / 100) (addState s id blobs2) (by omega)
        (by show ∀ ch ∈ blobs2, _; exact hb2ch)
        (by show ∀ ch ∈ grow s.trees (id / 100), _; exact hgtch)
        hs1b hs1t hs1t1000
        (by show id / 100 < (grow s.trees (id / 100)).length * gitChunkSize; exact hgt)
    obtain ⟨t, hslt, htlen, _, htmem⟩ := sliceChunk_spec s2.trees 0 0 (min s2.treesCnt 100)
      htch2
      (by show 0 < s2.trees.length
          rw [htlen2]
          show 0 < (grow s.trees (id / 100)).length
          omega)
      (by omega) (by simp only [gitChunkSize]; omega)
    refine ⟨t, s2, ?_, ?_, ?_, ?_, ?_, htch2, ?_, ?_, ?_, ?_, ?_, ?_, ?_, ?_⟩
    · rw [hrun2]
      show (match sliceChunk s2.trees 0 0 (min s2.treesCnt 100) with
        | none => none
        | some t2 => writeTree sha1f [] t2 s2) = _
      rw [hslt]
    · rw [htlen]
      omega
    · rw [hbc2]
      rfl
    · rw [htc2]
      rfl
    · rw [hblobs2]
      exact hb2ch
    · rw [hbc2, hblobs2]
      exact hs1b
    · rw [htc2, htlen2]
      exact hs1t
    · rw [hib2]
      rfl
    · rw [hau2]
      rfl
    · exact hOK2
    · exact hmono2
    · intro P hP hPe hPh hPs
      refine hP2 P ?_ hPs
      show ∀ ch ∈ grow s.trees (id / 100), ∀ x ∈ ch, P x
      exact grow_all s.trees (id / 100) P hP hPe
    · intro x hx
      have h0 : 0 < s2.trees.length := by
        rw [htlen2]
        show 0 < (grow s.trees (id / 100)).length
        omega
      obtain hxm := htmem x hx
      refine ⟨s2.trees[0], ?_, hxm⟩
      exact List.getElem_mem _

/-! ### C1: the sequential import driver and the panic at id 100000 -/

/-- One step of the ancestor loop with nonzero index. -/
theorem loopAncF_succ (sha1f : List Nat → SHA1) (f i : Nat) (s : GitState) (hi : i ≠ 0) :
    loopAncF sha1f (f + 1) i s =
      match writeTreesN sha1f i s with
      | none => none
      | some (h2, s1) =>
        match chunkSet s1.trees i h2 with
        | none => none
        | some ts => loopAncF sha1f f (i / 100) { s1 with trees := ts } := by
  rw [loopAncF, if_neg hi]

/-- With `treesCnt = 1001` the node-10 rebuild always aborts: its trees
slice is `trees[1][0 : min ((10 + 1) * 100) 1001] = trees[1][0:1001]`,
which exceeds the chunk length 1000. -/
theorem writeTreesN_none_1001 (sha1f : List Nat → SHA1) (s : GitState)
    (htc : s.treesCnt = 1001)
    (hch : ∀ ch ∈ s.trees, ch.length = gitChunkSize)
    (hlen : 1 < s.trees.length) :
    writeTreesN sha1f 10 s = none := by
  have hbad : sliceChunk s.trees (10 * 100 / gitChunkSize) (10 * 100 % gitChunkSize)
      (if min ((10 + 1) * 100) 1001 = 0 then gitChunkSize
        else min ((10 + 1) * 100) 1001) = none := by
    have hgk : s.trees[1]? = some s.trees[1] := List.getElem?_eq_getElem hlen
    have hcl : s.trees[1].length = gitChunkSize := hch _ (List.getElem_mem hlen)
    have hno : ¬((0 : Nat) ≤ 1001 ∧ 1001 ≤ s.trees[1].length) := by
      rw [hcl]
      simp only [gitChunkSize]
      omega
    show sliceChunk s.trees 1 0 1001 = none
    unfold sliceChunk
    rw [hgk]
    show (if (0 : Nat) ≤ 1001 ∧ 1001 ≤ s.trees[1].length then
      some ((s.trees[1].drop 0).take (1001 - 0)) else none) = none
    rw [if_neg hno]
  unfold writeTreesN
  rw [htc, if_pos (show 10 * 100 < 1001 by norm_num), hbad]
  cases (if 10 * 100 < s.blobsCnt then
      sliceChunk s.blobs (10 * 100 / gitChunkSize) (10 * 100 % gitChunkSize)
        (if min ((10 + 1) * 100) s.blobsCnt % gitChunkSize = 0 then gitChunkSize
          else min ((10 + 1) * 100) s.blobsCnt % gitChunkSize)
    else some []) <;> rfl

/-- From any structurally well-formed state, inserting id 100000 reaches
`writeTreesN 10` with `treesCnt = 1001`; the trees-slice upper bound
`min ((10 + 1) * 100) 1001 = 1001` (the source forgets the
`% gitChunkSize` reduction that the parallel blobs slice has) exceeds the
chunk length 1000, so the insertion aborts where Go panics with a slice
bounds out of range. -/
theorem addWriteTree_100000_fails (sha1f : List Nat → SHA1) (h : SHA1) (s : GitState)
    (hWF : stateWF s) : addWriteTree sha1f 100000 h s = none := by
  obtain ⟨hbch, htch, hbcnt, htcnt, hb100k, ht1000⟩ := hWF
  have hgb := grow_big s.blobs 100000
  have hgbch := grow_chunks s.blobs 100000 hbch
  obtain ⟨blobs2, hset, hb2len, hb2ch, _, _, _⟩ :=
    chunkSet_spec (grow s.blobs 100000) 100000 h hgbch hgb
  have hb2big : (100000 : Nat) < blobs2.length * gitChunkSize := by rw [hb2len]; exact hgb
  have hblen : 100 < blobs2.length := by
    simp only [gitChunkSize] at hb2big
    omega
  have hbcA : (addState s 100000 blobs2).blobsCnt = 100001 := by
    show max s.blobsCnt (100000 + 1) = 100001
    omega
  have htcA : (addState s 100000 blobs2).treesCnt = 1001 := by
    show max s.treesCnt (100000 / 100 + 1) = 1001
    omega
  have htrA : (addState s 100000 blobs2).trees = grow s.trees 1000 := by
    show grow s.trees (100000 / 100) = grow s.trees 1000
    norm_num
  have hgt : (1000 : Nat) < (grow s.trees 1000).length * gitChunkSize := grow_big s.trees 1000
  have hgtch : ∀ ch ∈ grow s.trees 1000, ch.length = gitChunkSize :=
    grow_chunks s.trees 1000 htch
  obtain ⟨bl, hbl, _, _, _⟩ := sliceChunk_spec blobs2 100 0 1 hb2ch
    hblen (by omega) (by simp only [gitChunkSize]; omega)
  obtain ⟨r1, s1, hw1⟩ := writeTree_total sha1f bl [] (addState s 100000 blobs2)
  obtain ⟨_, hbc1, htc1, hb1, ht1, _, _, _, _, _⟩ :=
    hashObject_inv sha1f 1 (treeBytes bl []) (addState s 100000 blobs2) r1 s1 hw1
  have hwt1 : writeTreesN sha1f 1000 (addState s 100000 blobs2) = some (r1, s1) := by
    unfold writeTreesN
    rw [hbcA, htcA]
    rw [if_pos (show 1000 * 100 < 100001 by norm_num),
      if_neg (show ¬1000 * 100 < 1001 by norm_num)]
    show (match sliceChunk blobs2 100 0 1, (some [] : Option (List SHA1)) with
      | some b, some t => writeTree sha1f b t (addState s 100000 blobs2)
      | _, _ => none) = some (r1, s1)
    rw [hbl]
    exact hw1
  have ht1' : s1.trees = grow s.trees 1000 := by rw [ht1, htrA]
  obtain ⟨ts, hset2, hts_len, hts_ch, _, _, _⟩ := chunkSet_spec s1.trees 1000 r1
    (by rw [ht1']; exact hgtch) (by rw [ht1']; exact hgt)
  have h1lt : 1 < ts.length := by
    rw [hts_len, ht1']
    simp only [gitChunkSize] at hgt
    omega
  have htcS : ({ s1 with trees := ts } : GitState).treesCnt = 1001 := by
    show s1.treesCnt = 1001
    rw [htc1, htcA]
  have hwt2 : writeTreesN sha1f 10 ({ s1 with trees := ts } : GitState) = none :=
    writeTreesN_none_1001 sha1f ({ s1 with trees := ts } : GitState) htcS hts_ch h1lt
  have hloop2 : loopAncF sha1f (999 + 1) 10 ({ s1 with trees := ts } : GitState) = none := by
    rw [loopAncF_succ sha1f 999 10 _ (by omega), hwt2]
  have hloop1 : loopAncF sha1f (1000 + 1) 1000 (addState s 100000 blobs2) = none := by
    rw [loopAncF_succ sha1f 1000 1000 _ (by omega), hwt1]
    show (match chunkSet s1.trees 1000 r1 with
      | none => none
      | some ts2 => loopAncF sha1f 1000 (1000 / 100) { s1 with trees := ts2 }) = none
    rw [hset2]
    show loopAncF sha1f 1000 (1000 / 100) ({ s1 with trees := ts } : GitState) = none
    exact hloop2
  have hred : addWriteTree sha1f 100000 h s =
      match loopAncF sha1f (100000 / 100 + 1) (100000 / 100) (addState s 100000 blobs2) with
      | none => none
      | some s2 =>
        match sliceChunk s2.trees 0 0 (min s2.treesCnt 100) with
        | none => none
        | some t => writeTree sha1f [] t s2 := by
    unfold addWriteTree
    rw [hset]
    show (if 100000 < 100 then writeTrees0 sha1f (addState s 100000 blobs2)
      else
        match loopAncF sha1f (100000 / 100 + 1) (100000 / 100) (addState s 100000 blobs2) with
        | none => none
        | some s2 =>
          match sliceChunk s2.trees 0 0 (min s2.treesCnt 100) with
          | none => none
          | some t => writeTree sha1f [] t s2) = _
    rw [if_neg (show ¬100000 < 100 by norm_num)]
  rw [hred]
  show (match loopAncF sha1f (1000 + 1) 1000 (addState s 100000 blobs2) with
    | none => none
    | some s2 =>
      match sliceChunk s2.trees 0 0 (min s2.treesCnt 100) with
      | none => none
      | some t => writeTree sha1f [] t s2) = none
  rw [hloop1]

/-- Sequential import driver: insert ids `0..n-1` in order, id `k` with
blob hash `bh k`, starting from the fresh repository state; a failed
insertion (a Go panic) aborts the run. The result pairs the root hash
returned by the last insertion with the final state. -/
def seqIns (sha1f : List Nat → SHA1) (bh : Nat → SHA1) : Nat → Option (SHA1 × GitState)
  | 0 => some (emptySHA1, initState)
  | n + 1 =>
    match seqIns sha1f bh n with
    | none => none
    | some (_, s) => addWriteTree sha1f n (bh n) s

/-- The fresh repository state is structurally well-formed. -/
theorem stateWF_init : stateWF initState :=
  ⟨fun ch hc => absurd hc (List.not_mem_nil ch), fun ch hc => absurd hc (List.not_mem_nil ch),
   Nat.zero_le _, Nat.zero_le _, Nat.zero_le _, Nat.zero_le _⟩

/-- A successful insertion of an id below 100000 preserves structural
well-formedness. -/
theorem addWriteTree_WF (sha1f : List Nat → SHA1) (id : Nat) (h : SHA1) (s : GitState)
    (r : SHA1) (s3 : GitState) (hWF : stateWF s) (hid : id < 100000)
    (hrun : addWriteTree sha1f id h s = some (r, s3)) : stateWF s3 := by
  obtain ⟨ts, s2, heq, _, hbc, htc, hbch2, htch2, hble, htle, _, _, _, _, _, _⟩ :=
    addWriteTree_spec sha1f id h s hWF hid
  rw [heq] at hrun
  obtain ⟨_, hbc3, htc3, hb3, ht3, _, _, _, _, _⟩ :=
    hashObject_inv sha1f 1 (treeBytes [] ts) s2 r s3 hrun
  obtain ⟨_, _, _, _, hb100k, ht1000⟩ := hWF
  refine ⟨?_, ?_, ?_, ?_, ?_, ?_⟩
  · rw [hb3]; exact hbch2
  · rw [ht3]; exact htch2
  · rw [hbc3, hb3]; exact hble
  · rw [htc3, ht3]; exact htle
  · rw [hbc3, hbc]; omega
  · rw [htc3, htc]; omega

/-- Every run of the driver up to 100000 insertions either aborts or ends
in a structurally well-formed state. -/
theorem seqIns_WF (sha1f : List Nat → SHA1) (bh : Nat → SHA1) :
    ∀ n, n ≤ 100000 → seqIns sha1f bh n = none ∨
      ∃ r s, seqIns sha1f bh n = some (r, s) ∧ stateWF s := by
  intro n
  induction n with
  | zero =>
    intro _
    exact Or.inr ⟨emptySHA1, initState, rfl, stateWF_init⟩
  | succ m ih =>
    intro hm
    rcases ih (by omega) with hnone | ⟨r, s, hs, hWF⟩
    · left
      rw [seqIns, hnone]
    · have hstep : seqIns sha1f bh (m + 1) = addWriteTree sha1f m (bh m) s := by
        rw [seqIns, hs]
      cases hrun : addWriteTree sha1f m (bh m) s with
      | none => exact Or.inl (by rw [hstep, hrun])
      | some p =>
        obtain ⟨r2, s3⟩ := p
        exact Or.inr ⟨r2, s3, by rw [hstep, hrun],
          addWriteTree_WF sha1f m (bh m) s r2 s3 hWF (by omega) hrun⟩

/-- C1: incremental-equals-batch fails as a universal statement. A
from-scratch rebuild of the radix-100 tree is total, but for every digest
function and every assignment of blob hashes, inserting ids 0..100000 one
at a time through `addWriteTree` aborts (the source panics with slice
bounds out of range at id 100000) and produces no root hash at all, so the
incremental root cannot agree with the reference root at every prefix
length. -/
theorem C1_incremental_driver_fails_at_100001 (sha1f : List Nat → SHA1) (bh : Nat → SHA1) :
    (seqIns sha1f bh 100001).isNone = true := by
  have h1 : (100001 : Nat) = 100000 + 1 := by norm_num
  rcases seqIns_WF sha1f bh 100000 (by omega) with hnone | ⟨r, s, hs, hWF⟩
  · rw [h1, seqIns, hnone]
    rfl
  · rw [h1, seqIns, hs]
    show (addWriteTree sha1f 100000 (bh 100000) s).isNone = true
    rw [addWriteTree_100000_fails sha1f (bh 100000) s hWF]
    rfl

/-! ### C9: the root tree only ever lists subtrees -/

/-- With no blob slice (`writeTree(nil, ...)`), every emitted entry is a
subtree entry: mode `40000` and a bare two-digit name. -/
theorem entriesOf_nil_blobs (ts : List SHA1) :
    ∀ e ∈ entriesOf [] ts, e.1 = treeMode ∧ ∃ i, i < ts.length ∧ e.2.1 = fmt02 i := by
  intro e he
  unfold entriesOf at he
  obtain ⟨l, hl, hel⟩ := List.mem_flatten.mp he
  obtain ⟨i, _, rfl⟩ := List.mem_map.mp hl
  unfold slotEntries at hel
  rcases List.mem_append.mp hel with hmem | hmem
  · split at hmem
    case isTrue hcond => exact absurd hcond.1 (by simp)
    case isFalse _ => exact absurd hmem (List.not_mem_nil e)
  · split at hmem
    case isTrue hcond =>
      simp only [List.mem_singleton] at hmem
      subst hmem
      exact ⟨rfl, i, hcond.1, rfl⟩
    case isFalse _ => exact absurd hmem (List.not_mem_nil e)

/-- C9 — Implicit: the root tree has only subtree children. For every id
below 100000, from any well-formed state the insertion succeeds, the
returned root hash is stored as a tree object, and every parsed entry of
that object carries mode `40000` and a bare two-digit directory name
`fmt02 i` with `i ≤ 99` — never a blob entry, so every blob (including
ids 0..99, grouped under the synthetic `00` subtree) sits at least one
directory level below the root. -/
theorem C9_root_tree_only_subtrees (sha1f : List Nat → SHA1) (id : Nat) (h : SHA1)
    (s : GitState) (hinj : Function.Injective sha1f)
    (hlen : ∀ bb, (sha1f bb).length = 20)
    (hWF : stateWF s) (hid : id < 100000) (hOK : storeOK sha1f s.store)
    (hall : allTrees (fun x => x.length = 20) s) (hh : h.length = 20) :
    ∃ r s3 body entries, addWriteTree sha1f id h s = some (r, s3) ∧
      storeLookup s3.store r = some (1, body) ∧
      parseTree body = some entries ∧
      ∀ e ∈ entries, e.1 = treeMode ∧ ∃ i, i ≤ 99 ∧ e.2.1 = fmt02 i := by
  obtain ⟨ts, s2, heq, htlen, _, _, _, _, _, _, _, _, hOKimp, _, hPthread, htsmem⟩ :=
    addWriteTree_spec sha1f id h s hWF hid
  have hts20 : ∀ x ∈ ts, x.length = 20 := by
    intro x hx
    obtain ⟨ch2, hch2, hxch⟩ := htsmem x hx
    exact hPthread (fun y => y.length = 20) hall (by simp [emptySHA1]) hh
      (fun bb => hlen bb) ch2 hch2 x hxch
  obtain ⟨tn, s1, htn, hrun1, hOK1, hlk, _, _, _, _, _, _, _⟩ :=
    hashObject_spec sha1f hinj 1 (treeBytes [] ts) s2 (by omega) (hOKimp hOK)
  refine ⟨objHash sha1f tn (treeBytes [] ts), s1, treeBytes [] ts, entriesOf [] ts,
    heq.trans hrun1, hlk, ?_, ?_⟩
  · rw [treeBytes_eq]
    exact parseTree_serialize _ (entriesOf_good [] ts (by simpa using hts20))
  · intro e he
    obtain ⟨hm, i, hi, hn⟩ := entriesOf_nil_blobs ts e he
    exact ⟨hm, i, by omega, hn⟩

/-- Closed witness for C9: the very first insertion (id 0, an all-ones
blob hash, the injective toy digest, the fresh state). -/
theorem C9_root_tree_only_subtrees_witness :
    ∃ r s3 body entries,
      addWriteTree toySha 0 (List.replicate 20 1) initState = some (r, s3) ∧
      storeLookup s3.store r = some (1, body) ∧
      parseTree body = some entries ∧
      ∀ e ∈ entries, e.1 = treeMode ∧ ∃ i, i ≤ 99 ∧ e.2.1 = fmt02 i :=
  C9_root_tree_only_subtrees toySha 0 (List.replicate 20 1) initState toySha_inj
    toySha_length stateWF_init (by omega)
    (fun e he => absurd he (List.not_mem_nil e))
    (fun ch hc => absurd hc (List.not_mem_nil ch))
    (by simp)

/-! ### C2: content correctness of the incremental tree index.

The development relates the chunked arrays to logical view functions,
characterizes the tree payloads extensionally through slot views, embeds a
recursive decoder for the stored trees (modelled from the spec, as the
external tool reading the repository; the source has no tree reader), and
proves that decoding the root after a run of insertions returns exactly
the inserted (path, hash) pairs. -/

/-- The logical value of blob slot `id`: the stored hash, or the zero
value for a slot outside the allocated chunks. -/
def blobView (s : GitState) (id : Nat) : SHA1 := (chunkGet s.blobs id).getD emptySHA1

/-- The logical value of tree slot `i`. -/
def treeView (s : GitState) (i : Nat) : SHA1 := (chunkGet s.trees i).getD emptySHA1

/-- Growing the chunk list does not change any logical slot value: new
chunks are zero-filled. -/
theorem chunkGetD_grow (a : List (List SHA1)) (id j : Nat) :
    (chunkGet (grow a id) j).getD emptySHA1 = (chunkGet a j).getD emptySHA1 := by
  by_cases h1 : j / gitChunkSize < a.length
  · unfold chunkGet
    rw [grow_prior a id _ h1]
  · have h1' : a[j / gitChunkSize]? = none := by
      rw [List.getElem?_eq_none_iff]
      omega
    by_cases h2 : j / gitChunkSize < (grow a id).length
    · unfold chunkGet
      rw [grow_new a id _ (by omega) h2, h1']
      have hm : j % gitChunkSize < gitChunkSize :=
        Nat.mod_lt _ (by simp [gitChunkSize])
      show ((List.replicate gitChunkSize emptySHA1)[j % gitChunkSize]?).getD emptySHA1 =
        (none : Option SHA1).getD emptySHA1
      rw [List.getElem?_replicate, if_pos hm]
      rfl
    · unfold chunkGet
      rw [List.getElem?_eq_none_iff.mpr (by omega), h1']

/-- The emission condition of a slot depends only on the `getD` view: an
index at or beyond the list length reads the zero value anyway. -/
theorem slot_cond (bs : List SHA1) (i : Nat) :
    (i < bs.length ∧ bs.getD i emptySHA1 ≠ emptySHA1) ↔ bs.getD i emptySHA1 ≠ emptySHA1 := by
  constructor
  · exact fun h => h.2
  · intro h
    refine ⟨?_, h⟩
    by_contra hlen
    exact h (List.getD_eq_default _ _ (by omega))

theorem slotBytes_getD (bs ts : List SHA1) (i : Nat) :
    slotBytes bs ts i =
      (if bs.getD i emptySHA1 ≠ emptySHA1 then blobEntryBytes i (bs.getD i emptySHA1)
        else []) ++
      (if ts.getD i emptySHA1 ≠ emptySHA1 then treeEntryBytes i (ts.getD i emptySHA1)
        else []) := by
  unfold slotBytes
  rw [if_congr (slot_cond bs i) rfl rfl, if_congr (slot_cond ts i) rfl rfl]

theorem slotBytes_ext (bs ts bs2 ts2 : List SHA1) (i : Nat)
    (hb : bs.getD i emptySHA1 = bs2.getD i emptySHA1)
    (ht : ts.getD i emptySHA1 = ts2.getD i emptySHA1) :
    slotBytes bs ts i = slotBytes bs2 ts2 i := by
  rw [slotBytes_getD, slotBytes_getD, hb, ht]

/-- The writeTree loop payload over an explicit slot count. -/
def treeBytesN (n : Nat) (bs ts : List SHA1) : List Nat :=
  ((List.range n).map (slotBytes bs ts)).flatten

theorem treeBytesN_ext (n : Nat) (bs ts bs2 ts2 : List SHA1)
    (hb : ∀ k, k < n → bs.getD k emptySHA1 = bs2.getD k emptySHA1)
    (ht : ∀ k, k < n → ts.getD k emptySHA1 = ts2.getD k emptySHA1) :
    treeBytesN n bs ts = treeBytesN n bs2 ts2 := by
  unfold treeBytesN
  congr 1
  apply List.map_congr_left
  intro i hi
  rw [List.mem_range] at hi
  exact slotBytes_ext _ _ _ _ i (hb i hi) (ht i hi)

theorem treeBytesN_extend (n m : Nat) (bs ts : List SHA1) (hnm : n ≤ m)
    (hb : ∀ k, n ≤ k → bs.getD k emptySHA1 = emptySHA1)
    (ht : ∀ k, n ≤ k → ts.getD k emptySHA1 = emptySHA1) :
    treeBytesN m bs ts = treeBytesN n bs ts := by
  unfold treeBytesN
  obtain ⟨d, rfl⟩ : ∃ d, m = n + d := ⟨m - n, by omega⟩
  rw [List.range_add, List.map_append, List.flatten_append]
  have hz : ((List.range d).map fun x => n + x).map (slotBytes bs ts) =
      (List.range d).map (fun _ => ([] : List Nat)) := by
    rw [List.map_map]
    apply List.map_congr_left
    intro j _
    show slotBytes bs ts (n + j) = []
    rw [slotBytes_getD, if_neg (by simp only [ne_eq, not_not]; exact hb _ (by omega)),
      if_neg (by simp only [ne_eq, not_not]; exact ht _ (by omega))]
    rfl
  rw [hz]
  have hfl : ((List.range d).map (fun _ => ([] : List Nat))).flatten = [] := by
    simp
  rw [hfl, List.append_nil]

/-- Payload extensionality: the bytes written by the writeTree loop depend
only on the two slot view functions. -/
theorem treeBytes_ext (bs ts bs2 ts2 : List SHA1)
    (hb : ∀ k, bs.getD k emptySHA1 = bs2.getD k emptySHA1)
    (ht : ∀ k, ts.getD k emptySHA1 = ts2.getD k emptySHA1) :
    treeBytes bs ts = treeBytes bs2 ts2 := by
  have hdef : ∀ (u : List SHA1) (k : Nat), u.length ≤ k → u.getD k emptySHA1 = emptySHA1 :=
    fun u k hk => List.getD_eq_default u _ hk
  rw [show treeBytes bs ts = treeBytesN (max bs.length ts.length) bs ts from rfl,
    show treeBytes bs2 ts2 = treeBytesN (max bs2.length ts2.length) bs2 ts2 from rfl,
    ← treeBytesN_extend (max bs.length ts.length)
      (max (max bs.length ts.length) (max bs2.length ts2.length)) bs ts (by omega)
      (fun k hk => hdef bs k (by omega)) (fun k hk => hdef ts k (by omega)),
    ← treeBytesN_extend (max bs2.length ts2.length)
      (max (max bs.length ts.length) (max bs2.length ts2.length)) bs2 ts2 (by omega)
      (fun k hk => hdef bs2 k (by omega)) (fun k hk => hdef ts2 k (by omega))]
  exact treeBytesN_ext _ bs ts bs2 ts2 (fun k _ => hb k) (fun k _ => ht k)

/-! ### Decimal recurrence and the shape of idToGitName on each id range -/

theorem decimalF_acc (fuel : Nat) :
    ∀ n acc, decimalF fuel n acc = decimalF fuel n [] ++ acc := by
  induction fuel with
  | zero => intro n acc; rfl
  | succ f ih =>
    intro n acc
    by_cases hn : n = 0
    · subst hn
      rw [decimalF_zero, decimalF_zero]
      rfl
    · rw [show decimalF (f + 1) n acc =
        decimalF f (n / 10) ((48 + n % 10) :: acc) from by rw [decimalF, if_neg hn],
        show decimalF (f + 1) n [] =
        decimalF f (n / 10) [48 + n % 10] from by rw [decimalF, if_neg hn]]
      rw [ih (n / 10) ((48 + n % 10) :: acc), ih (n / 10) [48 + n % 10]]
      simp

theorem decimalF_succ_eq (fuel : Nat) :
    ∀ n acc, n < 10 ^ fuel → decimalF (fuel + 1) n acc = decimalF fuel n acc := by
  induction fuel with
  | zero =>
    intro n acc h
    obtain rfl : n = 0 := by omega
    rw [decimalF_zero, decimalF_zero]
  | succ f ih =>
    intro n acc h
    by_cases hn : n = 0
    · subst hn
      rw [decimalF_zero, decimalF_zero]
    · have hL : decimalF (f + 1 + 1) n acc = decimalF (f + 1) (n / 10) ((48 + n % 10) :: acc) := by
        rw [show decimalF (f + 1 + 1) n acc =
          if n = 0 then acc else decimalF (f + 1) (n / 10) ((48 + n % 10) :: acc) from rfl,
          if_neg hn]
      have hR : decimalF (f + 1) n acc = decimalF f (n / 10) ((48 + n % 10) :: acc) := by
        rw [decimalF, if_neg hn]
      rw [hL, hR]
      refine ih (n / 10) _ ?_
      have h10 : 10 ^ (f + 1) = 10 * 10 ^ f := by ring
      rw [h10] at h
      exact Nat.div_lt_of_lt_mul h

theorem decimalF_fuel_eq : ∀ (f2 f1 n : Nat), f1 ≤ f2 → n < 10 ^ f1 →
    decimalF f2 n [] = decimalF f1 n [] := by
  intro f2
  induction f2 with
  | zero =>
    intro f1 n h12 h
    obtain rfl : f1 = 0 := by omega
    rfl
  | succ f ih =>
    intro f1 n h12 h
    by_cases hf : f1 = f + 1
    · subst hf; rfl
    · have h1f : f1 ≤ f := by omega
      have hnf : n < 10 ^ f := lt_of_lt_of_le h (Nat.pow_le_pow_right (by norm_num) h1f)
      rw [decimalF_succ_eq f n [] hnf]
      exact ih f1 n h1f h

theorem decimal_lt_ten (n : Nat) (h : n < 10) : decimal n = [48 + n] := by
  by_cases hn : n = 0
  · subst hn; rfl
  · unfold decimal
    rw [if_neg hn]
    rw [show decimalF (n + 1) n [] =
      if n = 0 then [] else decimalF n (n / 10) [48 + n % 10] from rfl, if_neg hn]
    rw [Nat.div_eq_of_lt h, decimalF_zero, Nat.mod_eq_of_lt h]

theorem decimal_div10 (n : Nat) (h : 10 ≤ n) :
    decimal n = decimal (n / 10) ++ [48 + n % 10] := by
  have hn : n ≠ 0 := by omega
  have hq : n / 10 ≠ 0 := by omega
  unfold decimal
  rw [if_neg hn, if_neg hq]
  rw [show decimalF (n + 1) n [] =
    if n = 0 then [] else decimalF n (n / 10) [48 + n % 10] from rfl, if_neg hn]
  rw [decimalF_acc n (n / 10) [48 + n % 10]]
  congr 1
  exact decimalF_fuel_eq n (n / 10 + 1) (n / 10) (by omega)
    (lt_of_lt_of_le (Nat.lt_pow_self (by norm_num) _)
      (Nat.pow_le_pow_right (by norm_num) (by omega)))

theorem decimal_two (j : Nat) (h1 : 10 ≤ j) (h2 : j < 100) :
    decimal j = [48 + j / 10, 48 + j % 10] := by
  rw [decimal_div10 j h1, decimal_lt_ten (j / 10) (by omega)]
  rfl

theorem fmt02_pair (j : Nat) (h : j < 100) : fmt02 j = [48 + j / 10, 48 + j % 10] := by
  unfold fmt02
  by_cases hj : j < 10
  · rw [if_pos hj, Nat.div_eq_of_lt hj, Nat.mod_eq_of_lt hj]
  · rw [if_neg hj]
    exact decimal_two j (by omega) h

theorem decimal_mul100 (k j : Nat) (hk : 1 ≤ k) (hj : j < 100) :
    decimal (k * 100 + j) = decimal k ++ [48 + j / 10, 48 + j % 10] := by
  have h1 : 10 ≤ k * 100 + j := by omega
  rw [decimal_div10 _ h1]
  have hq : (k * 100 + j) / 10 = k * 10 + j / 10 := by omega
  have hm : (k * 100 + j) % 10 = j % 10 := by omega
  rw [hq, hm, decimal_div10 _ (by omega)]
  have hq2 : (k * 10 + j / 10) / 10 = k := by omega
  have hm2 : (k * 10 + j / 10) % 10 = j / 10 := by omega
  rw [hq2, hm2, List.append_assoc]
  rfl

theorem decimalInt_natCast (id : Nat) : decimalInt (id : Int) = decimal id := by
  unfold decimalInt
  rw [if_neg (by omega)]
  norm_num

/-- Zeta-expanded form of `idToGitName`. -/
theorem idToGitName_eq (id : Int) :
    idToGitName id =
      (if (if (decimalInt id).length % 2 = 1 then 48 :: decimalInt id
          else decimalInt id).length = 2 then [48, 48, 47] else []) ++
      pairGroups (if (decimalInt id).length % 2 = 1 then 48 :: decimalInt id
        else decimalInt id) ++ [46, 109, 100] := rfl

/-- The path of an id below 100: synthetic `00/`, two digits, `.md`. -/
theorem idToGitName_low (id : Nat) (h : id < 100) :
    idToGitName (id : Int) =
      [48, 48, 47, 48 + id / 10, 48 + id % 10, 46, 109, 100] := by
  rw [idToGitName_eq, decimalInt_natCast]
  by_cases h10 : id < 10
  · rw [decimal_lt_ten id h10]
    rw [Nat.div_eq_of_lt h10, Nat.mod_eq_of_lt h10]
    norm_num [pairGroups, List.cons_ne_nil]
  · rw [decimal_two id (by omega) h]
    norm_num [pairGroups, List.cons_ne_nil]

/-- The path of an id in [100, 10000): two two-digit components. -/
theorem idToGitName_mid (id : Nat) (h1 : 100 ≤ id) (h2 : id < 10000) :
    idToGitName (id : Int) =
      [48 + id / 1000, 48 + id / 100 % 10, 47,
       48 + id / 10 % 10, 48 + id % 10, 46, 109, 100] := by
  obtain ⟨k, j, rfl, hk, hk2, hj⟩ :
      ∃ k j, id = k * 100 + j ∧ 1 ≤ k ∧ k < 100 ∧ j < 100 :=
    ⟨id / 100, id % 100, by omega, by omega, by omega, by omega⟩
  rw [idToGitName_eq, decimalInt_natCast, decimal_mul100 k j hk hj]
  have e1 : (k * 100 + j) / 1000 = k / 10 := by omega
  have e2 : (k * 100 + j) / 100 % 10 = k % 10 := by omega
  have e3 : (k * 100 + j) / 10 % 10 = j / 10 := by omega
  have e4 : (k * 100 + j) % 10 = j % 10 := by omega
  rw [e1, e2, e3, e4]
  by_cases hk10 : k < 10
  · rw [decimal_lt_ten k hk10]
    rw [Nat.div_eq_of_lt hk10, Nat.mod_eq_of_lt hk10]
    norm_num [pairGroups, List.cons_ne_nil]
  · rw [decimal_two k (by omega) hk2]
    norm_num [pairGroups, List.cons_ne_nil]

/-- The path of an id in [10000, 100000): three two-digit components. -/
theorem idToGitName_high (id : Nat) (h1 : 10000 ≤ id) (h2 : id < 100000) :
    idToGitName (id : Int) =
      [48, 48 + id / 10000, 47, 48 + id / 1000 % 10, 48 + id / 100 % 10, 47,
       48 + id / 10 % 10, 48 + id % 10, 46, 109, 100] := by
  obtain ⟨k, j, rfl, hk, hk2, hj⟩ :
      ∃ k j, id = k * 100 + j ∧ 100 ≤ k ∧ k < 1000 ∧ j < 100 :=
    ⟨id / 100, id % 100, by omega, by omega, by omega, by omega⟩
  obtain ⟨m, l, rfl, hm, hm2, hl⟩ :
      ∃ m l, k = m * 100 + l ∧ 1 ≤ m ∧ m < 10 ∧ l < 100 :=
    ⟨k / 100, k % 100, by omega, by omega, by omega, by omega⟩
  rw [idToGitName_eq, decimalInt_natCast]
  have hid : (m * 100 + l) * 100 + j = (m * 100 + l) * 100 + j := rfl
  rw [decimal_mul100 (m * 100 + l) j (by omega) hj,
    decimal_mul100 m l hm hl, decimal_lt_ten m hm2]
  have e1 : ((m * 100 + l) * 100 + j) / 10000 = m := by omega
  have e2 : ((m * 100 + l) * 100 + j) / 1000 % 10 = l / 10 := by omega
  have e3 : ((m * 100 + l) * 100 + j) / 100 % 10 = l % 10 := by omega
  have e4 : ((m * 100 + l) * 100 + j) / 10 % 10 = j / 10 := by omega
  have e5 : ((m * 100 + l) * 100 + j) % 10 = j % 10 := by omega
  rw [e1, e2, e3, e4, e5]
  norm_num [pairGroups, List.cons_ne_nil]

/-! ### The recursive tree decoder (modelled from the spec) -/

/-- Combine the decoded leaf lists of the entries of one tree, in payload
order; a failed entry fails the whole tree. -/
def optFlat : List (Option (List (List Nat × SHA1))) → Option (List (List Nat × SHA1))
  | [] => some []
  | none :: _ => none
  | some l :: rest =>
    match optFlat rest with
    | none => none
    | some r => some (l ++ r)

/-- Modelled from the spec: decoding one parsed tree entry. A `100644`
blob entry is a leaf at its own name; a `40000` subtree entry is decoded
recursively, with its name and a `'/'` prefixed to every leaf path below
it; any other mode is malformed. -/
def decodeEntry (rec2 : SHA1 → Option (List (List Nat × SHA1))) (e : TreeEntry) :
    Option (List (List Nat × SHA1)) :=
  if e.1 = blobMode then some [(e.2.1, e.2.2)]
  else if e.1 = treeMode then
    (rec2 e.2.2).map (fun ls => ls.map (fun p => (e.2.1 ++ 47 :: p.1, p.2)))
  else none

/-- Modelled from the spec: recursively decode the tree object stored
under a hash, listing all blob leaves as (slash-separated path, hash)
pairs in payload order, as the external tool reading the repository
would. Fueled by the recursion depth. -/
def decodeTreeF (store : List StoreEntry) : Nat → SHA1 → Option (List (List Nat × SHA1))
  | 0, _ => none
  | fuel + 1, h =>
    match storeLookup store h with
    | none => none
    | some (typ, body) =>
      if typ = 1 then
        match parseTree body with
        | none => none
        | some entries =>
          optFlat (entries.map (decodeEntry (fun h2 => decodeTreeF store fuel h2)))
      else none

theorem optFlat_map {α : Type} (es : List α) (g : α → Option (List (List Nat × SHA1)))
    (L : α → List (List Nat × SHA1)) (hg : ∀ e ∈ es, g e = some (L e)) :
    optFlat (es.map g) = some ((es.map L).flatten) := by
  induction es with
  | nil => rfl
  | cons e rest ih =>
    rw [List.map_cons, List.map_cons, List.flatten_cons, hg e (by simp)]
    show (match optFlat (rest.map g) with
      | none => none
      | some r => some (L e ++ r)) = some (L e ++ (rest.map L).flatten)
    rw [ih (fun x hx => hg x (by simp [hx]))]

/-- One decode step on a stored tree object. -/
theorem decodeTreeF_step (store : List StoreEntry) (fuel : Nat) (h : SHA1)
    (body : List Nat) (entries : List TreeEntry)
    (hlk : storeLookup store h = some (1, body))
    (hp : parseTree body = some entries) :
    decodeTreeF store (fuel + 1) h =
      optFlat (entries.map (decodeEntry (fun h2 => decodeTreeF store fuel h2))) := by
  rw [decodeTreeF, hlk]
  show (if (1 : Nat) = 1 then
    match parseTree body with
    | none => none
    | some entries2 =>
      optFlat (entries2.map (decodeEntry (fun h2 => decodeTreeF store fuel h2)))
    else none) = _
  rw [if_pos rfl, hp]

/-! ### Canonical node payloads and the content invariant -/

/-- The canonical payload of tree node `i ≥ 1`: blob children are ids
`100 i + k`, subtree children are nodes `100 i + k`, over full 100-slot
windows of the current logical views. -/
def nodeBody (s : GitState) (i : Nat) : List Nat :=
  treeBytes ((List.range 100).map (fun k => blobView s (i * 100 + k)))
    ((List.range 100).map (fun k => treeView s (i * 100 + k)))

/-- The canonical payload of the special node 0 written by `writeTrees0`:
blobs 0..99, no subtrees. -/
def node0Body (s : GitState) : List Nat :=
  treeBytes ((List.range 100).map (fun k => blobView s k)) []

/-- The canonical payload of the root: subtree slots `trees[0..99]`, no
blobs. -/
def rootBody (s : GitState) : List Nat :=
  treeBytes [] ((List.range 100).map (fun k => treeView s k))

/-- The content invariant tying the store to the logical views: the state
is structurally well-formed, the store is keyed correctly, slots beyond
the counters are zero, every slot value is 20 bytes, and every non-zero
tree slot's hash is stored as a tree object whose payload is the canonical
payload of that node under the current views. -/
def contentINV (sha1f : List Nat → SHA1) (s : GitState) : Prop :=
  stateWF s ∧ storeOK sha1f s.store ∧
  (∀ id, s.blobsCnt ≤ id → blobView s id = emptySHA1) ∧
  (∀ i, s.treesCnt ≤ i → treeView s i = emptySHA1) ∧
  (∀ id, (blobView s id).length = 20) ∧
  (∀ i, (treeView s i).length = 20) ∧
  (treeView s 0 ≠ emptySHA1 → storeLookup s.store (treeView s 0) = some (1, node0Body s)) ∧
  (∀ i, 1 ≤ i → treeView s i ≠ emptySHA1 →
    storeLookup s.store (treeView s i) = some (1, nodeBody s i)) ∧
  (∀ id, blobView s id ≠ emptySHA1 →
    (id < 100 → treeView s 0 ≠ emptySHA1) ∧
    (100 ≤ id → treeView s (id / 100) ≠ emptySHA1) ∧
    (10000 ≤ id → treeView s (id / 10000) ≠ emptySHA1))

theorem contentINV_init (sha1f : List Nat → SHA1) : contentINV sha1f initState := by
  have hbv : ∀ id, blobView initState id = emptySHA1 := by
    intro id
    rfl
  have htv : ∀ i, treeView initState i = emptySHA1 := by
    intro i
    rfl
  refine ⟨stateWF_init, fun e he => absurd he (List.not_mem_nil e), fun id _ => hbv id,
    fun i _ => htv i, ?_, ?_, ?_, ?_, ?_⟩
  · intro id
    rw [hbv id]
    rfl
  · intro i
    rw [htv i]
    rfl
  · intro hne
    exact absurd (htv 0) hne
  · intro i _ hne
    exact absurd (htv i) hne
  · intro id hne
    exact absurd (hbv id) hne

theorem getD_map_range (n : Nat) (f : Nat → SHA1) (k : Nat) (e : SHA1) :
    ((List.range n).map f).getD k e = if k < n then f k else e := by
  split
  case isTrue h =>
    rw [List.getD_eq_getElem?_getD, List.getElem?_map, List.getElem?_range h]
    rfl
  case isFalse h =>
    exact List.getD_eq_default _ _ (by simpa using h)

/-- The decoded leaves contributed by slot `k` of a window: the blob leaf
if the blob slot is non-zero, then the recursively decoded subtree leaves
(name-prefixed) if the tree slot is non-zero. -/
def slotLeaves (fb ft : Nat → SHA1) (sub : Nat → List (List Nat × SHA1)) (k : Nat) :
    List (List Nat × SHA1) :=
  (if fb k ≠ emptySHA1 then [(fmt02 k ++ [46, 109, 100], fb k)] else []) ++
  (if ft k ≠ emptySHA1 then (sub k).map (fun p => (fmt02 k ++ 47 :: p.1, p.2)) else [])

/-- All decoded leaves of a 100-slot window. -/
def windowLeaves (fb ft : Nat → SHA1) (sub : Nat → List (List Nat × SHA1)) :
    List (List Nat × SHA1) :=
  ((List.range 100).map (slotLeaves fb ft sub)).flatten

theorem optFlat_append (l2 : List (Option (List (List Nat × SHA1))))
    (b : List (List Nat × SHA1)) (h2 : optFlat l2 = some b) :
    ∀ (l1 : List (Option (List (List Nat × SHA1)))) (a : List (List Nat × SHA1)),
      optFlat l1 = some a → optFlat (l1 ++ l2) = some (a ++ b) := by
  intro l1
  induction l1 with
  | nil =>
    intro a h1
    rw [show optFlat [] = some [] from rfl] at h1
    injection h1 with h1
    subst h1
    rw [List.nil_append, h2, List.nil_append]
  | cons o rest ih =>
    intro a h1
    cases o with
    | none => rw [optFlat] at h1; cases h1
    | some l =>
      rw [optFlat] at h1
      cases hr : optFlat rest with
      | none => rw [hr] at h1; cases h1
      | some r =>
        rw [hr] at h1
        injection h1 with h1
        subst h1
        rw [List.cons_append, optFlat, ih r hr, List.append_assoc]

theorem optFlat_flatten_map {β : Type} (ks : List β) (F : β → List TreeEntry)
    (g : TreeEntry → Option (List (List Nat × SHA1)))
    (L : β → List (List Nat × SHA1))
    (hL : ∀ k ∈ ks, optFlat ((F k).map g) = some (L k)) :
    optFlat ((ks.map F).flatten.map g) = some ((ks.map L).flatten) := by
  induction ks with
  | nil => rfl
  | cons k rest ih =>
    rw [List.map_cons, List.flatten_cons, List.map_append, List.map_cons, List.flatten_cons]
    exact optFlat_append _ _ (ih (fun x hx => hL x (by simp [hx]))) _ _ (hL k (by simp))

theorem optFlat_slot (store : List StoreEntry) (fuel : Nat) (fb ft : Nat → SHA1)
    (sub : Nat → List (List Nat × SHA1)) (k : Nat) (hk : k < 100)
    (hsub : ft k ≠ emptySHA1 → decodeTreeF store fuel (ft k) = some (sub k)) :
    optFlat ((slotEntries ((List.range 100).map fb) ((List.range 100).map ft) k).map
      (decodeEntry (fun h2 => decodeTreeF store fuel h2))) =
      some (slotLeaves fb ft sub k) := by
  have hbg : ((List.range 100).map fb).getD k emptySHA1 = fb k := by
    rw [getD_map_range, if_pos hk]
  have htg : ((List.range 100).map ft).getD k emptySHA1 = ft k := by
    rw [getD_map_range, if_pos hk]
  have hblen : k < ((List.range 100).map fb).length := by simpa using hk
  have htlen : k < ((List.range 100).map ft).length := by simpa using hk
  unfold slotEntries slotLeaves
  rw [hbg, htg]
  by_cases hb : fb k = emptySHA1 <;> by_cases ht : ft k = emptySHA1
  · rw [if_neg (by simp [hb]), if_neg (by simp [ht]), if_neg (by simp [hb]),
      if_neg (by simp [ht])]
    rfl
  · rw [if_neg (by simp [hb]), if_pos ⟨htlen, ht⟩, if_neg (by simp [hb]), if_pos ht]
    rw [List.nil_append, List.nil_append, List.map_cons, List.map_nil]
    show optFlat [decodeEntry (fun h2 => decodeTreeF store fuel h2) (treeMode, fmt02 k, ft k)]
      = _
    rw [show decodeEntry (fun h2 => decodeTreeF store fuel h2) (treeMode, fmt02 k, ft k) =
        (decodeTreeF store fuel (ft k)).map
          (fun ls => ls.map (fun p => (fmt02 k ++ 47 :: p.1, p.2))) from by
      unfold decodeEntry
      rw [if_neg (show ((treeMode, fmt02 k, ft k) : TreeEntry).1 ≠ blobMode from by
        simp [treeMode, blobMode]), if_pos rfl]]
    rw [hsub ht]
    show some ((sub k).map (fun p => (fmt02 k ++ 47 :: p.1, p.2)) ++ []) = _
    rw [List.append_nil]
  · rw [if_pos ⟨hblen, hb⟩, if_neg (by simp [ht]), if_pos hb, if_neg (by simp [ht])]
    rw [List.append_nil, List.append_nil, List.map_cons, List.map_nil]
    show optFlat [decodeEntry (fun h2 => decodeTreeF store fuel h2)
      (blobMode, fmt02 k ++ [46, 109, 100], fb k)] = _
    rw [show decodeEntry (fun h2 => decodeTreeF store fuel h2)
        (blobMode, fmt02 k ++ [46, 109, 100], fb k) =
        some [(fmt02 k ++ [46, 109, 100], fb k)] from by
      unfold decodeEntry
      rw [if_pos rfl]]
    show some ([(fmt02 k ++ [46, 109, 100], fb k)] ++ []) = _
    rw [List.append_nil]
  · rw [if_pos ⟨hblen, hb⟩, if_pos ⟨htlen, ht⟩, if_pos hb, if_pos ht]
    rw [List.singleton_append, List.map_cons, List.map_cons, List.map_nil]
    rw [show decodeEntry (fun h2 => decodeTreeF store fuel h2)
        (blobMode, fmt02 k ++ [46, 109, 100], fb k) =
        some [(fmt02 k ++ [46, 109, 100], fb k)] from by
      unfold decodeEntry
      rw [if_pos rfl]]
    rw [show decodeEntry (fun h2 => decodeTreeF store fuel h2) (treeMode, fmt02 k, ft k) =
        (decodeTreeF store fuel (ft k)).map
          (fun ls => ls.map (fun p => (fmt02 k ++ 47 :: p.1, p.2))) from by
      unfold decodeEntry
      rw [if_neg (show ((treeMode, fmt02 k, ft k) : TreeEntry).1 ≠ blobMode from by
        simp [treeMode, blobMode]), if_pos rfl]]
    rw [hsub ht]
    show some ([(fmt02 k ++ [46, 109, 100], fb k)] ++
      ((sub k).map (fun p => (fmt02 k ++ 47 :: p.1, p.2)) ++ [])) = _
    rw [List.append_nil]

/-- Decoding a stored window tree: the leaves are the non-zero blob slots
plus the name-prefixed recursive leaves of the non-zero tree slots. -/
theorem decode_window (store : List StoreEntry) (fuel : Nat) (h : SHA1)
    (fb ft : Nat → SHA1) (sub : Nat → List (List Nat × SHA1))
    (hlk : storeLookup store h = some (1,
      treeBytes ((List.range 100).map fb) ((List.range 100).map ft)))
    (hbl : ∀ k, k < 100 → (fb k).length = 20)
    (htl : ∀ k, k < 100 → (ft k).length = 20)
    (hsub : ∀ k, k < 100 → ft k ≠ emptySHA1 →
      decodeTreeF store fuel (ft k) = some (sub k)) :
    decodeTreeF store (fuel + 1) h = some (windowLeaves fb ft sub) := by
  have hgood : ∀ e ∈ entriesOf ((List.range 100).map fb) ((List.range 100).map ft),
      goodEntry e := by
    apply entriesOf_good
    intro x hx
    rcases List.mem_append.mp hx with hx | hx <;>
      obtain ⟨k, hk, rfl⟩ := List.mem_map.mp hx
    · exact hbl k (List.mem_range.mp hk)
    · exact htl k (List.mem_range.mp hk)
  have hparse : parseTree (treeBytes ((List.range 100).map fb) ((List.range 100).map ft)) =
      some (entriesOf ((List.range 100).map fb) ((List.range 100).map ft)) := by
    rw [treeBytes_eq]
    exact parseTree_serialize _ hgood
  rw [decodeTreeF_step store fuel h _ _ hlk hparse]
  unfold entriesOf windowLeaves
  rw [show max ((List.range 100).map fb).length ((List.range 100).map ft).length = 100 by
    simp]
  exact optFlat_flatten_map (List.range 100) _ _ _
    (fun k hk2 => optFlat_slot store fuel fb ft sub k (List.mem_range.mp hk2)
      (hsub k (List.mem_range.mp hk2)))

/-! ### Level-by-level decode of a state satisfying the content invariant -/

/-- Nodes at index 100 and above have no subtree children in any reachable
state (their children indices start at 10000, beyond `treesCnt ≤ 1000`),
so they decode with any fuel to their non-zero blob slots. -/
theorem decode_node_deep (sha1f : List Nat → SHA1) (s : GitState) (fuel : Nat) (i : Nat)
    (hINV : contentINV sha1f s) (hi : 100 ≤ i)
    (hne : treeView s i ≠ emptySHA1) :
    decodeTreeF s.store (fuel + 1) (treeView s i) =
      some (windowLeaves (fun k => blobView s (i * 100 + k))
        (fun k => treeView s (i * 100 + k)) (fun _ => [])) := by
  obtain ⟨hWF, _, _, hcnt, hbl, htl, _, hTN, _⟩ := hINV
  have hempty : ∀ k, k < 100 → treeView s (i * 100 + k) = emptySHA1 := by
    intro k hk
    refine hcnt _ ?_
    obtain ⟨_, _, _, _, _, ht1000⟩ := hWF
    omega
  exact decode_window s.store fuel _ _ _ _ (hTN i (by omega) hne) (fun k _ => hbl _)
    (fun k _ => htl _) (fun k hk hne2 => absurd (hempty k hk) hne2)

/-- Nodes 1..99 decode to their non-zero blob slots plus the recursively
decoded leaves of their non-zero subtree slots (nodes 100..9999). -/
theorem decode_node_mid (sha1f : List Nat → SHA1) (s : GitState) (fuel : Nat) (i : Nat)
    (hINV : contentINV sha1f s) (hi1 : 1 ≤ i) (hi2 : i < 100)
    (hne : treeView s i ≠ emptySHA1) :
    decodeTreeF s.store (fuel + 2) (treeView s i) =
      some (windowLeaves (fun k => blobView s (i * 100 + k))
        (fun k => treeView s (i * 100 + k))
        (fun k => windowLeaves (fun k2 => blobView s ((i * 100 + k) * 100 + k2))
          (fun k2 => treeView s ((i * 100 + k) * 100 + k2)) (fun _ => []))) := by
  have hINV2 := hINV
  obtain ⟨hWF, _, _, hcnt, hbl, htl, _, hTN, _⟩ := hINV2
  refine decode_window s.store (fuel + 1) _ _ _ _ (hTN i hi1 hne) (fun k _ => hbl _)
    (fun k _ => htl _) ?_
  intro k hk hne2
  exact decode_node_deep sha1f s fuel (i * 100 + k) hINV (by omega) hne2

/-- Node 0 (the depth-0 tree over blobs 0..99) decodes to its non-zero
blob slots. -/
theorem decode_node_zero (sha1f : List Nat → SHA1) (s : GitState) (fuel : Nat)
    (hINV : contentINV sha1f s) (hne : treeView s 0 ≠ emptySHA1) :
    decodeTreeF s.store (fuel + 1) (treeView s 0) =
      some (windowLeaves (fun k => blobView s k) (fun _ => emptySHA1) (fun _ => [])) := by
  have hINV2 := hINV
  obtain ⟨hWF, _, _, hcnt, hbl, htl, hT0, _, _⟩ := hINV2
  have h0 : node0Body s = treeBytes ((List.range 100).map (fun k => blobView s k))
      ((List.range 100).map (fun _ => emptySHA1)) := by
    unfold node0Body
    apply treeBytes_ext
    · intro k; rfl
    · intro k
      rw [getD_map_range]
      split <;> rfl
  refine decode_window s.store fuel _ _ _ _ ?_ (fun k _ => hbl _)
    (fun k _ => by simp [emptySHA1]) (fun k hk hne2 => absurd rfl hne2)
  rw [← h0]
  exact hT0 hne

/-- The decoded leaves below root child `k`: node 0 for `k = 0`, otherwise
node `k` with its recursively decoded children. -/
def rootSub (s : GitState) (k : Nat) : List (List Nat × SHA1) :=
  if k = 0 then
    windowLeaves (fun k2 => blobView s k2) (fun _ => emptySHA1) (fun _ => [])
  else
    windowLeaves (fun k2 => blobView s (k * 100 + k2))
      (fun k2 => treeView s (k * 100 + k2))
      (fun k2 => windowLeaves (fun k3 => blobView s ((k * 100 + k2) * 100 + k3))
        (fun k3 => treeView s ((k * 100 + k2) * 100 + k3)) (fun _ => []))

/-- The full decoded leaf list of the root. -/
def rootLeaves (s : GitState) : List (List Nat × SHA1) :=
  windowLeaves (fun _ => emptySHA1) (fun k => treeView s k) (rootSub s)

/-- Decoding the root object of a state satisfying the content invariant:
fuel 4 suffices, and the result is the three-level nested window
enumeration. -/
theorem decode_root (sha1f : List Nat → SHA1) (s : GitState) (r : SHA1)
    (hINV : contentINV sha1f s)
    (hlk : storeLookup s.store r = some (1, rootBody s)) :
    decodeTreeF s.store 4 r = some (rootLeaves s) := by
  have hINV2 := hINV
  obtain ⟨hWF, _, _, hcnt, hbl, htl, _, _, _⟩ := hINV2
  have hroot : rootBody s = treeBytes ((List.range 100).map (fun _ => emptySHA1))
      ((List.range 100).map (fun k => treeView s k)) := by
    unfold rootBody
    apply treeBytes_ext
    · intro k
      rw [getD_map_range]
      split <;> rfl
    · intro k; rfl
  show decodeTreeF s.store (3 + 1) r = _
  refine decode_window s.store 3 r _ _ _ (by rw [← hroot]; exact hlk)
    (fun k _ => by simp [emptySHA1]) (fun k _ => htl _) ?_
  intro k hk hne2
  unfold rootSub
  by_cases hk0 : k = 0
  · subst hk0
    rw [if_pos rfl]
    show decodeTreeF s.store (2 + 1) (treeView s 0) = _
    exact decode_node_zero sha1f s 2 hINV hne2
  · rw [if_neg hk0]
    show decodeTreeF s.store (1 + 2) (treeView s k) = _
    exact decode_node_mid sha1f s 1 k hINV (by omega) hk hne2

/-! ### Membership characterization of the decoded leaves -/

theorem mem_windowLeaves (fb ft : Nat → SHA1) (sub : Nat → List (List Nat × SHA1))
    (p : List Nat × SHA1) :
    p ∈ windowLeaves fb ft sub ↔
      ∃ k, k < 100 ∧ ((fb k ≠ emptySHA1 ∧ p = (fmt02 k ++ [46, 109, 100], fb k)) ∨
        (ft k ≠ emptySHA1 ∧ ∃ q ∈ sub k, p = (fmt02 k ++ 47 :: q.1, q.2))) := by
  unfold windowLeaves
  rw [List.mem_flatten]
  constructor
  · rintro ⟨l, hl, hpl⟩
    obtain ⟨k, hk, rfl⟩ := List.mem_map.mp hl
    rw [List.mem_range] at hk
    refine ⟨k, hk, ?_⟩
    unfold slotLeaves at hpl
    rcases List.mem_append.mp hpl with hm | hm
    · split at hm
      case isTrue hcond =>
        simp only [List.mem_singleton] at hm
        exact Or.inl ⟨hcond, hm⟩
      case isFalse _ => exact absurd hm (List.not_mem_nil p)
    · split at hm
      case isTrue hcond =>
        obtain ⟨q, hq, rfl⟩ := List.mem_map.mp hm
        exact Or.inr ⟨hcond, q, hq, rfl⟩
      case isFalse _ => exact absurd hm (List.not_mem_nil p)
  · rintro ⟨k, hk, hcase⟩
    refine ⟨slotLeaves fb ft sub k, List.mem_map.mpr ⟨k, List.mem_range.mpr hk, rfl⟩, ?_⟩
    unfold slotLeaves
    rcases hcase with ⟨hne, rfl⟩ | ⟨hne, q, hq, rfl⟩
    · refine List.mem_append.mpr (Or.inl ?_)
      rw [if_pos hne]
      exact List.mem_singleton.mpr rfl
    · refine List.mem_append.mpr (Or.inr ?_)
      rw [if_pos hne]
      exact List.mem_map.mpr ⟨q, hq, rfl⟩

/-! ### Path assembly -/

theorem path_low (id : Nat) (h : id < 100) :
    (fmt02 0 ++ 47 :: (fmt02 id ++ [46, 109, 100])) = idToGitName (id : Int) := by
  rw [idToGitName_low id h, fmt02_pair 0 (by omega), fmt02_pair id h]
  norm_num

theorem path_mid (k k2 : Nat) (hk1 : 1 ≤ k) (hk : k < 100) (hk2 : k2 < 100) :
    (fmt02 k ++ 47 :: (fmt02 k2 ++ [46, 109, 100])) =
      idToGitName ((k * 100 + k2 : Nat) : Int) := by
  rw [idToGitName_mid (k * 100 + k2) (by omega) (by omega), fmt02_pair k hk,
    fmt02_pair k2 hk2]
  have e1 : (k * 100 + k2) / 1000 = k / 10 := by omega
  have e2 : (k * 100 + k2) / 100 % 10 = k % 10 := by omega
  have e3 : (k * 100 + k2) / 10 % 10 = k2 / 10 := by omega
  have e4 : (k * 100 + k2) % 10 = k2 % 10 := by omega
  rw [e1, e2, e3, e4]
  rfl

theorem path_high (k k2 k3 : Nat) (hk1 : 1 ≤ k) (hk : k ≤ 9) (hk2 : k2 < 100)
    (hk3 : k3 < 100) :
    (fmt02 k ++ 47 :: (fmt02 k2 ++ 47 :: (fmt02 k3 ++ [46, 109, 100]))) =
      idToGitName (((k * 100 + k2) * 100 + k3 : Nat) : Int) := by
  rw [idToGitName_high ((k * 100 + k2) * 100 + k3) (by omega) (by omega),
    fmt02_pair k (by omega), fmt02_pair k2 hk2, fmt02_pair k3 hk3]
  have e0 : k / 10 = 0 := by omega
  have e1 : ((k * 100 + k2) * 100 + k3) / 10000 = k % 10 := by omega
  have e2 : ((k * 100 + k2) * 100 + k3) / 1000 % 10 = k2 / 10 := by omega
  have e3 : ((k * 100 + k2) * 100 + k3) / 100 % 10 = k2 % 10 := by omega
  have e4 : ((k * 100 + k2) * 100 + k3) / 10 % 10 = k3 / 10 := by omega
  have e5 : ((k * 100 + k2) * 100 + k3) % 10 = k3 % 10 := by omega
  rw [e0, e1, e2, e3, e4, e5]
  rfl

/-- What the decoded root leaf list contains: exactly the non-zero blob
slots with ids below 100000, each at its `idToGitName` path. -/
theorem mem_rootLeaves (sha1f : List Nat → SHA1) (s : GitState)
    (hINV : contentINV sha1f s) (p : List Nat × SHA1) :
    p ∈ rootLeaves s ↔
      ∃ id, id < 100000 ∧ blobView s id ≠ emptySHA1 ∧
        p = (idToGitName (id : Int), blobView s id) := by
  obtain ⟨⟨_, _, _, _, _, ht1000⟩, _, hBC, hTC, _, _, _, _, hOCC⟩ := hINV
  unfold rootLeaves
  rw [mem_windowLeaves]
  constructor
  · rintro ⟨k, hk, ⟨hne, _⟩ | ⟨hne, q, hq, rfl⟩⟩
    · exact absurd rfl hne
    · unfold rootSub at hq
      by_cases hk0 : k = 0
      · subst hk0
        rw [if_pos rfl, mem_windowLeaves] at hq
        obtain ⟨k2, hk2, ⟨hne2, rfl⟩ | ⟨hne2, _⟩⟩ := hq
        · exact ⟨k2, by omega, hne2, by rw [← path_low k2 hk2]⟩
        · exact absurd rfl hne2
      · rw [if_neg hk0, mem_windowLeaves] at hq
        obtain ⟨k2, hk2, ⟨hne2, rfl⟩ | ⟨hne2, q2, hq2, rfl⟩⟩ := hq
        · exact ⟨k * 100 + k2, by omega, hne2,
            by rw [← path_mid k k2 (by omega) hk hk2]⟩
        · rw [mem_windowLeaves] at hq2
          obtain ⟨k3, hk3, ⟨hne3, rfl⟩ | ⟨_, q3, hq3, _⟩⟩ := hq2
          · have hck : k * 100 + k2 < 1000 := by
              by_contra hc
              exact hne2 (hTC _ (by omega))
            refine ⟨(k * 100 + k2) * 100 + k3, by omega, hne3, ?_⟩
            rw [← path_high k k2 k3 (by omega) (by omega) hk2 hk3]
          · exact absurd hq3 (List.not_mem_nil q3)
  · rintro ⟨id, hid, hne, rfl⟩
    obtain ⟨hocc0, hocc1, hocc2⟩ := hOCC id hne
    by_cases h100 : id < 100
    · refine ⟨0, by omega, Or.inr ⟨hocc0 h100, (fmt02 id ++ [46, 109, 100], blobView s id),
        ?_, ?_⟩⟩
      · unfold rootSub
        rw [if_pos rfl, mem_windowLeaves]
        exact ⟨id, h100, Or.inl ⟨hne, rfl⟩⟩
      · rw [← path_low id h100]
    · by_cases h10000 : id < 10000
      · refine ⟨id / 100, by omega, Or.inr ⟨hocc1 (by omega),
          (fmt02 (id % 100) ++ [46, 109, 100], blobView s id), ?_, ?_⟩⟩
        · unfold rootSub
          rw [if_neg (by omega), mem_windowLeaves]
          refine ⟨id % 100, by omega, Or.inl ⟨?_, ?_⟩⟩
          · rw [show id / 100 * 100 + id % 100 = id from by omega]
            exact hne
          · rw [show id / 100 * 100 + id % 100 = id from by omega]
        · have hp := path_mid (id / 100) (id % 100) (by omega) (by omega) (by omega)
          rw [show id / 100 * 100 + id % 100 = id from by omega] at hp
          rw [← hp]
      · refine ⟨id / 10000, by omega, Or.inr ⟨hocc2 (by omega),
          (fmt02 (id / 100 % 100) ++ 47 :: (fmt02 (id % 100) ++ [46, 109, 100]),
            blobView s id), ?_, ?_⟩⟩
        · unfold rootSub
          rw [if_neg (by omega), mem_windowLeaves]
          refine ⟨id / 100 % 100, by omega, Or.inr ⟨?_,
            (fmt02 (id % 100) ++ [46, 109, 100], blobView s id), ?_, rfl⟩⟩
          · rw [show id / 10000 * 100 + id / 100 % 100 = id / 100 from by omega]
            exact hocc1 (by omega)
          · rw [mem_windowLeaves]
            refine ⟨id % 100, by omega, Or.inl ⟨?_, ?_⟩⟩
            · rw [show (id / 10000 * 100 + id / 100 % 100) * 100 + id % 100 = id from by
                omega]
              exact hne
            · rw [show (id / 10000 * 100 + id / 100 % 100) * 100 + id % 100 = id from by
                omega]
        · have hp := path_high (id / 10000) (id / 100 % 100) (id % 100) (by omega)
            (by omega) (by omega) (by omega)
          rw [show (id / 10000 * 100 + id / 100 % 100) * 100 + id % 100 = id from by
            omega] at hp
          rw [← hp]

/-! ### Content of the node rebuilds -/

theorem slice_window (a : List (List SHA1)) (l : List SHA1) (base n : Nat)
    (hlen : l.length = n) (hcontent : ∀ m, m < n → l[m]? = chunkGet a (base + m))
    (hn : n ≤ 100)
    (hbeyond : ∀ k, n ≤ k → k < 100 → (chunkGet a (base + k)).getD emptySHA1 = emptySHA1) :
    ∀ k, l.getD k emptySHA1 =
      ((List.range 100).map (fun k2 => (chunkGet a (base + k2)).getD emptySHA1)).getD k
        emptySHA1 := by
  intro k
  rw [getD_map_range]
  by_cases hk : k < n
  · rw [List.getD_eq_getElem?_getD, hcontent k hk]
    rw [if_pos (by omega)]
  · rw [List.getD_eq_default _ _ (by omega)]
    by_cases hk2 : k < 100
    · rw [if_pos hk2, hbeyond k (by omega) hk2]
    · rw [if_neg hk2]

theorem nil_window (a : List (List SHA1)) (base : Nat)
    (hempty : ∀ k, k < 100 → (chunkGet a (base + k)).getD emptySHA1 = emptySHA1) :
    ∀ k, ([] : List SHA1).getD k emptySHA1 =
      ((List.range 100).map (fun k2 => (chunkGet a (base + k2)).getD emptySHA1)).getD k
        emptySHA1 := by
  intro k
  rw [getD_map_range]
  by_cases hk : k < 100
  · rw [if_pos hk, hempty k hk]
    rfl
  · rw [if_neg hk]
    rfl

/-- A successful node rebuild by `writeTreesN` stores exactly the canonical
node payload under the returned hash and touches nothing but the store. -/
theorem writeTreesN_content (sha1f : List Nat → SHA1) (hinj : Function.Injective sha1f)
    (num : Nat) (s : GitState)
    (hnum1 : 1 ≤ num) (hnum2 : num ≤ 999)
    (hbch : ∀ ch ∈ s.blobs, ch.length = gitChunkSize)
    (htch : ∀ ch ∈ s.trees, ch.length = gitChunkSize)
    (hbcnt : s.blobsCnt ≤ s.blobs.length * gitChunkSize)
    (htcnt : s.treesCnt ≤ s.trees.length * gitChunkSize)
    (ht1000 : s.treesCnt ≤ 1000)
    (hBC : ∀ id, s.blobsCnt ≤ id → blobView s id = emptySHA1)
    (hTC : ∀ i, s.treesCnt ≤ i → treeView s i = emptySHA1)
    (hOK : storeOK sha1f s.store) :
    ∃ hh s2, writeTreesN sha1f num s = some (hh, s2) ∧
      (∃ bb, hh = sha1f bb) ∧
      s2.blobsCnt = s.blobsCnt ∧ s2.treesCnt = s.treesCnt ∧
      s2.blobs = s.blobs ∧ s2.trees = s.trees ∧
      s2.indexBuf = s.indexBuf ∧ s2.author = s.author ∧
      storeOK sha1f s2.store ∧
      (∀ h2 v, storeLookup s.store h2 = some v → storeLookup s2.store h2 = some v) ∧
      storeLookup s2.store hh = some (1, nodeBody s num) := by
  obtain ⟨bsl, hSB, hbw⟩ : ∃ bsl,
      (if num * 100 < s.blobsCnt then
        sliceChunk s.blobs (num * 100 / gitChunkSize) (num * 100 % gitChunkSize)
          (if min ((num + 1) * 100) s.blobsCnt % gitChunkSize = 0 then gitChunkSize
            else min ((num + 1) * 100) s.blobsCnt % gitChunkSize)
      else some []) = some bsl ∧
      ∀ k, bsl.getD k emptySHA1 =
        ((List.range 100).map (fun k2 => blobView s (num * 100 + k2))).getD k emptySHA1 := by
    by_cases hc : num * 100 < s.blobsCnt
    · have hk : num * 100 / gitChunkSize < s.blobs.length := by
        simp only [gitChunkSize] at *
        omega
      have hij : num * 100 % gitChunkSize ≤
          (if min ((num + 1) * 100) s.blobsCnt % gitChunkSize = 0 then gitChunkSize
            else min ((num + 1) * 100) s.blobsCnt % gitChunkSize) := by
        simp only [gitChunkSize] at *
        split <;> omega
      have hj : (if min ((num + 1) * 100) s.blobsCnt % gitChunkSize = 0 then gitChunkSize
          else min ((num + 1) * 100) s.blobsCnt % gitChunkSize) ≤ gitChunkSize := by
        simp only [gitChunkSize] at *
        split <;> omega
      obtain ⟨l, hl, hllen, hlcontent, _⟩ := sliceChunk_spec s.blobs
        (num * 100 / gitChunkSize) (num * 100 % gitChunkSize) _ hbch hk hij hj
      refine ⟨l, by rw [if_pos hc]; exact hl, ?_⟩
      have hbase : num * 100 / gitChunkSize * gitChunkSize + num * 100 % gitChunkSize =
          num * 100 := by
        simp only [gitChunkSize]
        omega
      have hlen2 : l.length = min ((num + 1) * 100) s.blobsCnt - num * 100 := by
        rw [hllen]
        simp only [gitChunkSize] at *
        split <;> omega
      have hcontent2 : ∀ m, m < min ((num + 1) * 100) s.blobsCnt - num * 100 →
          l[m]? = chunkGet s.blobs (num * 100 + m) := by
        intro m hm
        rw [hlcontent m (by omega), hbase]
      refine slice_window s.blobs l (num * 100) _ hlen2 hcontent2
        (by simp only [gitChunkSize] at *; omega) ?_
      intro k hk2 hk100
      by_cases hbc : s.blobsCnt ≤ num * 100 + k
      · exact hBC _ hbc
      · exact absurd hk2 (by omega)
    · refine ⟨[], by rw [if_neg hc], ?_⟩
      refine nil_window s.blobs (num * 100) ?_
      intro k _
      exact hBC _ (by omega)
  obtain ⟨tsl, hST, htw⟩ : ∃ tsl,
      (if num * 100 < s.treesCnt then
        sliceChunk s.trees (num * 100 / gitChunkSize) (num * 100 % gitChunkSize)
          (if min ((num + 1) * 100) s.treesCnt = 0 then gitChunkSize
            else min ((num + 1) * 100) s.treesCnt)
      else some []) = some tsl ∧
      ∀ k, tsl.getD k emptySHA1 =
        ((List.range 100).map (fun k2 => treeView s (num * 100 + k2))).getD k emptySHA1 := by
    by_cases hc : num * 100 < s.treesCnt
    · have hnum9 : num ≤ 9 := by omega
      have hk : num * 100 / gitChunkSize < s.trees.length := by
        simp only [gitChunkSize] at *
        omega
      have hij : num * 100 % gitChunkSize ≤
          (if min ((num + 1) * 100) s.treesCnt = 0 then gitChunkSize
            else min ((num + 1) * 100) s.treesCnt) := by
        simp only [gitChunkSize] at *
        split <;> omega
      have hj : (if min ((num + 1) * 100) s.treesCnt = 0 then gitChunkSize
          else min ((num + 1) * 100) s.treesCnt) ≤ gitChunkSize := by
        simp only [gitChunkSize] at *
        split <;> omega
      obtain ⟨l, hl, hllen, hlcontent, _⟩ := sliceChunk_spec s.trees
        (num * 100 / gitChunkSize) (num * 100 % gitChunkSize) _ htch hk hij hj
      refine ⟨l, by rw [if_pos hc]; exact hl, ?_⟩
      have hbase : num * 100 / gitChunkSize * gitChunkSize + num * 100 % gitChunkSize =
          num * 100 := by
        simp only [gitChunkSize]
        omega
      have hlen2 : l.length = min ((num + 1) * 100) s.treesCnt - num * 100 := by
        rw [hllen]
        simp only [gitChunkSize] at *
        split <;> omega
      have hcontent2 : ∀ m, m < min ((num + 1) * 100) s.treesCnt - num * 100 →
          l[m]? = chunkGet s.trees (num * 100 + m) := by
        intro m hm
        rw [hlcontent m (by omega), hbase]
      refine slice_window s.trees l (num * 100) _ hlen2 hcontent2
        (by simp only [gitChunkSize] at *; omega) ?_
      intro k hk2 hk100
      by_cases htc : s.treesCnt ≤ num * 100 + k
      · exact hTC _ htc
      · exact absurd hk2 (by omega)
    · refine ⟨[], by rw [if_neg hc], ?_⟩
      refine nil_window s.trees (num * 100) ?_
      intro k _
      exact hTC _ (by omega)
  have hpay : treeBytes bsl tsl = nodeBody s num := by
    unfold nodeBody
    exact treeBytes_ext _ _ _ _ hbw htw
  obtain ⟨tn, s2, htn, hrun, hOK2, hlk, hmono, hbc2, htc2, hblobs2, htrees2, hib2, hau2⟩ :=
    hashObject_spec sha1f hinj 1 (treeBytes bsl tsl) s (by omega) hOK
  refine ⟨objHash sha1f tn (treeBytes bsl tsl), s2, ?_, ⟨_, rfl⟩, hbc2, htc2, hblobs2,
    htrees2, hib2, hau2, hOK2, hmono, by rw [hlk, hpay]⟩
  unfold writeTreesN
  rw [hSB, hST]
  exact hrun

/-- A successful depth-0 rebuild by `writeTrees0`: the node-0 payload and
the new root payload are stored, `trees[0]` is updated to the node-0 hash,
and everything else is preserved. -/
theorem writeTrees0_content (sha1f : List Nat → SHA1) (hinj : Function.Injective sha1f)
    (s : GitState)
    (hbch : ∀ ch ∈ s.blobs, ch.length = gitChunkSize)
    (htch : ∀ ch ∈ s.trees, ch.length = gitChunkSize)
    (hbcnt : s.blobsCnt ≤ s.blobs.length * gitChunkSize)
    (htcnt : s.treesCnt ≤ s.trees.length * gitChunkSize)
    (htc1 : 1 ≤ s.treesCnt) (ht1000 : s.treesCnt ≤ 1000)
    (hblen0 : 0 < s.blobs.length) (htlen0 : 0 < s.trees.length)
    (hBC : ∀ id, s.blobsCnt ≤ id → blobView s id = emptySHA1)
    (hTC : ∀ i, s.treesCnt ≤ i → treeView s i = emptySHA1)
    (hOK : storeOK sha1f s.store) :
    ∃ r s3, writeTrees0 sha1f s = some (r, s3) ∧
      s3.blobsCnt = s.blobsCnt ∧ s3.treesCnt = s.treesCnt ∧ s3.blobs = s.blobs ∧
      s3.trees.length = s.trees.length ∧ (∀ ch ∈ s3.trees, ch.length = gitChunkSize) ∧
      s3.indexBuf = s.indexBuf ∧ s3.author = s.author ∧
      storeOK sha1f s3.store ∧
      (∀ h2 v, storeLookup s.store h2 = some v → storeLookup s3.store h2 = some v) ∧
      (∃ bb, treeView s3 0 = sha1f bb) ∧
      storeLookup s3.store (treeView s3 0) = some (1, node0Body s) ∧
      (∀ i, i ≠ 0 → treeView s3 i = treeView s i) ∧
      storeLookup s3.store r = some (1, rootBody s3) := by
  obtain ⟨bl, hbl, hbllen, hblcontent, _⟩ := sliceChunk_spec s.blobs 0 0
    (min s.blobsCnt 100) hbch hblen0 (by omega) (by simp only [gitChunkSize]; omega)
  have hbw : ∀ k, bl.getD k emptySHA1 =
      ((List.range 100).map (fun k2 => blobView s k2)).getD k emptySHA1 := by
    have hcontent2 : ∀ m, m < min s.blobsCnt 100 → bl[m]? = chunkGet s.blobs (0 + m) := by
      intro m hm
      rw [hblcontent m (by omega)]
      norm_num
    have h0 := slice_window s.blobs bl 0 (min s.blobsCnt 100) (by omega) hcontent2
      (by omega) (fun k hk2 hk100 => by rw [Nat.zero_add]; exact hBC _ (by omega))
    intro k
    rw [h0 k]
    simp only [Nat.zero_add]
    rfl
  have hpay0 : treeBytes bl [] = node0Body s := by
    unfold node0Body
    exact treeBytes_ext _ _ _ _ hbw (fun k => rfl)
  obtain ⟨tn, sB, htn, hrunB, hOKB, hlkB, hmonoB, hbcB, htcB, hblobsB, htreesB, hibB,
    hauB⟩ := hashObject_spec sha1f hinj 1 (treeBytes bl []) s (by omega) hOK
  obtain ⟨ts0, hset0, hts0len, hts0ch, hget0, hget0ne, _⟩ := chunkSet_spec sB.trees 0
    (objHash sha1f tn (treeBytes bl []))
    (by rw [htreesB]; exact htch)
    (by rw [htreesB]; simp only [gitChunkSize] at *; omega)
  have htv0 : ∀ i, i ≠ 0 → (chunkGet ts0 i).getD emptySHA1 = treeView s i := by
    intro i hi
    rw [hget0ne i hi, htreesB]
    rfl
  have htv00 : (chunkGet ts0 0).getD emptySHA1 = objHash sha1f tn (treeBytes bl []) := by
    rw [hget0]
    rfl
  obtain ⟨rt, hrt, hrtlen, hrtcontent, _⟩ := sliceChunk_spec ts0 0 0
    (min ({ sB with trees := ts0 } : GitState).treesCnt 100) hts0ch
    (by rw [hts0len, htreesB]; exact htlen0) (by omega)
    (by show min sB.treesCnt 100 ≤ gitChunkSize
        simp only [gitChunkSize]
        omega)
  have hrw : ∀ k, rt.getD k emptySHA1 =
      ((List.range 100).map (fun k2 => (chunkGet ts0 k2).getD emptySHA1)).getD k
        emptySHA1 := by
    have hcontent2 : ∀ m, m < min ({ sB with trees := ts0 } : GitState).treesCnt 100 →
        rt[m]? = chunkGet ts0 (0 + m) := by
      intro m hm
      rw [hrtcontent m (by omega)]
      norm_num
    have h0 := slice_window ts0 rt 0 (min ({ sB with trees := ts0 } : GitState).treesCnt 100)
      (by omega) hcontent2 (by omega) ?_
    · intro k
      rw [h0 k]
      simp only [Nat.zero_add]
    · intro k hk2 hk100
      rw [Nat.zero_add, htv0 k ?_]
      · refine hTC k ?_
        revert hk2
        show min sB.treesCnt 100 ≤ k → _
        rw [htcB]
        omega
      · revert hk2
        show min sB.treesCnt 100 ≤ k → _
        rw [htcB]
        omega
  obtain ⟨tn2, s3, htn2, hrun3, hOK3, hlk3, hmono3, hbc3, htc3, hblobs3, htrees3, hib3,
    hau3⟩ := hashObject_spec sha1f hinj 1 (treeBytes [] rt)
      ({ sB with trees := ts0 } : GitState) (by omega) hOKB
  have htrees3l : s3.trees = ts0 := htrees3
  have hroot : treeBytes [] rt = rootBody s3 := by
    unfold rootBody
    refine treeBytes_ext _ _ _ _ (fun k => rfl) ?_
    intro k
    rw [hrw k]
    congr 1
    apply List.map_congr_left
    intro k2 _
    show (chunkGet ts0 k2).getD emptySHA1 = treeView s3 k2
    rw [show treeView s3 k2 = (chunkGet s3.trees k2).getD emptySHA1 from rfl, htrees3l]
  refine ⟨objHash sha1f tn2 (treeBytes [] rt), s3, ?_, ?_, ?_, ?_, ?_, ?_, ?_, ?_, hOK3,
    ?_, ?_, ?_, ?_, by rw [hlk3, hroot]⟩
  · unfold writeTrees0
    rw [hbl]
    show (match writeTree sha1f bl [] s with
      | none => none
      | some (h2, sB2) =>
        match chunkSet sB2.trees 0 h2 with
        | none => none
        | some ts2 =>
          match sliceChunk ({ sB2 with trees := ts2 } : GitState).trees 0 0
            (min ({ sB2 with trees := ts2 } : GitState).treesCnt 100) with
          | none => none
          | some t2 => writeTree sha1f [] t2 { sB2 with trees := ts2 }) = _
    have hrunB2 : writeTree sha1f bl [] s =
        some (objHash sha1f tn (treeBytes bl []), sB) := hrunB
    rw [hrunB2]
    show (match chunkSet sB.trees 0 (objHash sha1f tn (treeBytes bl [])) with
      | none => none
      | some ts2 =>
        match sliceChunk ({ sB with trees := ts2 } : GitState).trees 0 0
          (min ({ sB with trees := ts2 } : GitState).treesCnt 100) with
        | none => none
        | some t2 => writeTree sha1f [] t2 { sB with trees := ts2 }) = _
    rw [hset0]
    show (match sliceChunk ts0 0 0 (min ({ sB with trees := ts0 } : GitState).treesCnt 100)
        with
      | none => none
      | some t2 => writeTree sha1f [] t2 { sB with trees := ts0 }) = _
    rw [hrt]
    exact hrun3
  · rw [hbc3]
    show sB.blobsCnt = _
    rw [hbcB]
  · rw [htc3]
    show sB.treesCnt = _
    rw [htcB]
  · rw [hblobs3]
    show sB.blobs = _
    rw [hblobsB]
  · rw [htrees3l, hts0len, htreesB]
  · rw [htrees3l]
    exact hts0ch
  · rw [hib3]
    show sB.indexBuf = _
    rw [hibB]
  · rw [hau3]
    show sB.author = _
    rw [hauB]
  · intro h2 v hv
    exact hmono3 h2 v (hmonoB h2 v hv)
  · refine ⟨tn ++ [32] ++ decimal (treeBytes bl []).length ++ [0] ++ treeBytes bl [], ?_⟩
    show (chunkGet s3.trees 0).getD emptySHA1 = _
    rw [htrees3l, htv00]
    rfl
  · show storeLookup s3.store ((chunkGet s3.trees 0).getD emptySHA1) = _
    rw [htrees3l, htv00, ← hpay0]
    exact hmono3 _ _ hlkB
  · intro i hi
    show (chunkGet s3.trees i).getD emptySHA1 = _
    rw [htrees3l]
    exact htv0 i hi

/-- The final root rebuild over `trees[0][0 : min treesCnt 100]`: it stores
the canonical root payload of the resulting state under the returned hash
and touches only the store. -/
theorem root_tail_content (sha1f : List Nat → SHA1) (hinj : Function.Injective sha1f)
    (sR : GitState)
    (htch : ∀ ch ∈ sR.trees, ch.length = gitChunkSize)
    (htlen0 : 0 < sR.trees.length)
    (htc1000 : sR.treesCnt ≤ 1000)
    (hTCR : ∀ i, sR.treesCnt ≤ i → treeView sR i = emptySHA1)
    (hOKR : storeOK sha1f sR.store) :
    ∃ r s3, (match sliceChunk sR.trees 0 0 (min sR.treesCnt 100) with
        | none => none
        | some t => writeTree sha1f [] t sR) = some (r, s3) ∧
      s3.blobsCnt = sR.blobsCnt ∧ s3.treesCnt = sR.treesCnt ∧ s3.blobs = sR.blobs ∧
      s3.trees = sR.trees ∧ s3.indexBuf = sR.indexBuf ∧ s3.author = sR.author ∧
      storeOK sha1f s3.store ∧
      (∀ h2 v, storeLookup sR.store h2 = some v → storeLookup s3.store h2 = some v) ∧
      storeLookup s3.store r = some (1, rootBody s3) := by
  obtain ⟨t, hslt, htlen, htcontent, _⟩ := sliceChunk_spec sR.trees 0 0
    (min sR.treesCnt 100) htch htlen0 (by omega)
    (by simp only [gitChunkSize]; omega)
  have htw : ∀ k, t.getD k emptySHA1 =
      ((List.range 100).map (fun k2 => treeView sR k2)).getD k emptySHA1 := by
    have hcontent2 : ∀ m, m < min sR.treesCnt 100 → t[m]? = chunkGet sR.trees (0 + m) := by
      intro m hm
      rw [htcontent m (by omega)]
      norm_num
    have h0 := slice_window sR.trees t 0 (min sR.treesCnt 100) (by omega) hcontent2
      (by omega) (fun k hk2 hk100 => by rw [Nat.zero_add]; exact hTCR _ (by omega))
    intro k
    rw [h0 k]
    simp only [Nat.zero_add]
    rfl
  obtain ⟨tn2, s3, htn2, hrun3, hOK3, hlk3, hmono3, hbc3, htc3, hblobs3, htrees3, hib3,
    hau3⟩ := hashObject_spec sha1f hinj 1 (treeBytes [] t) sR (by omega) hOKR
  have hroot : treeBytes [] t = rootBody s3 := by
    unfold rootBody
    refine treeBytes_ext _ _ _ _ (fun k => rfl) ?_
    intro k
    rw [htw k]
    congr 1
    apply List.map_congr_left
    intro k2 _
    show treeView sR k2 = treeView s3 k2
    rw [show treeView s3 k2 = (chunkGet s3.trees k2).getD emptySHA1 from rfl, htrees3]
    rfl
  refine ⟨objHash sha1f tn2 (treeBytes [] t), s3, ?_, hbc3, htc3, hblobs3, htrees3, hib3,
    hau3, hOK3, hmono3, by rw [hlk3, hroot]⟩
  rw [hslt]
  exact hrun3

/-- One insertion under the content invariant: it succeeds, preserves the
invariant, updates exactly one blob slot, and the returned root hash is
stored with the canonical root payload of the resulting state. -/
theorem addWriteTree_content (sha1f : List Nat → SHA1)
    (hinj : Function.Injective sha1f) (hlen : ∀ b, (sha1f b).length = 20)
    (hnz : ∀ b, sha1f b ≠ emptySHA1)
    (id : Nat) (h : SHA1) (s : GitState)
    (hINV : contentINV sha1f s) (hid : id < 100000)
    (hh20 : h.length = 20) (hhnz : h ≠ emptySHA1) :
    ∃ r s3, addWriteTree sha1f id h s = some (r, s3) ∧
      contentINV sha1f s3 ∧
      (∀ j, blobView s3 j = if j = id then h else blobView s j) ∧
      storeLookup s3.store r = some (1, rootBody s3) := by
  obtain ⟨⟨hbch, htch, hbcnt, htcnt, hb100k, ht1000⟩, hOK, hBC, hTC, hBL, hTL, hT0, hTN,
    hOCC⟩ := hINV
  have hgb := grow_big s.blobs id
  have hgt := grow_big s.trees (id / 100)
  have hgbch := grow_chunks s.blobs id hbch
  have hgtch := grow_chunks s.trees (id / 100) htch
  obtain ⟨blobs2, hset, hb2len, hb2ch, hb2get, hb2ne, _⟩ :=
    chunkSet_spec (grow s.blobs id) id h hgbch hgb
  have hbvA : ∀ j, blobView (addState s id blobs2) j =
      if j = id then h else blobView s j := by
    intro j
    show (chunkGet blobs2 j).getD emptySHA1 = _
    by_cases hj : j = id
    · subst hj
      rw [hb2get, if_pos rfl]
      rfl
    · rw [hb2ne j hj, if_neg hj]
      exact chunkGetD_grow s.blobs id j
  have htvA : ∀ i, treeView (addState s id blobs2) i = treeView s i := fun i =>
    chunkGetD_grow s.trees (id / 100) i
  have hbcA : (addState s id blobs2).blobsCnt = max s.blobsCnt (id + 1) := rfl
  have htcA : (addState s id blobs2).treesCnt = max s.treesCnt (id / 100 + 1) := rfl
  have hb2len2 : s.blobsCnt ≤ blobs2.length * gitChunkSize := by
    rw [hb2len]
    calc s.blobsCnt ≤ s.blobs.length * gitChunkSize := hbcnt
    _ ≤ (grow s.blobs id).length * gitChunkSize :=
        Nat.mul_le_mul_right _ (grow_length_ge s.blobs id)
  have ht2len2 : s.treesCnt ≤ (grow s.trees (id / 100)).length * gitChunkSize :=
    calc s.treesCnt ≤ s.trees.length * gitChunkSize := htcnt
    _ ≤ (grow s.trees (id / 100)).length * gitChunkSize :=
        Nat.mul_le_mul_right _ (grow_length_ge s.trees (id / 100))
  have hs1b : (addState s id blobs2).blobsCnt ≤
      (addState s id blobs2).blobs.length * gitChunkSize := by
    show max s.blobsCnt (id + 1) ≤ blobs2.length * gitChunkSize
    rw [hb2len]
    simp only [gitChunkSize] at *
    omega
  have hs1t : (addState s id blobs2).treesCnt ≤
      (addState s id blobs2).trees.length * gitChunkSize := by
    show max s.treesCnt (id / 100 + 1) ≤ (grow s.trees (id / 100)).length * gitChunkSize
    simp only [gitChunkSize] at *
    omega
  have hs1t1000 : (addState s id blobs2).treesCnt ≤ 1000 := by
    show max s.treesCnt (id / 100 + 1) ≤ 1000
    omega
  have hBCA : ∀ j, (addState s id blobs2).blobsCnt ≤ j →
      blobView (addState s id blobs2) j = emptySHA1 := by
    intro j hj
    rw [hbcA] at hj
    rw [hbvA j, if_neg (by omega)]
    exact hBC j (by omega)
  have hTCA : ∀ i, (addState s id blobs2).treesCnt ≤ i →
      treeView (addState s id blobs2) i = emptySHA1 := by
    intro i hi
    rw [htcA] at hi
    rw [htvA i]
    exact hTC i (by omega)
  have hOKA : storeOK sha1f (addState s id blobs2).store := hOK
  have hred : addWriteTree sha1f id h s =
      (if id < 100 then writeTrees0 sha1f (addState s id blobs2)
       else
        match loopAncF sha1f (id / 100 + 1) (id / 100) (addState s id blobs2) with
        | none => none
        | some s2 =>
          match sliceChunk s2.trees 0 0 (min s2.treesCnt 100) with
          | none => none
          | some t => writeTree sha1f [] t s2) := by
    unfold addWriteTree
    rw [hset]
  by_cases hlt : id < 100
  · -- depth-0 rebuild
    obtain ⟨r, s3, hrun0, hbc3, htc3, hblobs3, htlen3, htch3, hib3, hau3, hOK3, hmono3,
      hbbex, hlk0, htvne, hlkroot⟩ :=
      writeTrees0_content sha1f hinj (addState s id blobs2)
        (by show ∀ ch ∈ blobs2, _; exact hb2ch)
        (by show ∀ ch ∈ grow s.trees (id / 100), _; exact hgtch)
        hs1b hs1t
        (by show 1 ≤ max s.treesCnt (id / 100 + 1); omega)
        hs1t1000
        (by show 0 < blobs2.length
            rw [hb2len]
            simp only [gitChunkSize] at hgb
            omega)
        (by show 0 < (grow s.trees (id / 100)).length
            simp only [gitChunkSize] at hgt
            omega)
        hBCA hTCA hOKA
    obtain ⟨bb0, hbb0⟩ := hbbex
    have hbv3 : ∀ j, blobView s3 j = if j = id then h else blobView s j := by
      intro j
      show (chunkGet s3.blobs j).getD emptySHA1 = _
      rw [hblobs3]
      exact hbvA j
    have htv3 : ∀ i, i ≠ 0 → treeView s3 i = treeView s i := by
      intro i hi
      rw [htvne i hi]
      exact htvA i
    have htv0nz : treeView s3 0 ≠ emptySHA1 := by
      rw [hbb0]
      exact hnz bb0
    have hbc3c : s3.blobsCnt = max s.blobsCnt (id + 1) := by rw [hbc3, hbcA]
    have htc3c : s3.treesCnt = max s.treesCnt (id / 100 + 1) := by rw [htc3, htcA]
    have hnode0 : node0Body s3 = node0Body (addState s id blobs2) := by
      unfold node0Body
      refine treeBytes_ext _ _ _ _ ?_ (fun k => rfl)
      intro k
      rw [getD_map_range, getD_map_range]
      by_cases hk : k < 100
      · rw [if_pos hk, if_pos hk]
        show blobView s3 k = _
        rw [hbv3 k, hbvA k]
      · rw [if_neg hk, if_neg hk]
    have hnodeB : ∀ i, 1 ≤ i → nodeBody s3 i = nodeBody s i := by
      intro i hi
      unfold nodeBody
      refine treeBytes_ext _ _ _ _ ?_ ?_
      · intro k
        rw [getD_map_range, getD_map_range]
        by_cases hk : k < 100
        · rw [if_pos hk, if_pos hk, hbv3, if_neg (by omega)]
        · rw [if_neg hk, if_neg hk]
      · intro k
        rw [getD_map_range, getD_map_range]
        by_cases hk : k < 100
        · rw [if_pos hk, if_pos hk, htv3 _ (by omega)]
        · rw [if_neg hk, if_neg hk]
    refine ⟨r, s3, by rw [hred, if_pos hlt]; exact hrun0,
      ⟨?_, hOK3, ?_, ?_, ?_, ?_, ?_, ?_, ?_⟩, hbv3, hlkroot⟩
    · refine ⟨?_, htch3, ?_, ?_, ?_, ?_⟩
      · rw [hblobs3]
        show ∀ ch ∈ blobs2, _
        exact hb2ch
      · rw [hbc3, hblobs3]
        exact hs1b
      · rw [htc3, htlen3]
        exact hs1t
      · rw [hbc3c]
        omega
      · rw [htc3c]
        omega
    · intro j hj
      rw [hbc3c] at hj
      rw [hbv3 j, if_neg (by omega)]
      exact hBC j (by omega)
    · intro i hi
      rw [htc3c] at hi
      rw [htv3 i (by omega)]
      exact hTC i (by omega)
    · intro j
      rw [hbv3 j]
      by_cases hj : j = id
      · rw [if_pos hj]
        exact hh20
      · rw [if_neg hj]
        exact hBL j
    · intro i
      by_cases hi : i = 0
      · subst hi
        rw [hbb0]
        exact hlen bb0
      · rw [htv3 i hi]
        exact hTL i
    · intro _
      rw [hnode0]
      exact hlk0
    · intro i hi1 hine
      rw [htv3 i (by omega)] at hine ⊢
      rw [hnodeB i hi1]
      exact hmono3 _ _ (hTN i hi1 hine)
    · intro id2 hne2
      rw [hbv3 id2] at hne2
      by_cases hj : id2 = id
      · subst hj
        exact ⟨fun _ => htv0nz, fun h100 => absurd h100 (by omega),
          fun h10000 => absurd h10000 (by omega)⟩
      · rw [if_neg hj] at hne2
        obtain ⟨ho0, ho1, ho2⟩ := hOCC id2 hne2
        refine ⟨fun _ => htv0nz, ?_, ?_⟩
        · intro h100
          rw [htv3 _ (by omega)]
          exact ho1 h100
        · intro h10000
          rw [htv3 _ (by omega)]
          exact ho2 h10000
  · -- ancestor loop: first rebuild node id / 100
    obtain ⟨hh1, sW1, hw1, hbb1ex, hbcW1, htcW1, hblobsW1, htreesW1, hibW1, hauW1,
      hOKW1, hmonoW1, hlkN1⟩ :=
      writeTreesN_content sha1f hinj (id / 100) (addState s id blobs2)
        (by omega) (by omega)
        (by show ∀ ch ∈ blobs2, _; exact hb2ch)
        (by show ∀ ch ∈ grow s.trees (id / 100), _; exact hgtch)
        hs1b hs1t hs1t1000 hBCA hTCA hOKA
    obtain ⟨bb1, hbb1⟩ := hbb1ex
    obtain ⟨ts1, hset1, hts1len, hts1ch, hget1, hget1ne, _⟩ :=
      chunkSet_spec sW1.trees (id / 100) hh1
        (by rw [htreesW1]; show ∀ ch ∈ grow s.trees (id / 100), _; exact hgtch)
        (by rw [htreesW1]
            show id / 100 < (grow s.trees (id / 100)).length * gitChunkSize
            exact hgt)
    have hbv1 : ∀ j, blobView ({ sW1 with trees := ts1 } : GitState) j =
        blobView (addState s id blobs2) j := by
      intro j
      show (chunkGet sW1.blobs j).getD emptySHA1 = _
      rw [hblobsW1]
      rfl
    have htv1 : ∀ i, i ≠ id / 100 →
        treeView ({ sW1 with trees := ts1 } : GitState) i =
        treeView (addState s id blobs2) i := by
      intro i hi
      show (chunkGet ts1 i).getD emptySHA1 = _
      rw [hget1ne i hi, htreesW1]
      rfl
    have htv1at : treeView ({ sW1 with trees := ts1 } : GitState) (id / 100) = hh1 := by
      show (chunkGet ts1 (id / 100)).getD emptySHA1 = hh1
      rw [hget1]
      rfl
    have hbc1c : ({ sW1 with trees := ts1 } : GitState).blobsCnt =
        max s.blobsCnt (id + 1) := by
      show sW1.blobsCnt = _
      rw [hbcW1, hbcA]
    have htc1c : ({ sW1 with trees := ts1 } : GitState).treesCnt =
        max s.treesCnt (id / 100 + 1) := by
      show sW1.treesCnt = _
      rw [htcW1, htcA]
    have hloop1 : loopAncF sha1f (id / 100 + 1) (id / 100) (addState s id blobs2) =
        loopAncF sha1f (id / 100) (id / 100 / 100)
          ({ sW1 with trees := ts1 } : GitState) := by
      rw [loopAncF_succ sha1f (id / 100) (id / 100) _ (by omega), hw1]
      show (match chunkSet sW1.trees (id / 100) hh1 with
        | none => none
        | some ts => loopAncF sha1f (id / 100) (id / 100 / 100) { sW1 with trees := ts })
        = _
      rw [hset1]
    have hstop : ∀ (f : Nat) (s2 : GitState), 1 ≤ f → loopAncF sha1f f 0 s2 = some s2 := by
      intro f s2 hf
      obtain ⟨f2, rfl⟩ : ∃ f2, f = f2 + 1 := ⟨f - 1, by omega⟩
      rw [loopAncF, if_pos rfl]
    have hts1len2 : ts1.length = (grow s.trees (id / 100)).length := by
      rw [hts1len, htreesW1]
      rfl
    by_cases hmid : id < 10000
    · -- single loop iteration
      have hloopall : loopAncF sha1f (id / 100 + 1) (id / 100) (addState s id blobs2) =
          some ({ sW1 with trees := ts1 } : GitState) := by
        rw [hloop1, show id / 100 / 100 = 0 from by omega]
        exact hstop (id / 100) _ (by omega)
      obtain ⟨r, s3, htail, hbc3, htc3, hblobs3, htrees3, hib3, hau3, hOK3, hmono3,
        hlkroot⟩ := root_tail_content sha1f hinj ({ sW1 with trees := ts1 } : GitState)
          (by show ∀ ch ∈ ts1, _; exact hts1ch)
          (by show 0 < ts1.length
              rw [hts1len2]
              simp only [gitChunkSize] at hgt
              omega)
          (by rw [htc1c]; omega)
          (by intro i hi
              rw [htc1c] at hi
              rw [htv1 i (by omega)]
              exact hTCA i (by rw [htcA]; omega))
          hOKW1
      have hbv3 : ∀ j, blobView s3 j = if j = id then h else blobView s j := by
        intro j
        show (chunkGet s3.blobs j).getD emptySHA1 = _
        rw [hblobs3]
        rw [show (chunkGet ({ sW1 with trees := ts1 } : GitState).blobs j).getD emptySHA1 =
          blobView ({ sW1 with trees := ts1 } : GitState) j from rfl, hbv1 j]
        exact hbvA j
      have htv3 : ∀ i, treeView s3 i = treeView ({ sW1 with trees := ts1 } : GitState) i
          := by
        intro i
        show (chunkGet s3.trees i).getD emptySHA1 = _
        rw [htrees3]
        rfl
      have htv3at : treeView s3 (id / 100) = hh1 := by rw [htv3, htv1at]
      have htv3ne : ∀ i, i ≠ id / 100 → treeView s3 i = treeView s i := by
        intro i hi
        rw [htv3, htv1 i hi, htvA]
      have hbc3c : s3.blobsCnt = max s.blobsCnt (id + 1) := by rw [hbc3, hbc1c]
      have htc3c : s3.treesCnt = max s.treesCnt (id / 100 + 1) := by rw [htc3, htc1c]
      have hh1nz : hh1 ≠ emptySHA1 := by
        rw [hbb1]
        exact hnz bb1
      have hpres : ∀ i, treeView s i ≠ emptySHA1 → treeView s3 i ≠ emptySHA1 := by
        intro i hi
        by_cases hieq : i = id / 100
        · rw [hieq, htv3at]
          exact hh1nz
        · rw [htv3ne i hieq]
          exact hi
      have hnode0 : node0Body s3 = node0Body s := by
        unfold node0Body
        refine treeBytes_ext _ _ _ _ ?_ (fun k => rfl)
        intro k
        rw [getD_map_range, getD_map_range]
        by_cases hk : k < 100
        · rw [if_pos hk, if_pos hk, hbv3, if_neg (by omega)]
        · rw [if_neg hk, if_neg hk]
      have hnodeB1 : nodeBody s3 (id / 100) = nodeBody (addState s id blobs2) (id / 100)
          := by
        unfold nodeBody
        refine treeBytes_ext _ _ _ _ ?_ ?_
        · intro k
          rw [getD_map_range, getD_map_range]
          by_cases hk : k < 100
          · rw [if_pos hk, if_pos hk, hbv3, hbvA]
          · rw [if_neg hk, if_neg hk]
        · intro k
          rw [getD_map_range, getD_map_range]
          by_cases hk : k < 100
          · rw [if_pos hk, if_pos hk, htv3, htv1 _ (by omega)]
          · rw [if_neg hk, if_neg hk]
      have hnodeB : ∀ i, 1 ≤ i → i ≠ id / 100 → nodeBody s3 i = nodeBody s i := by
        intro i hi hine
        unfold nodeBody
        refine treeBytes_ext _ _ _ _ ?_ ?_
        · intro k
          rw [getD_map_range, getD_map_range]
          by_cases hk : k < 100
          · rw [if_pos hk, if_pos hk, hbv3, if_neg (by omega)]
          · rw [if_neg hk, if_neg hk]
        · intro k
          rw [getD_map_range, getD_map_range]
          by_cases hk : k < 100
          · rw [if_pos hk, if_pos hk, htv3ne _ (by omega)]
          · rw [if_neg hk, if_neg hk]
      refine ⟨r, s3, ?_, ⟨?_, hOK3, ?_, ?_, ?_, ?_, ?_, ?_, ?_⟩, hbv3, hlkroot⟩
      · rw [hred, if_neg hlt, hloopall]
        show (match sliceChunk ({ sW1 with trees := ts1 } : GitState).trees 0 0
            (min ({ sW1 with trees := ts1 } : GitState).treesCnt 100) with
          | none => none
          | some t => writeTree sha1f [] t ({ sW1 with trees := ts1 } : GitState))
          = some (r, s3)
        exact htail
      · refine ⟨?_, ?_, ?_, ?_, ?_, ?_⟩
        · rw [hblobs3]
          show ∀ ch ∈ sW1.blobs, _
          rw [hblobsW1]
          show ∀ ch ∈ blobs2, _
          exact hb2ch
        · rw [htrees3]
          show ∀ ch ∈ ts1, _
          exact hts1ch
        · rw [hbc3, hblobs3]
          show sW1.blobsCnt ≤ sW1.blobs.length * gitChunkSize
          rw [hbcW1, hblobsW1]
          exact hs1b
        · rw [htc3, htrees3]
          show sW1.treesCnt ≤ ts1.length * gitChunkSize
          rw [htcW1, hts1len, htreesW1]
          exact hs1t
        · rw [hbc3c]
          omega
        · rw [htc3c]
          omega
      · intro j hj
        rw [hbc3c] at hj
        rw [hbv3 j, if_neg (by omega)]
        exact hBC j (by omega)
      · intro i hi
        rw [htc3c] at hi
        rw [htv3ne i (by omega)]
        exact hTC i (by omega)
      · intro j
        rw [hbv3 j]
        by_cases hj : j = id
        · rw [if_pos hj]
          exact hh20
        · rw [if_neg hj]
          exact hBL j
      · intro i
        by_cases hi : i = id / 100
        · rw [hi, htv3at, hbb1]
          exact hlen bb1
        · rw [htv3ne i hi]
          exact hTL i
      · intro hne
        rw [htv3ne 0 (by omega)] at hne ⊢
        rw [hnode0]
        exact hmono3 _ _ (hmonoW1 _ _ (hT0 hne))
      · intro i hi1 hine
        by_cases hieq : i = id / 100
        · subst hieq
          rw [htv3at]
          rw [hnodeB1]
          exact hmono3 _ _ hlkN1
        · rw [htv3ne i hieq] at hine ⊢
          rw [hnodeB i hi1 hieq]
          exact hmono3 _ _ (hmonoW1 _ _ (hTN i hi1 hine))
      · intro id2 hne2
        rw [hbv3 id2] at hne2
        by_cases hj : id2 = id
        · subst hj
          refine ⟨fun h100 => absurd h100 (by omega), ?_, ?_⟩
          · intro _
            rw [htv3at]
            exact hh1nz
          · intro h10000
            exact absurd h10000 (by omega)
        · rw [if_neg hj] at hne2
          obtain ⟨ho0, ho1, ho2⟩ := hOCC id2 hne2
          exact ⟨fun h100 => hpres 0 (ho0 h100), fun h100 => hpres _ (ho1 h100),
            fun h10000 => hpres _ (ho2 h10000)⟩
    · -- two loop iterations: also rebuild node id / 100 / 100
      obtain ⟨hh2, sW2, hw2, hbb2ex, hbcW2, htcW2, hblobsW2, htreesW2, hibW2, hauW2,
        hOKW2, hmonoW2, hlkN2⟩ :=
        writeTreesN_content sha1f hinj (id / 100 / 100)
          ({ sW1 with trees := ts1 } : GitState)
          (by omega) (by omega)
          (by show ∀ ch ∈ sW1.blobs, _
              rw [hblobsW1]
              show ∀ ch ∈ blobs2, _
              exact hb2ch)
          (by show ∀ ch ∈ ts1, _; exact hts1ch)
          (by show sW1.blobsCnt ≤ sW1.blobs.length * gitChunkSize
              rw [hbcW1, hblobsW1]
              exact hs1b)
          (by show sW1.treesCnt ≤ ts1.length * gitChunkSize
              rw [htcW1, hts1len, htreesW1]
              exact hs1t)
          (by show sW1.treesCnt ≤ 1000
              rw [htcW1]
              exact hs1t1000)
          (by intro j hj
              rw [hbv1 j]
              refine hBCA j ?_
              revert hj
              show sW1.blobsCnt ≤ j → _
              rw [hbcW1]
              exact fun x => x)
          (by intro i hi
              rw [htc1c] at hi
              rw [htv1 i (by omega)]
              exact hTCA i (by rw [htcA]; omega))
          hOKW1
      obtain ⟨bb2, hbb2⟩ := hbb2ex
      obtain ⟨ts2, hset2, hts2len, hts2ch, hget2, hget2ne, _⟩ :=
        chunkSet_spec sW2.trees (id / 100 / 100) hh2
          (by rw [htreesW2]; show ∀ ch ∈ ts1, _; exact hts1ch)
          (by rw [htreesW2]
              show id / 100 / 100 < ts1.length * gitChunkSize
              rw [hts1len2]
              simp only [gitChunkSize] at *
              omega)
      have hbv2 : ∀ j, blobView ({ sW2 with trees := ts2 } : GitState) j =
          blobView (addState s id blobs2) j := by
        intro j
        show (chunkGet sW2.blobs j).getD emptySHA1 = _
        rw [hblobsW2]
        rw [show (chunkGet ({ sW1 with trees := ts1 } : GitState).blobs j).getD emptySHA1 =
          blobView ({ sW1 with trees := ts1 } : GitState) j from rfl, hbv1 j]
      have htv2 : ∀ i, i ≠ id / 100 / 100 →
          treeView ({ sW2 with trees := ts2 } : GitState) i =
          treeView ({ sW1 with trees := ts1 } : GitState) i := by
        intro i hi
        show (chunkGet ts2 i).getD emptySHA1 = _
        rw [hget2ne i hi, htreesW2]
        rfl
      have htv2at : treeView ({ sW2 with trees := ts2 } : GitState) (id / 100 / 100) = hh2
          := by
        show (chunkGet ts2 (id / 100 / 100)).getD emptySHA1 = hh2
        rw [hget2]
        rfl
      have hbc2c : ({ sW2 with trees := ts2 } : GitState).blobsCnt =
          max s.blobsCnt (id + 1) := by
        show sW2.blobsCnt = _
        rw [hbcW2]
        exact hbc1c
      have htc2c : ({ sW2 with trees := ts2 } : GitState).treesCnt =
          max s.treesCnt (id / 100 + 1) := by
        show sW2.treesCnt = _
        rw [htcW2]
        exact htc1c
      obtain ⟨f2, hf2⟩ : ∃ f2, id / 100 = f2 + 1 := ⟨id / 100 - 1, by omega⟩
      have hback : loopAncF sha1f (id / 100) (id / 100 / 100)
          ({ sW1 with trees := ts1 } : GitState) =
          loopAncF sha1f (f2 + 1) (id / 100 / 100)
          ({ sW1 with trees := ts1 } : GitState) := by
        rw [hf2]
      have hloop2 : loopAncF sha1f (f2 + 1) (id / 100 / 100)
          ({ sW1 with trees := ts1 } : GitState) =
          loopAncF sha1f f2 (id / 100 / 100 / 100)
          ({ sW2 with trees := ts2 } : GitState) := by
        rw [loopAncF_succ sha1f f2 (id / 100 / 100) _ (by omega), hw2]
        show (match chunkSet sW2.trees (id / 100 / 100) hh2 with
          | none => none
          | some ts => loopAncF sha1f f2 (id / 100 / 100 / 100) { sW2 with trees := ts })
          = _
        rw [hset2]
      have hloopall : loopAncF sha1f (id / 100 + 1) (id / 100) (addState s id blobs2) =
          some ({ sW2 with trees := ts2 } : GitState) := by
        rw [hloop1, hback, hloop2, show id / 100 / 100 / 100 = 0 from by omega]
        exact hstop f2 _ (by omega)
      obtain ⟨r, s3, htail, hbc3, htc3, hblobs3, htrees3, hib3, hau3, hOK3, hmono3,
        hlkroot⟩ := root_tail_content sha1f hinj ({ sW2 with trees := ts2 } : GitState)
          (by show ∀ ch ∈ ts2, _; exact hts2ch)
          (by show 0 < ts2.length
              rw [hts2len, htreesW2]
              show 0 < ts1.length
              rw [hts1len2]
              simp only [gitChunkSize] at hgt
              omega)
          (by rw [htc2c]; omega)
          (by intro i hi
              rw [htc2c] at hi
              rw [htv2 i (by omega), htv1 i (by omega)]
              exact hTCA i (by rw [htcA]; omega))
          hOKW2
      have hbv3 : ∀ j, blobView s3 j = if j = id then h else blobView s j := by
        intro j
        show (chunkGet s3.blobs j).getD emptySHA1 = _
        rw [hblobs3]
        rw [show (chunkGet ({ sW2 with trees := ts2 } : GitState).blobs j).getD emptySHA1 =
          blobView ({ sW2 with trees := ts2 } : GitState) j from rfl, hbv2 j]
        exact hbvA j
      have htv3 : ∀ i, treeView s3 i = treeView ({ sW2 with trees := ts2 } : GitState) i
          := by
        intro i
        show (chunkGet s3.trees i).getD emptySHA1 = _
        rw [htrees3]
        rfl
      have htv3at2 : treeView s3 (id / 100 / 100) = hh2 := by rw [htv3, htv2at]
      have htv3at1 : treeView s3 (id / 100) = hh1 := by
        rw [htv3, htv2 _ (by omega), htv1at]
      have htv3ne : ∀ i, i ≠ id / 100 → i ≠ id / 100 / 100 →
          treeView s3 i = treeView s i := by
        intro i hi1 hi2
        rw [htv3, htv2 i hi2, htv1 i hi1, htvA]
      have hbc3c : s3.blobsCnt = max s.blobsCnt (id + 1) := by rw [hbc3, hbc2c]
      have htc3c : s3.treesCnt = max s.treesCnt (id / 100 + 1) := by rw [htc3, htc2c]
      have hh1nz : hh1 ≠ emptySHA1 := by
        rw [hbb1]
        exact hnz bb1
      have hh2nz : hh2 ≠ emptySHA1 := by
        rw [hbb2]
        exact hnz bb2
      have hpres : ∀ i, treeView s i ≠ emptySHA1 → treeView s3 i ≠ emptySHA1 := by
        intro i hi
        by_cases hieq1 : i = id / 100
        · rw [hieq1, htv3at1]
          exact hh1nz
        · by_cases hieq2 : i = id / 100 / 100
          · rw [hieq2, htv3at2]
            exact hh2nz
          · rw [htv3ne i hieq1 hieq2]
            exact hi
      have hnode0 : node0Body s3 = node0Body s := by
        unfold node0Body
        refine treeBytes_ext _ _ _ _ ?_ (fun k => rfl)
        intro k
        rw [getD_map_range, getD_map_range]
        by_cases hk : k < 100
        · rw [if_pos hk, if_pos hk, hbv3, if_neg (by omega)]
        · rw [if_neg hk, if_neg hk]
      have hnodeB1 : nodeBody s3 (id / 100) = nodeBody (addState s id blobs2) (id / 100)
          := by
        unfold nodeBody
        refine treeBytes_ext _ _ _ _ ?_ ?_
        · intro k
          rw [getD_map_range, getD_map_range]
          by_cases hk : k < 100
          · rw [if_pos hk, if_pos hk, hbv3, hbvA]
          · rw [if_neg hk, if_neg hk]
        · intro k
          rw [getD_map_range, getD_map_range]
          by_cases hk : k < 100
          · rw [if_pos hk, if_pos hk, htv3ne _ (by omega) (by omega), htvA]
          · rw [if_neg hk, if_neg hk]
      have hnodeB2 : nodeBody s3 (id / 100 / 100) =
          nodeBody ({ sW1 with trees := ts1 } : GitState) (id / 100 / 100) := by
        unfold nodeBody
        refine treeBytes_ext _ _ _ _ ?_ ?_
        · intro k
          rw [getD_map_range, getD_map_range]
          by_cases hk : k < 100
          · rw [if_pos hk, if_pos hk, hbv3, hbv1, hbvA]
          · rw [if_neg hk, if_neg hk]
        · intro k
          rw [getD_map_range, getD_map_range]
          by_cases hk : k < 100
          · rw [if_pos hk, if_pos hk, htv3, htv2 _ (by omega)]
          · rw [if_neg hk, if_neg hk]
      have hnodeB : ∀ i, 1 ≤ i → i ≠ id / 100 → i ≠ id / 100 / 100 →
          nodeBody s3 i = nodeBody s i := by
        intro i hi hine1 hine2
        unfold nodeBody
        refine treeBytes_ext _ _ _ _ ?_ ?_
        · intro k
          rw [getD_map_range, getD_map_range]
          by_cases hk : k < 100
          · rw [if_pos hk, if_pos hk, hbv3, if_neg (by omega)]
          · rw [if_neg hk, if_neg hk]
        · intro k
          rw [getD_map_range, getD_map_range]
          by_cases hk : k < 100
          · rw [if_pos hk, if_pos hk, htv3ne _ (by omega) (by omega)]
          · rw [if_neg hk, if_neg hk]
      refine ⟨r, s3, ?_, ⟨?_, hOK3, ?_, ?_, ?_, ?_, ?_, ?_, ?_⟩, hbv3, hlkroot⟩
      · rw [hred, if_neg hlt, hloopall]
        show (match sliceChunk ({ sW2 with trees := ts2 } : GitState).trees 0 0
            (min ({ sW2 with trees := ts2 } : GitState).treesCnt 100) with
          | none => none
          | some t => writeTree sha1f [] t ({ sW2 with trees := ts2 } : GitState))
          = some (r, s3)
        exact htail
      · refine ⟨?_, ?_, ?_, ?_, ?_, ?_⟩
        · rw [hblobs3]
          show ∀ ch ∈ sW2.blobs, _
          rw [hblobsW2]
          show ∀ ch ∈ sW1.blobs, _
          rw [hblobsW1]
          show ∀ ch ∈ blobs2, _
          exact hb2ch
        · rw [htrees3]
          show ∀ ch ∈ ts2, _
          exact hts2ch
        · rw [hbc3, hblobs3]
          show sW2.blobsCnt ≤ sW2.blobs.length * gitChunkSize
          rw [hbcW2, hblobsW2]
          show sW1.blobsCnt ≤ sW1.blobs.length * gitChunkSize
          rw [hbcW1, hblobsW1]
          exact hs1b
        · rw [htc3, htrees3]
          show sW2.treesCnt ≤ ts2.length * gitChunkSize
          rw [htcW2, hts2len, htreesW2]
          show sW1.treesCnt ≤ ts1.length * gitChunkSize
          rw [htcW1, hts1len, htreesW1]
          exact hs1t
        · rw [hbc3c]
          omega
        · rw [htc3c]
          omega
      · intro j hj
        rw [hbc3c] at hj
        rw [hbv3 j, if_neg (by omega)]
        exact hBC j (by omega)
      · intro i hi
        rw [htc3c] at hi
        rw [htv3ne i (by omega) (by omega)]
        exact hTC i (by omega)
      · intro j
        rw [hbv3 j]
        by_cases hj : j = id
        · rw [if_pos hj]
          exact hh20
        · rw [if_neg hj]
          exact hBL j
      · intro i
        by_cases hi1 : i = id / 100
        · rw [hi1, htv3at1, hbb1]
          exact hlen bb1
        · by_cases hi2 : i = id / 100 / 100
          · rw [hi2, htv3at2, hbb2]
            exact hlen bb2
          · rw [htv3ne i hi1 hi2]
            exact hTL i
      · intro hne
        rw [htv3ne 0 (by omega) (by omega)] at hne ⊢
        rw [hnode0]
        exact hmono3 _ _ (hmonoW2 _ _ (hmonoW1 _ _ (hT0 hne)))
      · intro i hi1 hine
        by_cases hieq1 : i = id / 100
        · subst hieq1
          rw [htv3at1, hnodeB1]
          exact hmono3 _ _ (hmonoW2 _ _ hlkN1)
        · by_cases hieq2 : i = id / 100 / 100
          · subst hieq2
            rw [htv3at2, hnodeB2]
            exact hmono3 _ _ hlkN2
          · rw [htv3ne i hieq1 hieq2] at hine ⊢
            rw [hnodeB i hi1 hieq1 hieq2]
            exact hmono3 _ _ (hmonoW2 _ _ (hmonoW1 _ _ (hTN i hi1 hine)))
      · intro id2 hne2
        rw [hbv3 id2] at hne2
        by_cases hj : id2 = id
        · subst hj
          refine ⟨fun h100 => absurd h100 (by omega), ?_, ?_⟩
          · intro _
            rw [htv3at1]
            exact hh1nz
          · intro _
            rw [show id2 / 10000 = id2 / 100 / 100 from by omega, htv3at2]
            exact hh2nz
        · rw [if_neg hj] at hne2
          obtain ⟨ho0, ho1, ho2⟩ := hOCC id2 hne2
          exact ⟨fun h100 => hpres 0 (ho0 h100), fun h100 => hpres _ (ho1 h100),
            fun h10000 => hpres _ (ho2 h10000)⟩

/-! ### The import driver over a list of (id, hash) pairs -/

/-- Apply a list of (id, hash) writes, in order, to a blob map. -/
def applyPairs : List (Nat × SHA1) → (Nat → SHA1) → Nat → SHA1
  | [], f => f
  | p :: rest, f => applyPairs rest (fun j => if j = p.1 then p.2 else f j)

/-- The import driver: insert the pairs in order via `addWriteTree`,
returning the root hash of the last insertion and the final state; a
failed insertion (a Go panic) aborts the run. -/
def insertList (sha1f : List Nat → SHA1) : List (Nat × SHA1) → GitState →
    Option (SHA1 × GitState)
  | [], _ => none
  | p :: rest, s =>
    match addWriteTree sha1f p.1 p.2 s with
    | none => none
    | some (r, s1) => if rest = [] then some (r, s1) else insertList sha1f rest s1

theorem applyPairs_congr : ∀ (l : List (Nat × SHA1)) (f g : Nat → SHA1),
    (∀ j, f j = g j) → ∀ j, applyPairs l f j = applyPairs l g j := by
  intro l
  induction l with
  | nil => intro f g hfg j; exact hfg j
  | cons p rest ih =>
    intro f g hfg j
    show applyPairs rest _ j = applyPairs rest _ j
    refine ih _ _ ?_ j
    intro j2
    by_cases hj : j2 = p.1
    · rw [if_pos hj, if_pos hj]
    · rw [if_neg hj, if_neg hj]
      exact hfg j2

theorem applyPairs_not_mem : ∀ (l : List (Nat × SHA1)) (f : Nat → SHA1) (j : Nat),
    (∀ pr ∈ l, pr.1 ≠ j) → applyPairs l f j = f j := by
  intro l
  induction l with
  | nil => intro f j _; rfl
  | cons p rest ih =>
    intro f j hne
    show applyPairs rest _ j = f j
    rw [ih _ j (fun pr hpr => hne pr (by simp [hpr]))]
    show (if j = p.1 then p.2 else f j) = f j
    rw [if_neg (fun hc => hne p (by simp) hc.symm)]

theorem applyPairs_mem : ∀ (l : List (Nat × SHA1)) (f : Nat → SHA1) (a : Nat) (b : SHA1),
    (a, b) ∈ l → l.Pairwise (fun p q => p.1 ≠ q.1) →
    applyPairs l f a = b := by
  intro l
  induction l with
  | nil => intro f a b hab _; exact absurd hab (List.not_mem_nil _)
  | cons p rest ih =>
    intro f a b hab hpw
    rcases List.mem_cons.mp hab with heq | hmem
    · obtain rfl := heq.symm
      show applyPairs rest _ a = b
      rw [applyPairs_not_mem rest _ a ?_]
      · show (if a = a then b else f a) = b
        rw [if_pos rfl]
      · intro pr hpr
        exact ((List.pairwise_cons.mp hpw).1 pr hpr).symm
    · exact ih _ a b hmem (List.pairwise_cons.mp hpw).2

/-- Running the driver from an invariant state: it succeeds, the final
state satisfies the invariant, the blob views are the sequential updates,
and the returned root hash is stored with the canonical root payload. -/
theorem insertList_spec (sha1f : List Nat → SHA1)
    (hinj : Function.Injective sha1f) (hlen : ∀ b, (sha1f b).length = 20)
    (hnz : ∀ b, sha1f b ≠ emptySHA1) :
    ∀ (pairs : List (Nat × SHA1)) (s : GitState), pairs ≠ [] →
      contentINV sha1f s →
      (∀ pr ∈ pairs, pr.1 < 100000 ∧ pr.2.length = 20 ∧ pr.2 ≠ emptySHA1) →
      ∃ r s3, insertList sha1f pairs s = some (r, s3) ∧
        contentINV sha1f s3 ∧
        (∀ j, blobView s3 j = applyPairs pairs (blobView s) j) ∧
        storeLookup s3.store r = some (1, rootBody s3) := by
  intro pairs
  induction pairs with
  | nil => intro s hne; exact absurd rfl hne
  | cons p rest ih =>
    intro s _ hINV hall
    obtain ⟨hid, hl20, hnz2⟩ := hall p (by simp)
    obtain ⟨r1, s1, hrun1, hINV1, hbv1, hlk1⟩ :=
      addWriteTree_content sha1f hinj hlen hnz p.1 p.2 s hINV hid hl20 hnz2
    by_cases hrest : rest = []
    · subst hrest
      refine ⟨r1, s1, ?_, hINV1, ?_, hlk1⟩
      · show (match addWriteTree sha1f p.1 p.2 s with
          | none => none
          | some (r, s2) => if ([] : List (Nat × SHA1)) = [] then some (r, s2)
            else insertList sha1f [] s2) = some (r1, s1)
        rw [hrun1]
        rfl
      · intro j
        exact hbv1 j
    · obtain ⟨r, s3, hrun, hINV3, hbv3, hlk3⟩ := ih s1 hrest hINV1
        (fun pr hpr => hall pr (by simp [hpr]))
      refine ⟨r, s3, ?_, hINV3, ?_, hlk3⟩
      · show (match addWriteTree sha1f p.1 p.2 s with
          | none => none
          | some (r2, s2) => if rest = [] then some (r2, s2)
            else insertList sha1f rest s2) = some (r, s3)
        rw [hrun1]
        show (if rest = [] then some (r1, s1) else insertList sha1f rest s1) = some (r, s3)
        rw [if_neg hrest]
        exact hrun
      · intro j
        show blobView s3 j =
          applyPairs rest (fun j2 => if j2 = p.1 then p.2 else blobView s j2) j
        rw [hbv3 j]
        exact applyPairs_congr rest _ _ (fun j2 => hbv1 j2) j

/-! ### Injectivity of the path encoding on the representable range -/

theorem idToGitName_inj_lt (a b : Nat) (ha : a < 100000) (hb : b < 100000)
    (h : idToGitName (a : Int) = idToGitName (b : Int)) : a = b := by
  have hcases : ∀ n : Nat, n < 100000 → n < 100 ∨ (100 ≤ n ∧ n < 10000) ∨ 10000 ≤ n := by
    omega
  rcases hcases a ha with hA | ⟨hA1, hA2⟩ | hA <;>
    rcases hcases b hb with hB | ⟨hB1, hB2⟩ | hB
  · rw [idToGitName_low a hA, idToGitName_low b hB] at h
    simp only [List.cons.injEq, and_true] at h
    omega
  · rw [idToGitName_low a hA, idToGitName_mid b hB1 hB2] at h
    simp only [List.cons.injEq, and_true] at h
    omega
  · rw [idToGitName_low a hA, idToGitName_high b hB (by omega)] at h
    simp only [List.cons.injEq, and_true] at h
    omega
  · rw [idToGitName_mid a hA1 hA2, idToGitName_low b hB] at h
    simp only [List.cons.injEq, and_true] at h
    omega
  · rw [idToGitName_mid a hA1 hA2, idToGitName_mid b hB1 hB2] at h
    simp only [List.cons.injEq, and_true] at h
    omega
  · rw [idToGitName_mid a hA1 hA2, idToGitName_high b hB (by omega)] at h
    simp only [List.cons.injEq, and_true] at h
    omega
  · rw [idToGitName_high a hA (by omega), idToGitName_low b hB] at h
    simp only [List.cons.injEq, and_true] at h
    omega
  · rw [idToGitName_high a hA (by omega), idToGitName_mid b hB1 hB2] at h
    simp only [List.cons.injEq, and_true] at h
    omega
  · rw [idToGitName_high a hA (by omega), idToGitName_high b hB (by omega)] at h
    simp only [List.cons.injEq, and_true] at h
    omega

/-! ### The decoded leaf list has no duplicates -/

theorem fmt02_length (i : Nat) (hi : i < 100) : (fmt02 i).length = 2 := by
  rw [fmt02_pair i hi]
  rfl

theorem fmt02_inj (i j : Nat) (hi : i < 100) (hj : j < 100) (h : fmt02 i = fmt02 j) :
    i = j := by
  rw [fmt02_pair i hi, fmt02_pair j hj] at h
  simp only [List.cons.injEq, and_true] at h
  omega

theorem slotLeaves_path (fb ft : Nat → SHA1) (sub : Nat → List (List Nat × SHA1))
    (k : Nat) (p : List Nat × SHA1) (hp : p ∈ slotLeaves fb ft sub k) :
    ∃ r2, p.1 = fmt02 k ++ r2 := by
  unfold slotLeaves at hp
  rcases List.mem_append.mp hp with hm | hm
  · split at hm
    · simp only [List.mem_singleton] at hm
      subst hm
      exact ⟨[46, 109, 100], rfl⟩
    · exact absurd hm (List.not_mem_nil p)
  · split at hm
    · obtain ⟨q, _, rfl⟩ := List.mem_map.mp hm
      exact ⟨47 :: q.1, rfl⟩
    · exact absurd hm (List.not_mem_nil p)

theorem nodup_windowLeaves (fb ft : Nat → SHA1) (sub : Nat → List (List Nat × SHA1))
    (hsub : ∀ k, k < 100 → (sub k).Nodup) :
    (windowLeaves fb ft sub).Nodup := by
  unfold windowLeaves
  rw [List.nodup_flatten]
  constructor
  · intro l hl
    obtain ⟨k, hk, rfl⟩ := List.mem_map.mp hl
    rw [List.mem_range] at hk
    unfold slotLeaves
    refine List.Nodup.append ?_ ?_ ?_
    · split
      · exact List.nodup_singleton _
      · exact List.nodup_nil
    · split
      case isTrue hcond =>
        refine List.Nodup.map ?_ (hsub k hk)
        intro q1 q2 hq
        simp only [Prod.mk.injEq] at hq
        obtain ⟨hpath, hsnd⟩ := hq
        have h1 : (47 : Nat) :: q1.1 = 47 :: q2.1 := List.append_cancel_left hpath
        simp only [List.cons.injEq, true_and] at h1
        exact Prod.ext h1 hsnd
      case isFalse _ => exact List.nodup_nil
    · intro p hp1 hp2
      split at hp1
      case isTrue hcond =>
        simp only [List.mem_singleton] at hp1
        subst hp1
        split at hp2
        case isTrue hcond2 =>
          obtain ⟨q, _, hpe⟩ := List.mem_map.mp hp2
          have hfst := congrArg Prod.fst hpe
          simp only at hfst
          have h1 : (47 : Nat) :: q.1 = [46, 109, 100] := List.append_cancel_left hfst
          simp at h1
        case isFalse _ => exact absurd hp2 (List.not_mem_nil _)
      case isFalse _ => exact absurd hp1 (List.not_mem_nil p)
  · rw [List.pairwise_map]
    refine List.Pairwise.imp_of_mem ?_ (List.pairwise_lt_range 100)
    intro k1 k2 hk1 hk2 hlt p hp1 hp2
    rw [List.mem_range] at hk1 hk2
    obtain ⟨r1, hr1⟩ := slotLeaves_path fb ft sub k1 p hp1
    obtain ⟨r2, hr2⟩ := slotLeaves_path fb ft sub k2 p hp2
    have htake : fmt02 k1 = fmt02 k2 := by
      have e1 : (fmt02 k1 ++ r1).take 2 = fmt02 k1 := by
        rw [show (2 : Nat) = (fmt02 k1).length from (fmt02_length k1 hk1).symm]
        exact List.take_left _ _
      have e2 : (fmt02 k2 ++ r2).take 2 = fmt02 k2 := by
        rw [show (2 : Nat) = (fmt02 k2).length from (fmt02_length k2 hk2).symm]
        exact List.take_left _ _
      rw [← e1, ← e2, ← hr1, ← hr2]
    exact absurd (fmt02_inj k1 k2 hk1 hk2 htake) (by omega)

/-- C2 — Sparse-tree correctness. For every finite set of inserted
(id, blobHash) pairs with pairwise distinct ids in the supported range and
non-zero 20-byte hashes, under an injective 20-byte digest that never
produces the zero hash: the sequential import succeeds, and recursively
decoding the root tree returned by the last `addWriteTree` call lists
blob leaves that are a permutation of exactly the inserted pairs, each at
the path `idToGitName id` — no extra, no missing, no duplicate entries.
Slots holding the zero hash produce no entry (the decode enumerates only
non-zero slots, which is what makes the permutation exact). -/
theorem C2_sparse_tree_decode (sha1f : List Nat → SHA1) (pairs : List (Nat × SHA1))
    (hinj : Function.Injective sha1f) (hlen : ∀ b, (sha1f b).length = 20)
    (hnz : ∀ b, sha1f b ≠ emptySHA1)
    (hne : pairs ≠ [])
    (hids : pairs.Pairwise (fun p q => p.1 ≠ q.1))
    (hall : ∀ pr ∈ pairs, pr.1 < 100000 ∧ pr.2.length = 20 ∧ pr.2 ≠ emptySHA1) :
    ∃ r s, insertList sha1f pairs initState = some (r, s) ∧
      ∃ leaves, decodeTreeF s.store 4 r = some leaves ∧
        leaves.Perm (pairs.map (fun pr => (idToGitName (pr.1 : Int), pr.2))) := by
  obtain ⟨r, s, hrun, hINV, hbv, hlk⟩ :=
    insertList_spec sha1f hinj hlen hnz pairs initState hne (contentINV_init sha1f) hall
  refine ⟨r, s, hrun, rootLeaves s, decode_root sha1f s r hINV hlk, ?_⟩
  have hbvs : ∀ j, blobView s j = applyPairs pairs (fun _ => emptySHA1) j := by
    intro j
    rw [hbv j]
    exact applyPairs_congr pairs _ _ (fun j2 => rfl) j
  have hnd1 : (rootLeaves s).Nodup := by
    unfold rootLeaves
    refine nodup_windowLeaves _ _ _ ?_
    intro k _
    unfold rootSub
    split
    · exact nodup_windowLeaves _ _ _ (fun _ _ => List.nodup_nil)
    · refine nodup_windowLeaves _ _ _ ?_
      intro k2 _
      exact nodup_windowLeaves _ _ _ (fun _ _ => List.nodup_nil)
  have hnd2 : (pairs.map (fun pr => (idToGitName (pr.1 : Int), pr.2))).Nodup := by
    refine List.Nodup.map_on ?_ (hids.imp (fun hne2 heq => hne2 (by rw [heq])))
    intro x hx y hy hxy
    simp only [Prod.mk.injEq] at hxy
    obtain ⟨hpath, hsnd⟩ := hxy
    have hfst : x.1 = y.1 := idToGitName_inj_lt x.1 y.1 (hall x hx).1 (hall y hy).1 hpath
    exact Prod.ext hfst hsnd
  rw [List.perm_ext_iff_of_nodup hnd1 hnd2]
  intro p
  rw [mem_rootLeaves sha1f s hINV p, List.mem_map]
  constructor
  · rintro ⟨id, hid, hbvne, rfl⟩
    have hexists : ∃ pr ∈ pairs, pr.1 = id := by
      by_contra hc
      push_neg at hc
      rw [hbvs id, applyPairs_not_mem pairs _ id hc] at hbvne
      exact hbvne rfl
    obtain ⟨pr, hpr, hpr1⟩ := hexists
    refine ⟨pr, hpr, ?_⟩
    have hval : blobView s id = pr.2 := by
      rw [hbvs id]
      refine applyPairs_mem pairs _ id pr.2 ?_ hids
      rw [← hpr1]
      exact hpr
    rw [hval, hpr1]
  · rintro ⟨pr, hpr, rfl⟩
    have hval : blobView s pr.1 = pr.2 := by
      rw [hbvs pr.1]
      exact applyPairs_mem pairs _ pr.1 pr.2 hpr hids
    exact ⟨pr.1, (hall pr hpr).1, by rw [hval]; exact (hall pr hpr).2.2, by rw [hval]⟩

/-- Closed witness for C2: a single insertion of (id 0, all-ones hash)
with the injective toy digest. -/
theorem C2_sparse_tree_decode_witness :
    ∃ r s, insertList toySha [(0, List.replicate 20 1)] initState = some (r, s) ∧
      ∃ leaves, decodeTreeF s.store 4 r = some leaves ∧
        leaves.Perm ([(0, List.replicate 20 1)].map
          (fun pr => (idToGitName (pr.1 : Int), pr.2))) :=
  C2_sparse_tree_decode toySha [(0, List.replicate 20 1)] toySha_inj toySha_length
    toySha_ne_empty (by simp) (List.pairwise_singleton _ _)
    (by intro pr hpr
        simp only [List.mem_singleton] at hpr
        subst hpr
        refine ⟨by omega, by simp, ?_⟩
        decide)
